import Mathlib

/-!
# config-go: flattening, path resolution and placeholder interpolation

A shallow embedding of `src/path.go`, `src/config_map.go`, `src/config.go` and of the
interpolator of `src/pkg/config.go`.

Modelling conventions

* A Go `string` is a list of Unicode code points, `Str := List Char` (valid UTF-8 text).
* `os.Getenv` is a function `env : Str → Str` (the empty string for an unset variable).
* `strings.EqualFold` compares rune by rune up to Unicode simple case folding; the folding
  table is the function `fold : Char → Char` sending a rune to the canonical member of its
  `unicode.SimpleFold` orbit, taken as a parameter.
* A Go `map[Path]string` is an association list without duplicate keys; its iteration order
  is the list order (Go leaves the order unspecified), and a deserialized map is the list of
  its entries in the order in which `reflect` hands them out.
* The regular expressions of the sources are modelled by hand: the placeholder pattern by an
  anchored matcher with leftmost, non-overlapping search, and the patterns that `values` builds
  from a path by a small compiler for literals, the dot, escaped punctuation and the postfix
  `+`.
* Positions are counted in runes; `configMap.keys` cuts a key at a byte position, which is the
  same cut whenever the runes before it are ASCII.
-/

namespace ConfigGo

/-- A Go string, as the list of its runes. -/
abbrev Str := List Char

/-! ## The `strings` and `unicode` primitives used by the sources -/

/-- The predicate `unicode.IsSpace`: the runes with the White_Space property. -/
def isSpace (c : Char) : Bool :=
  let n := c.toNat
  (0x09 ≤ n && n ≤ 0x0D) || n == 0x20 || n == 0x85 || n == 0xA0 || n == 0x1680 ||
    (0x2000 ≤ n && n ≤ 0x200A) || n == 0x2028 || n == 0x2029 || n == 0x202F ||
    n == 0x205F || n == 0x3000

/-- The function `strings.TrimSpace`: drop leading and trailing white space. -/
def trimSpace (s : Str) : Str :=
  (s.dropWhile isSpace).rdropWhile isSpace

/-- The function `strings.HasPrefix`. -/
def hasPrefix (s pre : Str) : Bool :=
  pre.isPrefixOf s

/-- The function `strings.EqualFold`, over the folding table `fold`. -/
def equalFold (fold : Char → Char) (s t : Str) : Bool :=
  decide (s.map fold = t.map fold)

/-- Scanner behind `strings.Replace(s, old, new, -1)` for a non-empty `old`: the first
argument counts the runes of an occurrence that are still to be skipped. -/
def replaceGo (old new : Str) : Nat → Str → Str
  | _, [] => []
  | k + 1, _ :: s => replaceGo old new k s
  | 0, c :: s =>
    if old.isPrefixOf (c :: s) then new ++ replaceGo old new (old.length - 1) s
    else c :: replaceGo old new 0 s

/-- Case of `strings.Replace` with an empty `old`: `new` is inserted after every rune. -/
def insertAfterEach (new : Str) : Str → Str
  | [] => []
  | c :: s => c :: (new ++ insertAfterEach new s)

/-- The call `strings.Replace(s, old, new, -1)`: every non-overlapping occurrence of `old`,
taken from the left, is replaced by `new`. -/
def stringsReplaceAll (s old new : Str) : Str :=
  if old = [] then new ++ insertAfterEach new s else replaceGo old new 0 s

/-- Scanner behind `strings.Split(s, sep)` for a non-empty `sep`. -/
def splitGo (sep : Str) : Nat → Str → List Str
  | _, [] => [[]]
  | k + 1, _ :: s => splitGo sep k s
  | 0, c :: s =>
    if sep.isPrefixOf (c :: s) then [] :: splitGo sep (sep.length - 1) s
    else
      match splitGo sep 0 s with
      | [] => [[c]]
      | p :: ps => (c :: p) :: ps

/-- The function `strings.Split`: all the pieces of `s` between occurrences of `sep`
(the runes of `s` when `sep` is empty). -/
def stringsSplit (s sep : Str) : List Str :=
  if sep = [] then s.map (fun c => [c]) else splitGo sep 0 s

/-- Decimal digits of a natural number, as `fmt.Sprintf("%d", n)` prints them. -/
def decimalNat (n : Nat) : Str :=
  Nat.toDigits 10 n

/-- Decimal rendering of an integer, `fmt.Sprintf("%d", n)`. -/
def decimal (n : Int) : Str :=
  if n < 0 then '-' :: decimalNat n.natAbs else decimalNat n.toNat

/-! ## `src/path.go` -/

/-- The type `Path` of `path.go`: a string. -/
abbrev Path := Str

/-- Method `Path.String`: the trimmed raw string. -/
def Path.String (p : Path) : Str :=
  trimSpace p

/-- Method `Path.Base`: the last dot-separated element. -/
def Path.Base (p : Path) : Str :=
  let e := stringsSplit (Path.String p) ['.']
  if e.length = 1 then e.headD [] else e.getLastD []

/-- Method `Path.Depth`: the number of dot-separated elements. -/
def Path.Depth (p : Path) : Nat :=
  (stringsSplit (Path.String p) ['.']).length

/-- Method `Path.Empty`. -/
def Path.Empty (p : Path) : Bool :=
  decide (Path.String p = [])

/-- Method `Path.Equals`: `strings.EqualFold` of the two trimmed strings. -/
def Path.Equals (fold : Char → Char) (p path : Path) : Bool :=
  equalFold fold (Path.String p) (Path.String path)

/-- Method `Path.Join`. -/
def Path.Join (p path : Path) : Path :=
  if Path.Empty p then path
  else if Path.Empty path then p
  else Path.String p ++ '.' :: Path.String path

/-! ## The interpolator of `src/config.go` and `src/pkg/config.go` -/

/-- The constant `placeholderValueDelimiter`. -/
def placeholderValueDelimiter : Str := ['|']

/-- An anchored match of `placeholderPattern`, the expression `\$\x7b[^\x7d]+\x7d`, at the head
of `s`: the text is a dollar sign, an opening brace, a longest non-empty run of runes other than
the closing brace, and a closing brace. Returns the run (the capture of
`placeholderValuePattern`). -/
def matchPlaceholderAt (s : Str) : Option Str :=
  if ['$', '{'].isPrefixOf s then
    let body := s.drop 2
    let inner := body.takeWhile (fun c => c != '}')
    if inner ≠ [] ∧ inner.length < body.length then some inner else none
  else none

/-- The text of a placeholder with inner expression `inner`. -/
def placeholderText (inner : Str) : Str :=
  '$' :: '{' :: (inner ++ ['}'])

/-- The call `pattern.MatchString(value)` for `placeholderPattern`. -/
def placeholderMatchString : Str → Bool
  | [] => false
  | c :: s => (matchPlaceholderAt (c :: s)).isSome || placeholderMatchString s

/-- Scanner of `findAllMatchesOf`: successive non-overlapping leftmost matches; the first
argument counts the runes of the last match still to be skipped. -/
def findAllGo : Nat → Str → List Str
  | _, [] => []
  | k + 1, _ :: s => findAllGo k s
  | 0, c :: s =>
    match matchPlaceholderAt (c :: s) with
    | some inner => placeholderText inner :: findAllGo (inner.length + 2) s
    | none => findAllGo 0 s

/-- The function `findAllMatchesOf` for `placeholderPattern` and the template `$value`: the
texts of all successive matches of the pattern in `value`. -/
def findAllMatchesOf (value : Str) : List Str :=
  findAllGo 0 value

/-- The expression `regexp.MustCompile(placeholderValuePattern).FindStringSubmatch(m)[1]`:
the capture of the leftmost match (empty when there is none; the callers pass a match). -/
def placeholderValue : Str → Str
  | [] => []
  | c :: s =>
    match matchPlaceholderAt (c :: s) with
    | some inner => inner
    | none => placeholderValue s

/-- The function `interpolateValue`. -/
def interpolateValue (env : Str → Str) (value delimiter : Str) : Str :=
  if trimSpace value = [] then value
  else
    let replacements := stringsSplit value delimiter
    let envReplacement := env (trimSpace (replacements.headD []))
    if envReplacement ≠ [] then envReplacement
    else if replacements.length ≥ 2 then trimSpace (replacements.getD 1 [])
    else value

/-- One iteration of the loop of `interpolate`. -/
def interpolateStep (env : Str → Str) (value m : Str) : Str :=
  stringsReplaceAll value m (interpolateValue env (placeholderValue m) placeholderValueDelimiter)

/-- The function `interpolate` of `src/config.go`. -/
def interpolate (env : Str → Str) (value : Str) : Str :=
  if !placeholderMatchString value then value
  else (findAllMatchesOf value).foldl (interpolateStep env) value

/-- The function `interpolate` of `src/pkg/config.go`: as above, with a final
`strings.TrimSpace` on the path that found a match. -/
def Pkg.interpolate (env : Str → Str) (value : Str) : Str :=
  if !placeholderMatchString value then value
  else trimSpace ((findAllMatchesOf value).foldl (interpolateStep env) value)

/-- An environment with no variable set. -/
def emptyEnv : Str → Str := fun _ => []

/-- An environment with the single variable `name` set to `val`. -/
def singleEnv (name val : Str) : Str → Str := fun n => if n = name then val else []

/-- No leading and no trailing white space. -/
def isTrimmed (s : Str) : Bool :=
  match s.head?, s.getLast? with
  | some a, some b => !isSpace a && !isSpace b
  | _, _ => true


/-! ## `src/config_map.go` -/

/-- The type `configMap`, a Go `map[Path]string`: an association list in which every key
occurs once. -/
abbrev ConfigMap := List (Path × Str)

/-- The assignment `data[k] = v`: replace the entry of `k`, or add one. -/
def ConfigMap.put : ConfigMap → Path → Str → ConfigMap
  | [], k, v => [(k, v)]
  | (k', v') :: m, k, v => if k' = k then (k, v) :: m else (k', v') :: ConfigMap.put m k v

/-- The index expression `m[k]`: the stored string, the empty string for an absent key. -/
def ConfigMap.get (m : ConfigMap) (k : Path) : Str :=
  (m.lookup k).getD []

/-- A key of a deserialized map: a string, or a value of any other kind. -/
inductive MapKey where
  | str (s : Str)
  | other
  deriving DecidableEq

/-- A deserialized document node, by `reflect.Kind`: `Bool`, `Int`, `String`, `Float32`,
`Float64` (with the IEEE bits), `Map`, `Slice`, and every other kind (a nil interface, `Int64`,
`Uint64`, a struct, ...). -/
inductive Node where
  | bool (b : Bool)
  | int (n : Int)
  | str (s : Str)
  | float32 (bits : Nat)
  | float64 (bits : Nat)
  | map (kvs : List (MapKey × Node))
  | seq (xs : List Node)
  | other

/-- Outcome of `flatten`: the map written so far with no error, the `unknown value type` error
with the offending path and the partial map, or the panic of `flattenMap` on a key that is not
a string. -/
inductive FlattenResult where
  | ok (data : ConfigMap)
  | error (path : Str) (data : ConfigMap)
  | panic (path : Str)

/-- The constant `formatSliceSuffix`, applied to a path: `fmt.Sprintf("%s.#", path)`. -/
def formatSliceSuffix (path : Str) : Str :=
  path ++ ['.', '#']

mutual
/-- The function `flatten`. A float is stored through `reflect.Value.String`, which prints
the type of a value that is not a string. -/
def flatten (path : Str) : Node → ConfigMap → FlattenResult
  | .bool b, data =>
    .ok (ConfigMap.put data path (if b then ['t', 'r', 'u', 'e'] else ['f', 'a', 'l', 's', 'e']))
  | .int n, data => .ok (ConfigMap.put data path (decimal n))
  | .map kvs, data =>
    match flattenMap path kvs data with
    | .ok d => .ok (ConfigMap.put d path [])
    | r => r
  | .seq xs, data =>
    match flattenSliceLoop (formatSliceSuffix path) 0 xs
        (ConfigMap.put data (formatSliceSuffix path) (decimalNat xs.length)) with
    | .ok d => .ok (ConfigMap.put d path [])
    | r => r
  | .str s, data => .ok (ConfigMap.put data path s)
  | .float32 _, data => .ok (ConfigMap.put data path "<float32 Value>".toList)
  | .float64 _, data => .ok (ConfigMap.put data path "<float64 Value>".toList)
  | .other, data => .error path data
/-- The function `flattenMap`: the entries in iteration order. -/
def flattenMap (path : Str) : List (MapKey × Node) → ConfigMap → FlattenResult
  | [], data => .ok data
  | (.other, _) :: _, _ => .panic path
  | (.str k, v) :: rest, data =>
    match flatten (path ++ '.' :: k) v data with
    | .ok d => flattenMap path rest d
    | r => r
/-- The loop of `flattenSlice` from index `i` on; `path` already carries the suffix. -/
def flattenSliceLoop (path : Str) (i : Nat) : List Node → ConfigMap → FlattenResult
  | [], data => .ok data
  | x :: rest, data =>
    match flatten (path ++ decimalNat i) x data with
    | .ok d => flattenSliceLoop path (i + 1) rest d
    | r => r
end

/-- The function `flattenSlice`: the count marker, then the elements. -/
def flattenSlice (path : Str) (xs : List Node) (config : ConfigMap) : FlattenResult :=
  flattenSliceLoop (formatSliceSuffix path) 0 xs
    (ConfigMap.put config (formatSliceSuffix path) (decimalNat xs.length))

/-- The loop of `newConfigMap` over the top-level keys. -/
def newConfigMapLoop : List (Str × Node) → ConfigMap → FlattenResult
  | [], data => .ok data
  | (k, v) :: rest, data =>
    match flatten k v data with
    | .ok d => newConfigMapLoop rest d
    | r => r

/-- The function `newConfigMap`, on the `map[string]any` that `Load` passes. -/
def newConfigMap (source : List (Str × Node)) : FlattenResult :=
  newConfigMapLoop source []

/-- The first `idx` runes of a key, `idx` the position of the first dot of the trimmed key
(the whole key when there is none): the expression `k[:idx]` of `keys`. Positions are counted
in runes where the code counts bytes; the two cuts agree on every key without leading white
space, where both give the first segment, and on every key whose runes before the first dot are
ASCII. -/
def topLevelKey (k : Path) : Path :=
  let t := Path.String k
  if '.' ∈ t then k.take (t.takeWhile (fun c => c != '.')).length else k

/-- Method `configMap.keys`: the distinct top-level keys. -/
def ConfigMap.keys (m : ConfigMap) : List Path :=
  (m.map (fun kv => topLevelKey kv.1)).dedup

/-! ## `src/config.go`: the store -/

/-- The struct `configuration` (without its mutex). -/
structure Configuration where
  filePath : Str
  mapping : ConfigMap
  root : Path

/-- Errors of the package. -/
inductive ConfigError where
  | notInitialized
  | pathNotFound (operation : Str) (path : Str)
  | notCollection (path : Str)
  | unsupportedFileType (extension : Str) (path : Str)
  | emptyFilePath
  | fileRead (path : Str) (notExist : Bool)
  | yamlParse
  | unknownValueType (path : Str) (data : ConfigMap)
  | multipleRoots (s : Str)
  | invalidRoot (s : Str)
  | rootUndefined

/-- Method `configuration.resolve`. -/
def Configuration.resolve (fold : Char → Char) (c : Configuration) (path : Path) : Path :=
  if Path.Equals fold path c.root then path
  else if !hasPrefix (Path.String path) (Path.String c.root ++ ['.']) then Path.Join c.root path
  else path

/-- Method `configuration.hasPath`. -/
def Configuration.hasPath (fold : Char → Char) (c : Configuration) (path : Path) : Bool :=
  if Path.Empty path then false
  else c.mapping.any (fun kv => Path.Equals fold kv.1 (c.resolve fold path))

/-- Method `configuration.isCollection`; `%s` prints the resolved `Path` through its
`String` method. -/
def Configuration.isCollection (fold : Char → Char) (c : Configuration) (path : Path) : Bool :=
  if !c.hasPath fold path then false
  else c.hasPath fold (formatSliceSuffix (Path.String (c.resolve fold path)))

/-- Method `configuration.value`. -/
def Configuration.value (fold : Char → Char) (c : Configuration) (path : Path) :
    Except ConfigError Str :=
  if !c.hasPath fold path then .error (.pathNotFound "value".toList (Path.String path))
  else .ok (ConfigMap.get c.mapping (c.resolve fold path))

/-- An atom of the regular expressions built by `values`: a literal rune, or the dot, which
matches every rune but the line feed. -/
inductive RxAtom where
  | lit (c : Char)
  | any
  deriving DecidableEq

/-- Whether an atom matches a rune. -/
def RxAtom.accepts : RxAtom → Char → Bool
  | .lit a, c => a == c
  | .any, c => c != '\n'

/-- The runes with a meaning in the syntax of `regexp` (other than the dot, the backslash
and the postfix `+`). -/
def isRegexMeta (c : Char) : Bool :=
  c ∈ ['*', '?', '(', ')', '|', '[', ']', '{', '}', '^', '$']

/-- A token of the regular expressions built by `values`. -/
inductive RxTok where
  | atom (a : RxAtom)
  | plus

/-- Lexer for the fragment of the `regexp` syntax made of literal runes, the dot, a backslash
before a punctuation rune, and the postfix `+`; the flag tells that the previous rune was an
unescaped backslash. `none` outside the fragment. -/
def lexRegex : Bool → Str → Option (List RxTok)
  | false, [] => some []
  | true, [] => none
  | true, d :: s =>
    if d.isAlphanum || d.toNat ≥ 128 then none
    else (lexRegex false s).map (fun r => .atom (.lit d) :: r)
  | false, c :: s =>
    if c = '\\' then lexRegex true s
    else if c = '+' then (lexRegex false s).map (fun r => .plus :: r)
    else if c = '.' then (lexRegex false s).map (fun r => .atom .any :: r)
    else if isRegexMeta c then none
    else (lexRegex false s).map (fun r => .atom (.lit c) :: r)

/-- Attach each postfix `+` to the atom before it. -/
def attachPlus : List RxTok → Option (List (RxAtom × Bool))
  | [] => some []
  | .plus :: _ => none
  | .atom a :: .plus :: rest => (attachPlus rest).map (fun r => (a, true) :: r)
  | .atom a :: rest => (attachPlus rest).map (fun r => (a, false) :: r)

/-- The call `regexp.MustCompile` on the modelled fragment (`none` outside of it, where the
call may also panic). -/
def compileRegex (pattern : Str) : Option (List (RxAtom × Bool)) :=
  (lexRegex false pattern).bind attachPlus

/-- An anchored match of a compiled expression at the head of a string. -/
def rxMatchHere : List (RxAtom × Bool) → Str → Bool
  | [], _ => true
  | _ :: _, [] => false
  | (a, false) :: rest, c :: s => a.accepts c && rxMatchHere rest s
  | (a, true) :: rest, c :: s =>
    a.accepts c && (rxMatchHere ((a, true) :: rest) s || rxMatchHere rest s)

/-- Method `Regexp.MatchString`: a match anywhere in the string. -/
def rxMatchString (pat : List (RxAtom × Bool)) : Str → Bool
  | [] => rxMatchHere pat []
  | c :: s => rxMatchHere pat (c :: s) || rxMatchString pat s

/-- The constant `formatSlicePrefix`, a raw string literal with two backslashes before the
dot and two before the `d`, applied to a path: `fmt.Sprintf(formatSlicePrefix, path)`. -/
def formatSlicePrefix (path : Path) : Str :=
  Path.String path ++ ['\\', '\\', '.', '#', '\\', '\\', 'd', '+']

/-- How a call of `values` ends: it returns its strings or an error, or it panics in
`regexp.MustCompile`. -/
inductive ValuesResult where
  | returned (r : Except ConfigError (List Str))
  | panicked

/-- A pattern that begins with a repetition operator: `regexp.Compile` rejects it with
`missing argument to repetition operator`, so that `regexp.MustCompile` panics. -/
def beginsWithRepetition : Str → Bool
  | c :: _ => c == '*' || c == '+' || c == '?'
  | [] => false

/-- Method `configuration.values`; it reads the store and assigns nothing. The result `none`
says that the model does not decide the call: the pattern built from the path is outside the
modelled fragment of `regexp` (literal runes, the dot, a backslash before a punctuation rune,
the postfix `+`) and does not begin with a repetition operator, so that the code returns or
panics as `regexp` decides. -/
def Configuration.values (fold : Char → Char) (c : Configuration) (path : Path) :
    Option ValuesResult :=
  if !c.hasPath fold path then
    some (.returned (.error (.pathNotFound "values".toList (Path.String path))))
  else if !c.isCollection fold path then
    some (.returned (.error (.notCollection (Path.String path))))
  else if beginsWithRepetition (formatSlicePrefix path) then some .panicked
  else
    match compileRegex (formatSlicePrefix path) with
    | none => none
    | some pat =>
      some (.returned (.ok ((c.mapping.filter (fun kv =>
        rxMatchString pat (Path.String kv.1))).map (fun kv => ConfigMap.get c.mapping kv.1))))

/-! ## `src/config.go`: `Load` -/

/-- The constant `defaultFilePath`. -/
def defaultFilePath : Str := "application.yaml".toList

/-- What reading and deserializing a configuration file gives: the document (a
`map[string]any`), a file that does not exist, another read failure, or a YAML error. -/
inductive ReadOutcome where
  | doc (d : List (Str × Node))
  | notExist
  | readError
  | parseError

/-- The outside world of `Load`: the process environment and the file system together with
`yaml.Unmarshal`. -/
structure World where
  env : Str → Str
  readFile : Str → ReadOutcome

/-- Runes allowed after the dot by `fileExtensionPattern`. -/
def isExtensionRune (c : Char) : Bool :=
  !(c ∈ ['.', '\\', '/', ':', '*', '?', '"', '<', '>', '|', '\r', '\n'])

/-- The call `regexp.MustCompile(fileExtensionPattern).FindString(filePath)`: the leftmost dot
that is followed, up to the end, by one or more allowed runes. -/
def fileExtension : Str → Str
  | [] => []
  | c :: s =>
    if c = '.' ∧ s ≠ [] ∧ s.all isExtensionRune = true then c :: s else fileExtension s

/-- The function `readConfigAndThen` with `readYaml`. -/
def readConfigAndThen (w : World) (filePath : Str) : Except ConfigError (List (Str × Node)) :=
  if trimSpace filePath = [] then .error .emptyFilePath
  else
    match w.readFile filePath with
    | .doc d => .ok d
    | .notExist => .error (.fileRead filePath true)
    | .readError => .error (.fileRead filePath false)
    | .parseError => .error .yamlParse

/-- The function `readConfig`. -/
def readConfig (w : World) (filePath : Str) : Except ConfigError (List (Str × Node)) :=
  if fileExtension filePath = ".json".toList then .ok []
  else if fileExtension filePath = ".yaml".toList ∨ fileExtension filePath = ".yml".toList then
    readConfigAndThen w filePath
  else .error (.unsupportedFileType (fileExtension filePath) filePath)

/-- State of the root loop of `Load`: the root, the error recorded so far, and whether the
loop has left the function through `return`. -/
structure RootScan where
  root : Path
  loadErr : Option ConfigError
  returned : Bool

/-- One iteration of the root loop of `Load` in `src/config.go`. -/
def inferRootStep (st : RootScan) (key : Path) : RootScan :=
  if st.returned then st
  else
    let s := trimSpace ((stringsSplit (Path.String key) ['.']).headD [])
    if s ≠ [] then
      if Path.Empty st.root then { st with root := s }
      else if Path.String st.root ≠ s then { st with loadErr := some (.multipleRoots s) }
      else { st with loadErr := some (.invalidRoot s), returned := true }
    else st

/-- The package variables `config`, `loadErr` and `once`. -/
structure PkgState where
  attempted : Bool
  config : Option Configuration
  loadErr : Option ConfigError

/-- The package state of a fresh process. -/
def PkgState.initial : PkgState := ⟨false, none, none⟩

/-- How a call of `Load` ends: it returns `loadErr`, or it panics. -/
inductive LoadResult where
  | returned (err : Option ConfigError)
  | panicked

/-- The function `Load` of `src/config.go`; `optFilePath` is the file path left by the options
(empty when none sets it). -/
def Load (w : World) (optFilePath : Str) (st : PkgState) : PkgState × LoadResult :=
  if st.attempted then (st, .returned st.loadErr)
  else
    let filePath := if optFilePath = [] then defaultFilePath else optFilePath
    match readConfig w filePath with
    | .error e => ({ st with attempted := true, loadErr := some e }, .returned (some e))
    | .ok rawConfig =>
      match newConfigMap rawConfig with
      | .panic _ => ({ st with attempted := true }, .panicked)
      | .error p d =>
        ({ st with attempted := true, loadErr := some (.unknownValueType p d) },
          .returned (some (.unknownValueType p d)))
      | .ok mapping =>
        let interpolated := mapping.map (fun kv => (kv.1, interpolate w.env kv.2))
        let scan := (ConfigMap.keys interpolated).foldl inferRootStep ⟨[], st.loadErr, false⟩
        let err :=
          if scan.returned then scan.loadErr
          else if scan.root = [] then some .rootUndefined
          else scan.loadErr
        ({ attempted := true, config := some ⟨filePath, interpolated, scan.root⟩, loadErr := err },
          .returned err)


/-! ## Specification-side views of a document -/

/-- All the writes of a successful `flatten`, in the order in which they are made. -/
def putAll (data : ConfigMap) (ws : List (Path × Str)) : ConfigMap :=
  ws.foldl (fun m w => ConfigMap.put m w.1 w.2) data

/-- The string that `flatten` stores at the path of the node itself. -/
def Node.ownValue : Node → Str
  | .bool b => if b then ['t', 'r', 'u', 'e'] else ['f', 'a', 'l', 's', 'e']
  | .int n => decimal n
  | .str s => s
  | .float32 _ => "<float32 Value>".toList
  | .float64 _ => "<float64 Value>".toList
  | .map _ => []
  | .seq _ => []
  | .other => []

mutual
/-- The writes that `flatten` makes on a node whose kinds are all supported. -/
def writes (path : Str) : Node → List (Path × Str)
  | .map kvs => writesMap path kvs ++ [(path, [])]
  | .seq xs =>
    (formatSliceSuffix path, decimalNat xs.length) ::
      (writesSlice (formatSliceSuffix path) 0 xs ++ [(path, [])])
  | .other => []
  | .bool b => [(path, Node.ownValue (.bool b))]
  | .int n => [(path, Node.ownValue (.int n))]
  | .str s => [(path, Node.ownValue (.str s))]
  | .float32 x => [(path, Node.ownValue (.float32 x))]
  | .float64 x => [(path, Node.ownValue (.float64 x))]
/-- The writes of `flattenMap`. -/
def writesMap (path : Str) : List (MapKey × Node) → List (Path × Str)
  | [] => []
  | (.other, _) :: _ => []
  | (.str k, v) :: rest => writes (path ++ '.' :: k) v ++ writesMap path rest
/-- The writes of the loop of `flattenSlice`. -/
def writesSlice (path : Str) (i : Nat) : List Node → List (Path × Str)
  | [] => []
  | x :: rest => writes (path ++ decimalNat i) x ++ writesSlice path (i + 1) rest
end

mutual
/-- Every node is of a kind that `flatten` handles and every map key is a string. -/
def Node.supported : Node → Bool
  | .map kvs => supportedEntries kvs
  | .seq xs => supportedNodes xs
  | .other => false
  | _ => true
/-- The entries of a map are supported. -/
def supportedEntries : List (MapKey × Node) → Bool
  | [] => true
  | (.other, _) :: _ => false
  | (.str _, v) :: rest => v.supported && supportedEntries rest
/-- The elements of a sequence are supported. -/
def supportedNodes : List Node → Bool
  | [] => true
  | x :: rest => x.supported && supportedNodes rest
end

/-- Reading a decimal numeral back. -/
def readDecimal (s : Str) : Nat :=
  s.foldl (fun acc c => acc * 10 + (c.toNat - 48)) 0

/-- The key `k` lies strictly below `path`: it is `path`, a dot, and more. -/
def Below (path k : Str) : Prop :=
  ∃ s, k = path ++ '.' :: s

/-- The folding table restricted to ASCII: the upper-case letters `A` to `Z` fold to lower
case, every other rune to itself. -/
def asciiFold (c : Char) : Char :=
  if c.isUpper then Char.ofNat (c.toNat + 32) else c

/-- The document `app: (ports: [80, 443])`. -/
def portsDoc : List (Str × Node) :=
  [("app".toList, .map [(.str "ports".toList, .seq [.int 80, .int 443])])]

/-- A world whose configuration file holds `portsDoc`, with an empty environment. -/
def portsWorld : World :=
  ⟨emptyEnv, fun _ => .doc portsDoc⟩

/-- The store that `Load` builds from `portsDoc`. -/
def portsConfig : Configuration :=
  ⟨"application.yaml".toList,
    [("app.ports.#".toList, "2".toList), ("app.ports.#0".toList, "80".toList),
      ("app.ports.#1".toList, "443".toList), ("app.ports".toList, []), ("app".toList, [])],
    "app".toList⟩

/-- A plain map key: not blank, without leading or trailing white space, without a dot. -/
def goodKey (k : Str) : Bool :=
  decide (k ≠ []) && isTrimmed k && !decide ('.' ∈ k)

/-- A folding table under which an ASCII rune that is not a letter is folded with no other
rune (so it is for `unicode.SimpleFold`, whose orbits through ASCII are those of letters). -/
def FoldsOnlyLetters (fold : Char → Char) : Prop :=
  ∀ c d : Char, c.toNat < 128 → c.isAlpha = false → fold d = fold c → d = c

/-- Whether a map has an entry whose string key folds to the same runes as `k`. -/
def hasFoldedKey (fold : Char → Char) (k : Str) : List (MapKey × Node) → Bool
  | [] => false
  | (.str k', _) :: rest => decide (k'.map fold = k.map fold) || hasFoldedKey fold k rest
  | (.other, _) :: rest => hasFoldedKey fold k rest

mutual
/-- A document of maps, sequences and scalars of supported kinds in which every map key is a
`goodKey` string and the keys of one map are pairwise different, also up to folding. -/
def Node.wellKeyed (fold : Char → Char) : Node → Bool
  | .map kvs => wellKeyedEntries fold kvs
  | .seq xs => wellKeyedNodes fold xs
  | .other => false
  | _ => true
/-- The entries of a well-keyed map. -/
def wellKeyedEntries (fold : Char → Char) : List (MapKey × Node) → Bool
  | [] => true
  | (.other, _) :: _ => false
  | (.str k, v) :: rest =>
    goodKey k && !hasFoldedKey fold k rest && v.wellKeyed fold && wellKeyedEntries fold rest
/-- The elements of a well-keyed sequence. -/
def wellKeyedNodes (fold : Char → Char) : List Node → Bool
  | [] => true
  | x :: rest => x.wellKeyed fold && wellKeyedNodes fold rest
end

mutual
/-- A document of nested maps whose leaves are booleans, integers or strings without a
placeholder. -/
def Node.plainLeaves : Node → Bool
  | .bool _ => true
  | .int _ => true
  | .str s => !placeholderMatchString s
  | .map kvs => plainEntries kvs
  | _ => false
/-- The values of a map have plain leaves. -/
def plainEntries : List (MapKey × Node) → Bool
  | [] => true
  | (_, v) :: rest => v.plainLeaves && plainEntries rest
end

mutual
/-- The encoding of the leaf reached from a node by a list of keys, if there is one. -/
def Node.leafAt : Node → List Str → Option Str
  | .bool b, [] => some (Node.ownValue (.bool b))
  | .int n, [] => some (Node.ownValue (.int n))
  | .str s, [] => some s
  | .map kvs, k :: ks => entriesLeafAt kvs k ks
  | _, _ => none
/-- The leaf reached through the entry of key `k`. -/
def entriesLeafAt : List (MapKey × Node) → Str → List Str → Option Str
  | [], _, _ => none
  | (key, v) :: rest, k, ks => if key = .str k then v.leafAt ks else entriesLeafAt rest k ks
end

/-- The path `r.k1.….kn`. -/
def dottedPath (r : Str) : List Str → Str
  | [] => r
  | k :: ks => dottedPath (r ++ '.' :: k) ks

/-- Whether a node is a sequence. -/
def Node.isSeq : Node → Bool
  | .seq _ => true
  | _ => false

mutual
/-- The nodes of a document with the paths at which `flatten` visits them. -/
def nodesAt (path : Str) : Node → List (Path × Node)
  | .map kvs => (path, .map kvs) :: nodesAtEntries path kvs
  | .seq xs => (path, .seq xs) :: nodesAtElems (formatSliceSuffix path) 0 xs
  | .bool b => [(path, .bool b)]
  | .int n => [(path, .int n)]
  | .str s => [(path, .str s)]
  | .float32 x => [(path, .float32 x)]
  | .float64 x => [(path, .float64 x)]
  | .other => [(path, .other)]
/-- The nodes below the entries of a map. -/
def nodesAtEntries (path : Str) : List (MapKey × Node) → List (Path × Node)
  | [] => []
  | (.other, _) :: _ => []
  | (.str k, v) :: rest => nodesAt (path ++ '.' :: k) v ++ nodesAtEntries path rest
/-- The nodes below the elements of a sequence, from index `i` on. -/
def nodesAtElems (path : Str) (i : Nat) : List Node → List (Path × Node)
  | [] => []
  | x :: rest => nodesAt (path ++ decimalNat i) x ++ nodesAtElems path (i + 1) rest
end

mutual
/-- No map of the document has the key `#`. -/
def Node.noSharpKey : Node → Bool
  | .map kvs => noSharpEntries kvs
  | .seq xs => noSharpNodes xs
  | _ => true
/-- No key `#` in the entries of a map, nor below. -/
def noSharpEntries : List (MapKey × Node) → Bool
  | [] => true
  | (k, v) :: rest => decide (k ≠ .str ['#']) && v.noSharpKey && noSharpEntries rest
/-- No key `#` below the elements of a sequence. -/
def noSharpNodes : List Node → Bool
  | [] => true
  | x :: rest => x.noSharpKey && noSharpNodes rest
end

/-- The last rune, if any, is not white space. -/
def LastOk (s : Str) : Prop :=
  ∀ a, s.getLast? = some a → isSpace a = false

/-- The keys of a list of writes, folded. -/
def foldedKeys (f : Char → Char) (ws : List (Path × Str)) : List Str :=
  ws.map (fun w => w.1.map f)

/-- The mapping that `Load` leaves for the document with the single top-level key `r`. -/
def loadedMapping (env : Str → Str) (r : Str) (node : Node) : ConfigMap :=
  (putAll [] (writes r node)).map (fun kv => (kv.1, interpolate env kv.2))

/-- The document `app: (name: svc)`. -/
def svcNode : Node :=
  .map [(.str "name".toList, .str "svc".toList)]

/-- A world whose configuration file holds `app: (name: svc)`, with an empty environment. -/
def svcWorld : World :=
  ⟨emptyEnv, fun _ => .doc [("app".toList, svcNode)]⟩

/-- The document `app: (x: (#: 1))`, a map with the key `#`. -/
def sharpNode : Node :=
  .map [(.str ['x'], .map [(.str ['#'], .int 1)])]

/-- A world whose configuration file holds `app: (x: (#: 1))`. -/
def sharpWorld : World :=
  ⟨emptyEnv, fun _ => .doc [("app".toList, sharpNode)]⟩

/-- The store that `Load` builds from `sharpWorld`. -/
def sharpConfig : Configuration :=
  ⟨"application.yaml".toList,
    [("app.x.#".toList, "1".toList), ("app.x".toList, []), ("app".toList, [])],
    "app".toList⟩

/-- Scanner of the reference single-pass substitution: the text between the successive
leftmost matches is kept, each match is replaced by `interpolateValue` of its own inner
expression, and the output is never scanned. -/
def interpolateSinglePassGo (env : Str → Str) : Nat → Str → Str
  | _, [] => []
  | k + 1, _ :: s => interpolateSinglePassGo env k s
  | 0, c :: s =>
    match matchPlaceholderAt (c :: s) with
    | some inner =>
      interpolateValue env inner placeholderValueDelimiter ++
        interpolateSinglePassGo env (inner.length + 2) s
    | none => c :: interpolateSinglePassGo env 0 s

/-- The reference single-pass substitution of the specification. -/
def interpolateSinglePass (env : Str → Str) (value : Str) : Str :=
  interpolateSinglePassGo env 0 value

/-- A value cut into literal runes and placeholders. -/
inductive Tok where
  | lit (c : Char)
  | ph (e : Str)

/-- The text of a list of tokens. -/
def render : List Tok → Str
  | [] => []
  | .lit c :: ts => c :: render ts
  | .ph e :: ts => placeholderText e ++ render ts

/-- Literal runes are not dollar signs; inner expressions are not empty and hold neither a
closing brace nor a dollar sign. -/
def cleanToks : List Tok → Prop
  | [] => True
  | .lit c :: ts => c ≠ '$' ∧ cleanToks ts
  | .ph e :: ts => (e ≠ [] ∧ '}' ∉ e ∧ '$' ∉ e) ∧ cleanToks ts

/-- The inner expressions of the placeholders of a list of tokens. -/
def innerExprs : List Tok → List Str
  | [] => []
  | .lit _ :: ts => innerExprs ts
  | .ph e :: ts => e :: innerExprs ts

/-- Replace the placeholders of inner expression `e` by the runes of `r`. -/
def substOne (e r : Str) : List Tok → List Tok
  | [] => []
  | .lit c :: ts => .lit c :: substOne e r ts
  | .ph e' :: ts =>
    if e' = e then r.map Tok.lit ++ substOne e r ts else .ph e' :: substOne e r ts

/-- Replace every placeholder whose inner expression is in `es` by its substitution. -/
def substAll (env : Str → Str) (es : List Str) : List Tok → List Tok
  | [] => []
  | .lit c :: ts => .lit c :: substAll env es ts
  | .ph e :: ts =>
    if e ∈ es then
      (interpolateValue env e placeholderValueDelimiter).map Tok.lit ++ substAll env es ts
    else .ph e :: substAll env es ts

/-! ## `src/config.go`: mutation and the package-level functions -/

/-- Method `configuration.set` (without the lock): the new store and the returned flag. -/
def Configuration.set (fold : Char → Char) (c : Configuration) (path : Path) (value : Str) :
    Configuration × Bool :=
  if !Path.Empty path then
    ({ c with mapping := ConfigMap.put c.mapping (c.resolve fold path) value }, true)
  else (c, false)

/-- The function `strings.Contains`. -/
def stringsContains : Str → Str → Bool
  | [], sub => sub.isPrefixOf []
  | c :: s, sub => sub.isPrefixOf (c :: s) || stringsContains s sub

/-- The function `HasPath`. -/
def HasPath (fold : Char → Char) (st : PkgState) (path : Str) : Except ConfigError Bool :=
  match st.config with
  | none => .error .notInitialized
  | some c => .ok (c.hasPath fold path)

/-- The function `Value`. -/
def Value (fold : Char → Char) (st : PkgState) (path : Str) : Except ConfigError Str :=
  match st.config with
  | none => .error .notInitialized
  | some c => c.value fold path

/-- The function `Set`: the new package state and the result. -/
def Set (fold : Char → Char) (st : PkgState) (path value : Str) :
    PkgState × Except ConfigError Bool :=
  match st.config with
  | none => (st, .error .notInitialized)
  | some c =>
    ({ st with config := some (c.set fold path value).1 }, .ok (c.set fold path value).2)

/-- The function `Sub`. -/
def Sub (fold : Char → Char) (st : PkgState) (path : Str) : Except ConfigError (List Path) :=
  match st.config with
  | none => .error .notInitialized
  | some c =>
    if !c.hasPath fold path then .error (.pathNotFound "sub".toList path)
    else
      .ok ((c.mapping.filter (fun kv =>
        stringsContains (Path.String kv.1) (Path.String (c.resolve fold path)) &&
          Path.Depth kv.1 == Path.Depth (c.resolve fold path) + 1)).map Prod.fst)

/-! ## `src/pkg/config.go`: `Load` -/

/-- The constant `defaultRoot` of `src/pkg/config.go`. -/
def Pkg.defaultRoot : Str := "config".toList

/-- The test `errors.Is(err, os.ErrNotExist)` on an error of `readConfig`. -/
def isNotExist : ConfigError → Bool
  | .fileRead _ notExist => notExist
  | _ => false

/-- The root loop of `Load` in `src/pkg/config.go`: the error of the first key whose first
segment is not blank and does not fold to the root, where the loop breaks. -/
def Pkg.checkRoots (fold : Char → Char) (r : Str) : List Path → Option ConfigError
  | [] => none
  | key :: rest =>
    if trimSpace ((stringsSplit (Path.String key) ['.']).headD []) ≠ [] ∧
        equalFold fold (trimSpace ((stringsSplit (Path.String key) ['.']).headD [])) r = false
    then some (.multipleRoots (trimSpace ((stringsSplit (Path.String key) ['.']).headD [])))
    else Pkg.checkRoots fold r rest

/-- What `Load` of `src/pkg/config.go` does once `readConfig` has given a document (the nil
map when the file does not exist). -/
def Pkg.loadDocument (fold : Char → Char) (w : World) (filePath : Str)
    (rawConfig : List (Str × Node)) (st : PkgState) : PkgState × LoadResult :=
  match newConfigMap rawConfig with
  | .panic _ => ({ st with attempted := true }, .panicked)
  | .error p d =>
    ({ st with attempted := true, loadErr := some (.unknownValueType p d) },
      .returned (some (.unknownValueType p d)))
  | .ok mapping =>
    let interpolated := mapping.map (fun kv => (kv.1, Pkg.interpolate w.env kv.2))
    let err :=
      match Pkg.checkRoots fold (Path.String Pkg.defaultRoot) (ConfigMap.keys interpolated) with
      | some e => some e
      | none => st.loadErr
    ({ attempted := true, config := some ⟨filePath, interpolated, Pkg.defaultRoot⟩,
       loadErr := err }, .returned err)

/-- The function `Load` of `src/pkg/config.go`: an error of `readConfig` ends the load unless
it is `os.ErrNotExist`, in which case the load goes on with the nil map. -/
def Pkg.Load (fold : Char → Char) (w : World) (optFilePath : Str) (st : PkgState) :
    PkgState × LoadResult :=
  if st.attempted then (st, .returned st.loadErr)
  else
    match readConfig w (if optFilePath = [] then defaultFilePath else optFilePath) with
    | .error e =>
      if !isNotExist e then
        ({ st with attempted := true, loadErr := some e }, .returned (some e))
      else
        Pkg.loadDocument fold w (if optFilePath = [] then defaultFilePath else optFilePath) [] st
    | .ok rawConfig =>
      Pkg.loadDocument fold w (if optFilePath = [] then defaultFilePath else optFilePath)
        rawConfig st

/-- The first dot-separated segment of a key. -/
def firstSegment (k : Str) : Str :=
  k.takeWhile (fun c => c != '.')

/-- The document with the two top-level keys `svc1` and `svc2`. -/
def twoRootsDoc : List (Str × Node) :=
  [("svc1".toList, .int 1), ("svc2".toList, .int 2)]

/-- A world whose configuration file holds `twoRootsDoc`. -/
def twoRootsWorld : World :=
  ⟨emptyEnv, fun _ => .doc twoRootsDoc⟩

/-- A world in which no configuration file exists. -/
def missingFileWorld : World :=
  ⟨emptyEnv, fun _ => .notExist⟩

/-- A world in which reading a configuration file fails (the file exists). -/
def unreadableFileWorld : World :=
  ⟨emptyEnv, fun _ => .readError⟩

/-- The document `app: (Name: svc)`. -/
def mixedCaseDoc : List (Str × Node) :=
  [("app".toList, .map [(.str "Name".toList, .str "svc".toList)])]

/-- A world whose configuration file holds `mixedCaseDoc`. -/
def mixedCaseWorld : World :=
  ⟨emptyEnv, fun _ => .doc mixedCaseDoc⟩

/-- The store that `Load` builds from `mixedCaseDoc`. -/
def mixedCaseConfig : Configuration :=
  ⟨"application.yaml".toList, [("app.Name".toList, "svc".toList), ("app".toList, [])],
    "app".toList⟩

/-- A world whose configuration file holds the empty document. -/
def emptyDocWorld : World :=
  ⟨emptyEnv, fun _ => .doc []⟩

/-- The document with the two top-level keys `""` (blank) and `app`. -/
def blankKeyDoc : List (Str × Node) :=
  [([], .int 1), ("app".toList, .int 2)]

/-- A world whose configuration file holds `blankKeyDoc`. -/
def blankKeyWorld : World :=
  ⟨emptyEnv, fun _ => .doc blankKeyDoc⟩

/-- The document `value: (float: 1.168)`; the float is given by its IEEE 754 bits. -/
def floatDoc : List (Str × Node) :=
  [("value".toList, .map [(.str "float".toList, .float64 4607939023537415651)])]

/-- A world whose configuration file holds `floatDoc`. -/
def floatWorld : World :=
  ⟨emptyEnv, fun _ => .doc floatDoc⟩

/-- The document `app: [1, 2]`, a sequence at the root. -/
def seqRootDoc : List (Str × Node) :=
  [("app".toList, .seq [.int 1, .int 2])]

/-- A world whose configuration file holds `seqRootDoc`. -/
def seqRootWorld : World :=
  ⟨emptyEnv, fun _ => .doc seqRootDoc⟩

/-- The store that `Load` builds from `seqRootDoc`. -/
def seqRootConfig : Configuration :=
  ⟨"application.yaml".toList,
    [("app.#".toList, "2".toList), ("app.#0".toList, "1".toList),
      ("app.#1".toList, "2".toList), ("app".toList, [])],
    "app".toList⟩

/-- The document `app: ("*x": [1])`, with a map key that begins with a star. -/
def starDoc : List (Str × Node) :=
  [("app".toList, .map [(.str "*x".toList, .seq [.int 1])])]

/-- A world whose configuration file holds `starDoc`. -/
def starWorld : World :=
  ⟨emptyEnv, fun _ => .doc starDoc⟩

/-- The store that `Load` builds from `starDoc`. -/
def starConfig : Configuration :=
  ⟨"application.yaml".toList,
    [("app.*x.#".toList, "1".toList), ("app.*x.#0".toList, "1".toList),
      ("app.*x".toList, []), ("app".toList, [])],
    "app".toList⟩

/-- The document `app: (a: 1, ab: (c: 2))`: one sibling key begins with the other. -/
def siblingDoc : List (Str × Node) :=
  [("app".toList, .map [(.str ['a'], .int 1), (.str "ab".toList, .map [(.str ['c'], .int 2)])])]

/-- A world whose configuration file holds `siblingDoc`. -/
def siblingWorld : World :=
  ⟨emptyEnv, fun _ => .doc siblingDoc⟩

/-- The document `app: (name: svc, ports: [80, 443])`. -/
def appDoc : List (Str × Node) :=
  [("app".toList, .map [(.str "name".toList, .str "svc".toList),
    (.str "ports".toList, .seq [.int 80, .int 443])])]

/-- A world whose configuration file holds `appDoc`. -/
def appWorld : World :=
  ⟨emptyEnv, fun _ => .doc appDoc⟩

/-- The store that `Load` builds from `appDoc`. -/
def appConfig : Configuration :=
  ⟨"application.yaml".toList,
    [("app.name".toList, "svc".toList), ("app.ports.#".toList, "2".toList),
      ("app.ports.#0".toList, "80".toList), ("app.ports.#1".toList, "443".toList),
      ("app.ports".toList, []), ("app".toList, [])],
    "app".toList⟩

/-- A scalar node: a boolean, an integer, a string or a float. -/
def Node.isScalar : Node → Bool
  | .bool _ => true
  | .int _ => true
  | .str _ => true
  | .float32 _ => true
  | .float64 _ => true
  | _ => false

mutual
/-- Some node of the value is of a kind that `flatten` does not handle. -/
def Node.hasOther : Node → Bool
  | .map kvs => hasOtherEntries kvs
  | .seq xs => hasOtherNodes xs
  | .other => true
  | _ => false
/-- Some node below the entries of a map is of an unhandled kind. -/
def hasOtherEntries : List (MapKey × Node) → Bool
  | [] => false
  | (_, v) :: rest => v.hasOther || hasOtherEntries rest
/-- Some node below the elements of a sequence is of an unhandled kind. -/
def hasOtherNodes : List Node → Bool
  | [] => false
  | x :: rest => x.hasOther || hasOtherNodes rest
end

mutual
/-- Every map key of the value is a string. -/
def Node.stringKeyed : Node → Bool
  | .map kvs => stringKeyedEntries kvs
  | .seq xs => stringKeyedNodes xs
  | _ => true
/-- The keys of the entries of a map, and the keys below, are strings. -/
def stringKeyedEntries : List (MapKey × Node) → Bool
  | [] => true
  | (.other, _) :: _ => false
  | (.str _, v) :: rest => v.stringKeyed && stringKeyedEntries rest
/-- The keys below the elements of a sequence are strings. -/
def stringKeyedNodes : List Node → Bool
  | [] => true
  | x :: rest => x.stringKeyed && stringKeyedNodes rest
end

/-- The document `app: (a: null)`. -/
def nullDoc : List (Str × Node) :=
  [("app".toList, .map [(.str ['a'], .other)])]

mutual
/-- A document of nested maps: every map key is a string without a dot, no key occurs twice in
one map, and the leaves are scalars. -/
def Node.plainMaps : Node → Bool
  | .map kvs => plainMapEntries kvs
  | .seq _ => false
  | .other => false
  | _ => true
/-- The entries of a map of such a document. -/
def plainMapEntries : List (MapKey × Node) → Bool
  | [] => true
  | (.other, _) :: _ => false
  | (.str k, v) :: rest =>
    !decide ('.' ∈ k) && !hasFoldedKey id k rest && v.plainMaps && plainMapEntries rest
end

mutual
/-- The number of nodes of a value: the value itself and the nodes below it. -/
def Node.nodeCount : Node → Nat
  | .map kvs => 1 + entriesNodeCount kvs
  | .seq xs => 1 + elemsNodeCount xs
  | _ => 1
/-- The number of nodes below the entries of a map. -/
def entriesNodeCount : List (MapKey × Node) → Nat
  | [] => 0
  | (_, v) :: rest => v.nodeCount + entriesNodeCount rest
/-- The number of nodes below the elements of a sequence. -/
def elemsNodeCount : List Node → Nat
  | [] => 0
  | x :: rest => x.nodeCount + elemsNodeCount rest
end

/-- The top-level map of a document, as the entries of a map node. -/
def docEntries (source : List (Str × Node)) : List (MapKey × Node) :=
  source.map (fun kv => (MapKey.str kv.1, kv.2))

/-- The writes of `newConfigMap` on a document whose kinds are all supported. -/
def writesDoc : List (Str × Node) → List (Path × Str)
  | [] => []
  | (k, v) :: rest => writes k v ++ writesDoc rest

/-- A key lies under the root `r`: it Equals `r`, or its trimmed string begins with the
trimmed `r` followed by a dot. -/
def keyUnderRoot (fold : Char → Char) (r k : Path) : Bool :=
  Path.Equals fold k r || hasPrefix (Path.String k) (Path.String r ++ ['.'])

/-! # Theorems -/

/-! ## Lemmas on the scanners -/

theorem replaceGo_skip (old new : Str) (k : Nat) (s : Str) :
    replaceGo old new k s = replaceGo old new 0 (s.drop k) := by
  induction s generalizing k with
  | nil => cases k <;> simp [replaceGo]
  | cons c s ih =>
    cases k with
    | zero => simp
    | succ k => simp [replaceGo, ih k]

theorem findAllGo_skip (k : Nat) (s : Str) :
    findAllGo k s = findAllGo 0 (s.drop k) := by
  induction s generalizing k with
  | nil => cases k <;> simp [findAllGo]
  | cons c s ih =>
    cases k with
    | zero => simp
    | succ k => simp [findAllGo, ih k]

theorem splitGo_ne_nil (sep : Str) (k : Nat) (s : Str) : splitGo sep k s ≠ [] := by
  induction s generalizing k with
  | nil => cases k <;> simp [splitGo]
  | cons c s ih =>
    cases k with
    | zero =>
      simp only [splitGo]
      split
      · simp
      · split <;> simp
    | succ k => simpa [splitGo] using ih k

theorem splitGo_bar_of_not_mem (s : Str) (h : '|' ∉ s) : splitGo ['|'] 0 s = [s] := by
  induction s with
  | nil => simp [splitGo]
  | cons c s ih =>
    have hc : c ≠ '|' := fun e => h (by simp [e])
    have hs : '|' ∉ s := fun e => h (by simp [e])
    have hp : List.isPrefixOf ['|'] (c :: s) = false := by
      simp [List.isPrefixOf, hc.symm]
    simp [splitGo, hp, ih hs]

theorem splitGo_bar_append (name rest : Str) (h : '|' ∉ name) :
    splitGo ['|'] 0 (name ++ '|' :: rest) = name :: splitGo ['|'] 0 rest := by
  induction name with
  | nil => simp [splitGo, List.isPrefixOf]
  | cons c s ih =>
    have hc : c ≠ '|' := fun e => h (by simp [e])
    have hs : '|' ∉ s := fun e => h (by simp [e])
    have hp : List.isPrefixOf ['|'] (c :: (s ++ '|' :: rest)) = false := by
      simp [List.isPrefixOf, hc.symm]
    simp [splitGo, hp, ih hs]


theorem mem_dropWhile_of_false {p : Char → Bool} {c : Char} {l : Str}
    (hc : c ∈ l) (hp : p c = false) : c ∈ l.dropWhile p := by
  induction l with
  | nil => simp at hc
  | cons a l ih =>
    rw [List.dropWhile_cons]
    split
    · rename_i ha
      rcases List.mem_cons.1 hc with rfl | h
      · simp [hp] at ha
      · exact ih h
    · exact hc

theorem mem_rdropWhile_of_false {p : Char → Bool} {c : Char} {l : Str}
    (hc : c ∈ l) (hp : p c = false) : c ∈ l.rdropWhile p := by
  unfold List.rdropWhile
  rw [List.mem_reverse]
  exact mem_dropWhile_of_false (List.mem_reverse.2 hc) hp

theorem mem_trimSpace_of_not_space {c : Char} {s : Str}
    (hc : c ∈ s) (hp : isSpace c = false) : c ∈ trimSpace s :=
  mem_rdropWhile_of_false (mem_dropWhile_of_false hc hp) hp

theorem trimSpace_ne_nil_of_mem {c : Char} {s : Str}
    (hc : c ∈ s) (hp : isSpace c = false) : trimSpace s ≠ [] :=
  List.ne_nil_of_mem (mem_trimSpace_of_not_space hc hp)

theorem dropWhile_head_false (p : Char → Bool) (l : Str) (a : Char)
    (h : (l.dropWhile p).head? = some a) : p a = false := by
  induction l with
  | nil => simp at h
  | cons b l ih =>
    rw [List.dropWhile_cons] at h
    split at h
    · exact ih h
    · rename_i hb
      simp at h
      subst h
      simpa using hb

theorem rdropWhile_getLast_false (p : Char → Bool) (l : Str) (a : Char)
    (h : (l.rdropWhile p).getLast? = some a) : p a = false := by
  unfold List.rdropWhile at h
  rw [List.getLast?_reverse] at h
  exact dropWhile_head_false p _ a h

theorem rdropWhile_head (p : Char → Bool) (l : Str) (a : Char)
    (h : (l.rdropWhile p).head? = some a) : l.head? = some a := by
  obtain ⟨t, ht⟩ := List.rdropWhile_prefix p l
  cases hr : l.rdropWhile p with
  | nil => simp [hr] at h
  | cons b r =>
    rw [hr] at h ht
    simp at h
    subst h
    rw [← ht]
    simp

theorem isTrimmed_trimSpace (s : Str) : isTrimmed (trimSpace s) = true := by
  unfold isTrimmed
  split
  · rename_i a b ha hb
    have h1 : isSpace a = false :=
      dropWhile_head_false isSpace s a (rdropWhile_head isSpace _ a ha)
    have h2 : isSpace b = false := rdropWhile_getLast_false isSpace _ b hb
    simp [h1, h2]
  · rfl

theorem dropWhile_eq_self_of_head {p : Char → Bool} {l : Str}
    (h : ∀ a, l.head? = some a → p a = false) : l.dropWhile p = l := by
  cases l with
  | nil => rfl
  | cons b l =>
    have := h b (by simp)
    simp [List.dropWhile_cons, this]

theorem rdropWhile_eq_self_of_getLast {p : Char → Bool} {l : Str}
    (h : ∀ a, l.getLast? = some a → p a = false) : l.rdropWhile p = l := by
  unfold List.rdropWhile
  rw [dropWhile_eq_self_of_head, List.reverse_reverse]
  intro a ha
  rw [List.head?_reverse] at ha
  exact h a ha

theorem trimSpace_eq_self {s : Str}
    (h1 : ∀ a, s.head? = some a → isSpace a = false)
    (h2 : ∀ a, s.getLast? = some a → isSpace a = false) : trimSpace s = s := by
  unfold trimSpace
  rw [dropWhile_eq_self_of_head h1, rdropWhile_eq_self_of_getLast h2]

theorem interpolateValue_no_bar (env : Str → Str) (expr : Str)
    (hne : trimSpace expr ≠ []) (h : '|' ∉ expr) :
    interpolateValue env expr ['|'] =
      if env (trimSpace expr) ≠ [] then env (trimSpace expr) else expr := by
  simp [interpolateValue, hne, stringsSplit, splitGo_bar_of_not_mem expr h]

theorem interpolateValue_bar (env : Str → Str) (name rest : Str) (h : '|' ∉ name) :
    interpolateValue env (name ++ '|' :: rest) ['|'] =
      if env (trimSpace name) ≠ [] then env (trimSpace name)
      else trimSpace ((splitGo ['|'] 0 rest).headD []) := by
  have hne : trimSpace (name ++ '|' :: rest) ≠ [] :=
    trimSpace_ne_nil_of_mem (c := '|') (by simp) (by decide)
  have hsp := splitGo_ne_nil ['|'] 0 rest
  cases hr : splitGo ['|'] 0 rest with
  | nil => exact absurd hr hsp
  | cons p ps =>
    simp [interpolateValue, hne, stringsSplit, splitGo_bar_append name rest h, hr]

theorem splitGo_bar_head (s : Str) :
    (splitGo ['|'] 0 s).headD [] = s.takeWhile (fun c => c != '|') := by
  induction s with
  | nil => simp [splitGo]
  | cons c s ih =>
    by_cases hc : c = '|'
    · subst hc
      simp [splitGo, List.isPrefixOf]
    · have hp : List.isPrefixOf ['|'] (c :: s) = false := by
        simp [List.isPrefixOf, Ne.symm hc]
      have hsp := splitGo_ne_nil ['|'] 0 s
      cases hr : splitGo ['|'] 0 s with
      | nil => exact absurd hr hsp
      | cons p ps =>
        rw [hr] at ih
        simp at ih
        simp [splitGo, hp, hr, List.takeWhile_cons, hc, ih]


theorem split_at_first (d : Char) (s : Str) (h : d ∈ s) :
    ∃ name rest, s = name ++ d :: rest ∧ d ∉ name ∧
      s.takeWhile (fun c => c != d) = name ∧ (s.dropWhile (fun c => c != d)).drop 1 = rest := by
  induction s with
  | nil => simp at h
  | cons c s ih =>
    by_cases hc : c = d
    · subst hc
      exact ⟨[], s, by simp, by simp, by simp, by simp⟩
    · have hs : d ∈ s := by
        rcases List.mem_cons.1 h with e | e
        · exact absurd e.symm hc
        · exact e
      obtain ⟨name, rest, h1, h2, h3, h4⟩ := ih hs
      refine ⟨c :: name, rest, by simp [h1], ?_, ?_, ?_⟩
      · simp [h2, Ne.symm hc]
      · simp [List.takeWhile_cons, hc, h3]
      · simp [List.dropWhile_cons, hc, h4]

theorem takeWhile_ne_of_not_mem (d : Char) (s : Str) (h : d ∉ s) :
    s.takeWhile (fun c => c != d) = s := by
  rw [List.takeWhile_eq_self_iff]
  intro c hc
  have : c ≠ d := fun e => h (e ▸ hc)
  simpa using this

/-- C6. Placeholder substitution rule: for a non-blank expression with at most one `|`,
with `name` the text before the delimiter (all of the expression when there is none) and
`fallback` the text after it, `interpolateValue` returns the environment value of the trimmed
name when it is non-empty, otherwise the trimmed fallback when a delimiter is present,
otherwise the expression itself. -/
theorem interpolateValue_substitution_rule (env : Str → Str) (expr : Str)
    (hne : trimSpace expr ≠ []) (hone : expr.count '|' ≤ 1) :
    interpolateValue env expr placeholderValueDelimiter =
      if env (trimSpace (expr.takeWhile (fun c => c != '|'))) ≠ [] then
        env (trimSpace (expr.takeWhile (fun c => c != '|')))
      else if '|' ∈ expr then trimSpace ((expr.dropWhile (fun c => c != '|')).drop 1)
      else expr := by
  unfold placeholderValueDelimiter
  by_cases hb : '|' ∈ expr
  · obtain ⟨name, rest, h1, h2, h3, h4⟩ := split_at_first '|' expr hb
    have hrest : '|' ∉ rest := by
      intro hr
      have hc : 0 < rest.count '|' := List.count_pos_iff.2 hr
      rw [h1] at hone
      simp at hone
      omega
    rw [h3, h4, if_pos hb]
    rw [h1, interpolateValue_bar env name rest h2, splitGo_bar_head,
      takeWhile_ne_of_not_mem '|' rest hrest]
  · rw [takeWhile_ne_of_not_mem '|' expr hb, if_neg hb]
    exact interpolateValue_no_bar env expr hne hb

/-- Witness of C6 on `FOO| baz ` with `FOO` unset: the trimmed fallback `baz`. -/
theorem interpolateValue_substitution_rule_witness :
    interpolateValue emptyEnv ['F', 'O', 'O', '|', ' ', 'b', 'a', 'z', ' ']
      placeholderValueDelimiter = ['b', 'a', 'z'] :=
  (interpolateValue_substitution_rule emptyEnv ['F', 'O', 'O', '|', ' ', 'b', 'a', 'z', ' ']
    (by decide) (by decide)).trans (by decide)

/-- C9, as stated, fails: for `FOO|a|b` with `FOO` unset the substitution is `a`, not the
whole text `a|b` after the first delimiter. -/
theorem interpolateValue_rest_counterexample :
    interpolateValue emptyEnv (['F', 'O', 'O'] ++ '|' :: ['a', '|', 'b'])
        placeholderValueDelimiter = ['a'] ∧
      interpolateValue emptyEnv (['F', 'O', 'O'] ++ '|' :: ['a', '|', 'b'])
        placeholderValueDelimiter ≠ trimSpace ['a', '|', 'b'] := by
  decide

/-- C9, amended. The expression is split on every `|`: when the name before the first `|`
is unset or empty in the environment, the substitution is the trimmed text between the first
`|` and the next one (the end of the expression when there is no other); what follows a
second `|` is dropped. -/
theorem interpolateValue_fallback_segment (env : Str → Str) (name rest : Str)
    (hname : '|' ∉ name) (henv : env (trimSpace name) = []) :
    interpolateValue env (name ++ '|' :: rest) placeholderValueDelimiter =
      trimSpace (rest.takeWhile (fun c => c != '|')) := by
  unfold placeholderValueDelimiter
  rw [interpolateValue_bar env name rest hname, splitGo_bar_head]
  simp [henv]

/-- Witness of the amended C9 on `FOO| a |b`. -/
theorem interpolateValue_fallback_segment_witness :
    interpolateValue emptyEnv (['F', 'O', 'O'] ++ '|' :: [' ', 'a', ' ', '|', 'b'])
      placeholderValueDelimiter = ['a'] :=
  (interpolateValue_fallback_segment emptyEnv ['F', 'O', 'O'] [' ', 'a', ' ', '|', 'b']
    (by decide) (by decide)).trans (by decide)

theorem takeWhile_close_append (e post : Str) (hclose : '}' ∉ e) :
    (e ++ '}' :: post).takeWhile (fun c => c != '}') = e := by
  rw [List.takeWhile_append_of_pos]
  · simp
  · intro c hc
    have : c ≠ '}' := fun h => hclose (h ▸ hc)
    simpa using this

theorem matchPlaceholderAt_text (e post : Str) (hne : e ≠ []) (hclose : '}' ∉ e) :
    matchPlaceholderAt (placeholderText e ++ post) = some e := by
  have h := takeWhile_close_append e post hclose
  simp [matchPlaceholderAt, placeholderText, List.isPrefixOf, h, hne]

theorem matchPlaceholderAt_some {s inner : Str} (h : matchPlaceholderAt s = some inner) :
    s = placeholderText inner ++ s.drop (inner.length + 3) ∧ inner ≠ [] ∧ '}' ∉ inner := by
  unfold matchPlaceholderAt at h
  split at h
  · rename_i hp
    dsimp only at h
    split at h
    · rename_i hc
      simp only [Option.some.injEq] at h
      obtain ⟨t, ht⟩ := List.isPrefixOf_iff_prefix.1 hp
      subst ht
      simp only [List.cons_append, List.nil_append, List.drop_succ_cons, List.drop_zero] at h hc
      have hsplit := List.takeWhile_append_dropWhile (fun c => c != '}') t
      rw [h] at hsplit hc
      have hmem : '}' ∉ inner := by
        intro hm
        have := List.mem_takeWhile_imp (h ▸ hm : '}' ∈ t.takeWhile (fun c => c != '}'))
        simp at this
      refine ⟨?_, hc.1, hmem⟩
      cases hd : t.dropWhile (fun c => c != '}') with
      | nil =>
        rw [hd] at hsplit
        simp at hsplit
        rw [hsplit] at hc
        exact absurd hc.2 (lt_irrefl _)
      | cons x r =>
        have hx : (fun c => c != '}') x = false := by
          have := List.head_dropWhile_not (fun c => c != '}') t (by simp [hd])
          simpa [hd] using this
        have hx2 : x = '}' := by simpa using hx
        subst hx2
        rw [hd] at hsplit
        simp only [placeholderText, List.cons_append, List.nil_append, List.drop_succ_cons]
        rw [← hsplit]
        simp
    · simp at h
  · simp at h

theorem placeholderText_injective {a b : Str} (h : placeholderText a = placeholderText b) :
    a = b := by
  simpa [placeholderText] using h

theorem placeholderText_ne_nil (e : Str) : placeholderText e ≠ [] := by
  simp [placeholderText]

theorem placeholderText_length (e : Str) : (placeholderText e).length = e.length + 3 := by
  simp [placeholderText]

theorem findAllGo_of_some {s inner : Str} (h : matchPlaceholderAt s = some inner) :
    findAllGo 0 s = placeholderText inner :: findAllGo 0 (s.drop (inner.length + 3)) := by
  cases s with
  | nil => simp [matchPlaceholderAt, List.isPrefixOf] at h
  | cons c s =>
    rw [findAllGo, h]
    simp only
    rw [findAllGo_skip]
    rfl

theorem findAllGo_of_none {c : Char} {s : Str} (h : matchPlaceholderAt (c :: s) = none) :
    findAllGo 0 (c :: s) = findAllGo 0 s := by
  rw [findAllGo, h]

theorem matchPlaceholderAt_of_occurrence {e t : Str} (hne : e ≠ []) (hclose : '}' ∉ e)
    (hp : (placeholderText e).isPrefixOf t = true) : matchPlaceholderAt t = some e := by
  obtain ⟨r, hr⟩ := List.isPrefixOf_iff_prefix.1 hp
  rw [← hr]
  exact matchPlaceholderAt_text e r hne hclose

theorem replaceGo_of_occurrence (old new : Str) (r : Str) (hold : old ≠ []) :
    replaceGo old new 0 (old ++ r) = new ++ replaceGo old new 0 r := by
  cases old with
  | nil => exact absurd rfl hold
  | cons c o =>
    have hp : (c :: o).isPrefixOf (c :: (o ++ r)) = true :=
      List.isPrefixOf_iff_prefix.2 ⟨r, rfl⟩
    rw [List.cons_append, replaceGo, if_pos hp, replaceGo_skip]
    simp

theorem replaceGo_of_no_occurrence (old new : Str) (c : Char) (s : Str)
    (h : old.isPrefixOf (c :: s) = false) :
    replaceGo old new 0 (c :: s) = c :: replaceGo old new 0 s := by
  rw [replaceGo, if_neg (by simp [h])]

/-- Where the pattern has no match, no placeholder text occurs, and `Replace` is the
identity. -/
theorem replaceGo_of_no_match (e new : Str) (hne : e ≠ []) (hclose : '}' ∉ e) (t : Str)
    (h : findAllGo 0 t = []) : replaceGo (placeholderText e) new 0 t = t := by
  induction t with
  | nil => simp [replaceGo]
  | cons c t ih =>
    cases hm : matchPlaceholderAt (c :: t) with
    | some inner =>
      rw [findAllGo_of_some hm] at h
      simp at h
    | none =>
      rw [findAllGo_of_none hm] at h
      have hp : (placeholderText e).isPrefixOf (c :: t) = false := by
        by_contra hp
        have := matchPlaceholderAt_of_occurrence hne hclose (by simpa using hp)
        rw [hm] at this
        simp at this
      rw [replaceGo_of_no_occurrence _ _ _ _ hp, ih h]

theorem findAllGo_ne_nil_of_occurs (e : Str) (hne : e ≠ []) (hclose : '}' ∉ e)
    (a b : Str) : findAllGo 0 (a ++ (placeholderText e ++ b)) ≠ [] := by
  induction a with
  | nil =>
    have hm := matchPlaceholderAt_text e b hne hclose
    rw [List.nil_append, findAllGo_of_some hm]
    simp
  | cons c a ih =>
    rw [List.cons_append]
    cases hm : matchPlaceholderAt (c :: (a ++ (placeholderText e ++ b))) with
    | some inner =>
      rw [findAllGo_of_some hm]
      simp
    | none =>
      rw [findAllGo_of_none hm]
      exact ih

theorem split_first_close {a b x y : Str} (ha : '}' ∉ a) (hb : '}' ∉ b)
    (h : a ++ '}' :: x = b ++ '}' :: y) : a = b ∧ x = y := by
  have h1 := congrArg (List.takeWhile (fun c => c != '}')) h
  rw [takeWhile_close_append a x ha, takeWhile_close_append b y hb] at h1
  subst h1
  simpa using h

theorem placeholderText_split (e r : Str) :
    placeholderText e ++ r = ('$' :: '{' :: e) ++ '}' :: r := by
  simp [placeholderText]

theorem close_not_mem_body (e : Str) (hclose : '}' ∉ e) : '}' ∉ ('$' :: '{' :: e) := by
  simp [hclose]

/-- With a single match in the value, `Replace` rewrites exactly that occurrence. -/
theorem replaceGo_single (e new post : Str) (hne : e ≠ []) (hclose : '}' ∉ e) :
    ∀ pre : Str, findAllGo 0 (pre ++ (placeholderText e ++ post)) = [placeholderText e] →
      replaceGo (placeholderText e) new 0 (pre ++ (placeholderText e ++ post)) =
        pre ++ (new ++ post) := by
  intro pre
  induction pre with
  | nil =>
    intro h
    have hm := matchPlaceholderAt_text e post hne hclose
    rw [List.nil_append, findAllGo_of_some hm] at h
    have hd : (placeholderText e ++ post).drop (e.length + 3) = post := by
      rw [← placeholderText_length e]
      exact List.drop_left' rfl
    rw [hd] at h
    simp only [List.cons.injEq, true_and] at h
    rw [List.nil_append, replaceGo_of_occurrence _ _ _ (placeholderText_ne_nil e),
      replaceGo_of_no_match e new hne hclose post h, List.nil_append]
  | cons c pre ih =>
    intro h
    rw [List.cons_append] at h ⊢
    cases hm : matchPlaceholderAt (c :: (pre ++ (placeholderText e ++ post))) with
    | none =>
      rw [findAllGo_of_none hm] at h
      have hp : (placeholderText e).isPrefixOf (c :: (pre ++ (placeholderText e ++ post)))
          = false := by
        by_contra hp
        have := matchPlaceholderAt_of_occurrence hne hclose (by simpa using hp)
        rw [hm] at this
        simp at this
      rw [replaceGo_of_no_occurrence _ _ _ _ hp, ih h, List.cons_append]
    | some inner =>
      exfalso
      rw [findAllGo_of_some hm] at h
      simp only [List.cons.injEq] at h
      have hinner : inner = e := placeholderText_injective h.1
      subst hinner
      obtain ⟨hval, -, -⟩ := matchPlaceholderAt_some hm
      generalize hr : (c :: (pre ++ (placeholderText inner ++ post))).drop (inner.length + 3)
        = r at h hval
      have hr0 : findAllGo 0 r = [] := h.2
      rw [placeholderText_split inner r] at hval
      by_cases hcl : '}' ∈ c :: pre
      · obtain ⟨p1, p2, hp1, hp2, -, -⟩ := split_at_first '}' (c :: pre) hcl
        have hval2 : (c :: pre) ++ (placeholderText inner ++ post) =
            ('$' :: '{' :: inner) ++ '}' :: r := hval
        rw [hp1, List.append_assoc, List.cons_append] at hval2
        have := (split_first_close hp2 (close_not_mem_body inner hclose) hval2).2
        exact findAllGo_ne_nil_of_occurs inner hne hclose p2 post (this ▸ hr0)
      · have hval2 : ((c :: pre) ++ ('$' :: '{' :: inner)) ++ '}' :: post =
            ('$' :: '{' :: inner) ++ '}' :: r := by
          rw [← hval]
          simp [placeholderText]
        have hnot : '}' ∉ (c :: pre) ++ ('$' :: '{' :: inner) := by
          intro hmem
          rcases List.mem_append.1 hmem with h1 | h1
          · exact hcl h1
          · exact close_not_mem_body inner hclose h1
        have := (split_first_close hnot (close_not_mem_body inner hclose) hval2).1
        have hlen := congrArg List.length this
        simp at hlen
        omega

theorem placeholderMatchString_of_occurs (e : Str) (hne : e ≠ []) (hclose : '}' ∉ e)
    (a b : Str) : placeholderMatchString (a ++ (placeholderText e ++ b)) = true := by
  induction a with
  | nil =>
    have hm := matchPlaceholderAt_text e b hne hclose
    have : placeholderText e ++ b = '$' :: ('{' :: ((e ++ ['}']) ++ b)) := by
      simp [placeholderText]
    rw [List.nil_append]
    rw [this] at hm ⊢
    rw [placeholderMatchString, hm]
    rfl
  | cons c a ih =>
    rw [List.cons_append]
    simp [placeholderMatchString, ih]

theorem placeholderValue_text (e : Str) (hne : e ≠ []) (hclose : '}' ∉ e) :
    placeholderValue (placeholderText e) = e := by
  have hm := matchPlaceholderAt_text e [] hne hclose
  rw [List.append_nil] at hm
  have : placeholderText e = '$' :: ('{' :: (e ++ ['}'])) := rfl
  rw [this] at hm ⊢
  rw [placeholderValue, hm]

/-- C7. For a value `pre ++ placeholder ++ post` whose only match of the placeholder pattern is
the placeholder with the non-empty, brace-free expression `expr`, `interpolate` returns
`pre ++ interpolateValue expr ++ post`. -/
theorem interpolate_single_placeholder (env : Str → Str) (pre expr post : Str)
    (hne : expr ≠ []) (hclose : '}' ∉ expr)
    (hone : findAllMatchesOf (pre ++ (placeholderText expr ++ post)) = [placeholderText expr]) :
    interpolate env (pre ++ (placeholderText expr ++ post)) =
      pre ++ (interpolateValue env expr placeholderValueDelimiter ++ post) := by
  unfold interpolate
  rw [placeholderMatchString_of_occurs expr hne hclose pre post, hone]
  simp only [Bool.not_true, Bool.false_eq_true, if_false, List.foldl_cons, List.foldl_nil]
  unfold interpolateStep stringsReplaceAll
  rw [if_neg (placeholderText_ne_nil expr), placeholderValue_text expr hne hclose]
  exact replaceGo_single expr _ post hne hclose pre hone

/-- Witness of C7, on the three values of the specification: `FOO=bar` turns the placeholder
of `FOO` into `bar`; with `FOO` unset the placeholder of `FOO|baz` yields `baz` and the
placeholder of `FOO` yields `FOO`. -/
theorem interpolate_single_placeholder_witness :
    interpolate (singleEnv ['F', 'O', 'O'] ['b', 'a', 'r'])
        ([] ++ (placeholderText ['F', 'O', 'O'] ++ [])) = ['b', 'a', 'r'] ∧
      interpolate emptyEnv ([] ++ (placeholderText ['F', 'O', 'O', '|', 'b', 'a', 'z'] ++ []))
        = ['b', 'a', 'z'] ∧
      interpolate emptyEnv ([] ++ (placeholderText ['F', 'O', 'O'] ++ [])) = ['F', 'O', 'O'] :=
  ⟨(interpolate_single_placeholder (singleEnv ['F', 'O', 'O'] ['b', 'a', 'r']) []
      ['F', 'O', 'O'] [] (by decide) (by decide) (by decide)).trans (by decide),
   (interpolate_single_placeholder emptyEnv [] ['F', 'O', 'O', '|', 'b', 'a', 'z'] []
      (by decide) (by decide) (by decide)).trans (by decide),
   (interpolate_single_placeholder emptyEnv [] ['F', 'O', 'O'] []
      (by decide) (by decide) (by decide)).trans (by decide)⟩

/-- C10, as stated, fails: a value without placeholder is returned as it is, white space
included. -/
theorem pkg_interpolate_untrimmed_counterexample :
    Pkg.interpolate emptyEnv [' ', 'x', ' '] = [' ', 'x', ' '] ∧
      isTrimmed (Pkg.interpolate emptyEnv [' ', 'x', ' ']) = false := by
  decide

/-- C10, amended. For every value in which the placeholder pattern matches at least once,
`interpolate` of `src/pkg/config.go` returns a string with no leading and no trailing white
space. -/
theorem pkg_interpolate_trimmed (env : Str → Str) (v : Str)
    (hmatch : placeholderMatchString v = true) :
    isTrimmed (Pkg.interpolate env v) = true := by
  unfold Pkg.interpolate
  rw [hmatch]
  simp only [Bool.not_true, Bool.false_eq_true, if_false]
  exact isTrimmed_trimSpace _

/-- Witness of the amended C10: the environment value ` 2025-05-13T01:38:00Z ` of the test
suite, substituted for the placeholder of `T`, comes out trimmed. -/
theorem pkg_interpolate_trimmed_witness :
    Pkg.interpolate
        (singleEnv ['T'] (' ' :: "2025-05-13T01:38:00Z".toList ++ [' ']))
        (placeholderText ['T']) = "2025-05-13T01:38:00Z".toList ∧
      isTrimmed (Pkg.interpolate
        (singleEnv ['T'] (' ' :: "2025-05-13T01:38:00Z".toList ++ [' ']))
        (placeholderText ['T'])) = true :=
  ⟨by decide, pkg_interpolate_trimmed _ _ (by decide)⟩

theorem putAll_append (data : ConfigMap) (a b : List (Path × Str)) :
    putAll data (a ++ b) = putAll (putAll data a) b := by
  simp [putAll, List.foldl_append]

theorem putAll_cons (data : ConfigMap) (w : Path × Str) (ws : List (Path × Str)) :
    putAll data (w :: ws) = putAll (ConfigMap.put data w.1 w.2) ws := rfl

theorem putAll_nil (data : ConfigMap) : putAll data [] = data := rfl

mutual
theorem flatten_ok_eq : ∀ (v : Node) (path : Str) (data d : ConfigMap),
    flatten path v data = .ok d → d = putAll data (writes path v)
  | .bool b, path, data, d, h => by
    simp only [flatten, FlattenResult.ok.injEq] at h
    simp [writes, putAll, Node.ownValue, h]
  | .int n, path, data, d, h => by
    simp only [flatten, FlattenResult.ok.injEq] at h
    simp [writes, putAll, Node.ownValue, h]
  | .str s, path, data, d, h => by
    simp only [flatten, FlattenResult.ok.injEq] at h
    simp [writes, putAll, Node.ownValue, h]
  | .float32 x, path, data, d, h => by
    simp only [flatten, FlattenResult.ok.injEq] at h
    rw [← h]
    rfl
  | .float64 x, path, data, d, h => by
    simp only [flatten, FlattenResult.ok.injEq] at h
    rw [← h]
    rfl
  | .other, path, data, d, h => by
    simp [flatten] at h
  | .map kvs, path, data, d, h => by
    simp only [flatten] at h
    cases hm : flattenMap path kvs data with
    | ok d' =>
      rw [hm] at h
      simp only [FlattenResult.ok.injEq] at h
      have := flattenMap_ok_eq kvs path data d' hm
      rw [writes, putAll_append, ← this, ← h]
      rfl
    | error p e => rw [hm] at h; simp at h
    | panic p => rw [hm] at h; simp at h
  | .seq xs, path, data, d, h => by
    simp only [flatten] at h
    cases hm : flattenSliceLoop (formatSliceSuffix path) 0 xs
        (ConfigMap.put data (formatSliceSuffix path) (decimalNat xs.length)) with
    | ok d' =>
      rw [hm] at h
      simp only [FlattenResult.ok.injEq] at h
      have := flattenSliceLoop_ok_eq xs (formatSliceSuffix path) 0 _ d' hm
      rw [writes, putAll_cons, putAll_append, ← this, ← h]
      rfl
    | error p e => rw [hm] at h; simp at h
    | panic p => rw [hm] at h; simp at h
theorem flattenMap_ok_eq : ∀ (kvs : List (MapKey × Node)) (path : Str) (data d : ConfigMap),
    flattenMap path kvs data = .ok d → d = putAll data (writesMap path kvs)
  | [], path, data, d, h => by
    simp only [flattenMap, FlattenResult.ok.injEq] at h
    simp [writesMap, putAll, h]
  | (.other, _) :: _, path, data, d, h => by
    simp [flattenMap] at h
  | (.str k, v) :: rest, path, data, d, h => by
    simp only [flattenMap] at h
    cases hm : flatten (path ++ '.' :: k) v data with
    | ok d' =>
      rw [hm] at h
      have h1 := flatten_ok_eq v _ data d' hm
      have h2 := flattenMap_ok_eq rest path d' d h
      rw [writesMap, putAll_append, ← h1, ← h2]
    | error p e => rw [hm] at h; simp at h
    | panic p => rw [hm] at h; simp at h
theorem flattenSliceLoop_ok_eq : ∀ (xs : List Node) (path : Str) (i : Nat) (data d : ConfigMap),
    flattenSliceLoop path i xs data = .ok d → d = putAll data (writesSlice path i xs)
  | [], path, i, data, d, h => by
    simp only [flattenSliceLoop, FlattenResult.ok.injEq] at h
    simp [writesSlice, putAll, h]
  | x :: rest, path, i, data, d, h => by
    simp only [flattenSliceLoop] at h
    cases hm : flatten (path ++ decimalNat i) x data with
    | ok d' =>
      rw [hm] at h
      have h1 := flatten_ok_eq x _ data d' hm
      have h2 := flattenSliceLoop_ok_eq rest path (i + 1) d' d h
      rw [writesSlice, putAll_append, ← h1, ← h2]
    | error p e => rw [hm] at h; simp at h
    | panic p => rw [hm] at h; simp at h
end

mutual
theorem flatten_of_supported : ∀ (v : Node) (path : Str) (data : ConfigMap),
    v.supported = true → flatten path v data = .ok (putAll data (writes path v))
  | .bool b, path, data, _ => by simp [flatten, writes, putAll, Node.ownValue]
  | .int n, path, data, _ => by simp [flatten, writes, putAll, Node.ownValue]
  | .str s, path, data, _ => by simp [flatten, writes, putAll, Node.ownValue]
  | .float32 x, path, data, _ => rfl
  | .float64 x, path, data, _ => rfl
  | .other, path, data, h => by simp [Node.supported] at h
  | .map kvs, path, data, h => by
    simp only [Node.supported] at h
    simp only [flatten, flattenMap_of_supported kvs path data h]
    rw [writes, putAll_append]
    rfl
  | .seq xs, path, data, h => by
    simp only [Node.supported] at h
    simp only [flatten, flattenSliceLoop_of_supported xs (formatSliceSuffix path) 0 _ h]
    rw [writes, putAll_cons, putAll_append]
    rfl
theorem flattenMap_of_supported : ∀ (kvs : List (MapKey × Node)) (path : Str)
    (data : ConfigMap), supportedEntries kvs = true →
    flattenMap path kvs data = .ok (putAll data (writesMap path kvs))
  | [], path, data, _ => by simp [flattenMap, writesMap, putAll]
  | (.other, _) :: _, path, data, h => by simp [supportedEntries] at h
  | (.str k, v) :: rest, path, data, h => by
    simp only [supportedEntries, Bool.and_eq_true] at h
    simp only [flattenMap, flatten_of_supported v _ data h.1,
      flattenMap_of_supported rest path _ h.2]
    rw [writesMap, putAll_append]
theorem flattenSliceLoop_of_supported : ∀ (xs : List Node) (path : Str) (i : Nat)
    (data : ConfigMap), supportedNodes xs = true →
    flattenSliceLoop path i xs data = .ok (putAll data (writesSlice path i xs))
  | [], path, i, data, _ => by simp [flattenSliceLoop, writesSlice, putAll]
  | x :: rest, path, i, data, h => by
    simp only [supportedNodes, Bool.and_eq_true] at h
    simp only [flattenSliceLoop, flatten_of_supported x _ data h.1,
      flattenSliceLoop_of_supported rest path (i + 1) _ h.2]
    rw [writesSlice, putAll_append]
end

/-! ## Decimal digits -/

theorem digitChar_isDigit (k : Nat) (h : k < 10) : (Nat.digitChar k).isDigit = true := by
  interval_cases k <;> rfl

theorem digitChar_val (k : Nat) (h : k < 10) : (Nat.digitChar k).toNat - 48 = k := by
  interval_cases k <;> rfl

theorem toDigitsCore_append (fuel : Nat) : ∀ (n : Nat) (acc : List Char),
    Nat.toDigitsCore 10 fuel n acc = Nat.toDigitsCore 10 fuel n [] ++ acc := by
  induction fuel with
  | zero => intro n acc; simp [Nat.toDigitsCore]
  | succ f ih =>
    intro n acc
    simp only [Nat.toDigitsCore]
    split
    · simp
    · rw [ih (n / 10) (Nat.digitChar (n % 10) :: acc), ih (n / 10) [Nat.digitChar (n % 10)]]
      simp

theorem readDecimal_snoc (s : Str) (c : Char) :
    readDecimal (s ++ [c]) = readDecimal s * 10 + (c.toNat - 48) := by
  simp [readDecimal, List.foldl_append]

theorem readDecimal_toDigitsCore (fuel : Nat) : ∀ n : Nat, n < fuel →
    readDecimal (Nat.toDigitsCore 10 fuel n []) = n := by
  induction fuel with
  | zero => intro n h; omega
  | succ f ih =>
    intro n h
    simp only [Nat.toDigitsCore]
    split
    · rename_i h0
      have hn : n < 10 := by omega
      have : n % 10 = n := Nat.mod_eq_of_lt hn
      simp [readDecimal, this, digitChar_val n hn]
    · rename_i h0
      rw [toDigitsCore_append, readDecimal_snoc, ih (n / 10) (by omega),
        digitChar_val (n % 10) (Nat.mod_lt _ (by decide))]
      omega

theorem readDecimal_decimalNat (n : Nat) : readDecimal (decimalNat n) = n :=
  readDecimal_toDigitsCore (n + 1) n (Nat.lt_succ_self n)

theorem decimalNat_injective {a b : Nat} (h : decimalNat a = decimalNat b) : a = b := by
  have := congrArg readDecimal h
  rwa [readDecimal_decimalNat, readDecimal_decimalNat] at this

theorem toDigitsCore_isDigit (fuel : Nat) : ∀ (n : Nat) (acc : List Char) (c : Char),
    c ∈ Nat.toDigitsCore 10 fuel n acc → c ∈ acc ∨ c.isDigit = true := by
  induction fuel with
  | zero => intro n acc c h; simp [Nat.toDigitsCore] at h; exact Or.inl h
  | succ f ih =>
    intro n acc c h
    simp only [Nat.toDigitsCore] at h
    split at h
    · rcases List.mem_cons.1 h with h | h
      · exact Or.inr (h ▸ digitChar_isDigit _ (Nat.mod_lt _ (by decide)))
      · exact Or.inl h
    · rcases ih _ _ c h with h | h
      · rcases List.mem_cons.1 h with h | h
        · exact Or.inr (h ▸ digitChar_isDigit _ (Nat.mod_lt _ (by decide)))
        · exact Or.inl h
      · exact Or.inr h

theorem decimalNat_isDigit (n : Nat) (c : Char) (h : c ∈ decimalNat n) : c.isDigit = true := by
  rcases toDigitsCore_isDigit (n + 1) n [] c h with h | h
  · simp at h
  · exact h

theorem decimalNat_ne_nil (n : Nat) : decimalNat n ≠ [] := by
  unfold decimalNat Nat.toDigits
  simp only [Nat.toDigitsCore]
  split
  · simp
  · rw [toDigitsCore_append]
    simp

theorem dot_not_mem_decimalNat (n : Nat) : '.' ∉ decimalNat n := fun h => by
  have := decimalNat_isDigit n '.' h
  simp [Char.isDigit] at this

/-! ## The association list behind `configMap` -/

theorem lookup_put_self (m : ConfigMap) (k : Path) (v : Str) :
    (ConfigMap.put m k v).lookup k = some v := by
  induction m with
  | nil => simp [ConfigMap.put, List.lookup]
  | cons a m ih =>
    obtain ⟨k', v'⟩ := a
    simp only [ConfigMap.put]
    split
    · simp [List.lookup]
    · rename_i hne
      have : (k == k') = false := by simpa using fun e => hne e.symm
      simp [List.lookup, this, ih]

theorem lookup_put_ne (m : ConfigMap) (k k' : Path) (v : Str) (h : k' ≠ k) :
    (ConfigMap.put m k v).lookup k' = m.lookup k' := by
  induction m with
  | nil =>
    have : (k' == k) = false := by simpa using h
    simp [ConfigMap.put, List.lookup, this]
  | cons a m ih =>
    obtain ⟨k1, v1⟩ := a
    simp only [ConfigMap.put]
    split
    · rename_i he
      subst he
      have : (k' == k1) = false := by simpa using h
      simp [List.lookup, this]
    · simp only [List.lookup]
      split
      · rfl
      · exact ih

theorem mem_keys_put (m : ConfigMap) (k k' : Path) (v : Str) :
    k' ∈ (ConfigMap.put m k v).map Prod.fst ↔ k' = k ∨ k' ∈ m.map Prod.fst := by
  induction m with
  | nil => simp [ConfigMap.put]
  | cons a m ih =>
    obtain ⟨k1, v1⟩ := a
    simp only [ConfigMap.put]
    split
    · rename_i he
      subst he
      simp
    · simp only [List.map_cons, List.mem_cons, ih]
      tauto

theorem nodup_keys_put (m : ConfigMap) (k : Path) (v : Str)
    (h : (m.map Prod.fst).Nodup) : ((ConfigMap.put m k v).map Prod.fst).Nodup := by
  induction m with
  | nil => simp [ConfigMap.put]
  | cons a m ih =>
    obtain ⟨k1, v1⟩ := a
    simp only [List.map_cons, List.nodup_cons] at h
    simp only [ConfigMap.put]
    split
    · rename_i he
      subst he
      simpa using h
    · rename_i hne
      simp only [List.map_cons, List.nodup_cons]
      refine ⟨?_, ih h.2⟩
      intro hmem
      rcases (mem_keys_put m k k1 v).1 hmem with e | e
      · exact hne e
      · exact h.1 e

theorem mem_keys_putAll (ws : List (Path × Str)) : ∀ (data : ConfigMap) (k : Path),
    k ∈ (putAll data ws).map Prod.fst ↔ k ∈ data.map Prod.fst ∨ k ∈ ws.map Prod.fst := by
  induction ws with
  | nil => intro data k; simp [putAll]
  | cons w ws ih =>
    intro data k
    rw [putAll_cons, ih, mem_keys_put]
    simp only [List.map_cons, List.mem_cons]
    tauto

theorem nodup_keys_putAll (ws : List (Path × Str)) : ∀ (data : ConfigMap),
    (data.map Prod.fst).Nodup → ((putAll data ws).map Prod.fst).Nodup := by
  induction ws with
  | nil => intro data h; exact h
  | cons w ws ih =>
    intro data h
    rw [putAll_cons]
    exact ih _ (nodup_keys_put data w.1 w.2 h)

/-- The last write to a key decides the value stored under it. -/
theorem lookup_putAll_last (data : ConfigMap) (a b : List (Path × Str)) (k : Path) (v : Str)
    (hb : ∀ w ∈ b, w.1 ≠ k) : (putAll data (a ++ (k, v) :: b)).lookup k = some v := by
  rw [putAll_append, putAll_cons]
  have h0 : (ConfigMap.put (putAll data a) k v).lookup k = some v := lookup_put_self _ _ _
  revert h0
  generalize ConfigMap.put (putAll data a) k v = m
  intro h0
  induction b generalizing m with
  | nil => exact h0
  | cons w b ih =>
    rw [putAll_cons]
    apply ih (fun w' hw' => hb w' (List.mem_cons_of_mem _ hw'))
    rw [lookup_put_ne _ _ _ _ (fun e => hb w (List.mem_cons_self _ _) e.symm)]
    exact h0

/-- A key that is never written keeps the value it had. -/
theorem lookup_putAll_frame (data : ConfigMap) (ws : List (Path × Str)) (k : Path)
    (h : ∀ w ∈ ws, w.1 ≠ k) : (putAll data ws).lookup k = data.lookup k := by
  induction ws generalizing data with
  | nil => rfl
  | cons w ws ih =>
    rw [putAll_cons, ih _ (fun w' hw' => h w' (List.mem_cons_of_mem _ hw')),
      lookup_put_ne _ _ _ _ (fun e => h w (List.mem_cons_self _ _) e.symm)]

theorem below_trans_key {path k x : Str} (h : Below (path ++ '.' :: k) x) : Below path x := by
  obtain ⟨s, hs⟩ := h
  exact ⟨k ++ '.' :: s, by simp [hs]⟩

theorem below_of_eq_key (path k : Str) : Below path (path ++ '.' :: k) := ⟨k, rfl⟩

theorem below_ne {path k : Str} (h : Below path k) : k ≠ path := by
  obtain ⟨s, hs⟩ := h
  intro e
  have := congrArg List.length (hs.symm.trans e)
  simp at this

mutual
theorem writes_shape : ∀ (v : Node) (path : Str) (w : Path × Str),
    w ∈ writes path v → w.1 = path ∨ Below path w.1
  | .bool b, path, w, h => by simp [writes] at h; simp [h]
  | .int n, path, w, h => by simp [writes] at h; simp [h]
  | .str s, path, w, h => by simp [writes] at h; simp [h]
  | .float32 x, path, w, h => by simp [writes] at h; simp [h]
  | .float64 x, path, w, h => by simp [writes] at h; simp [h]
  | .other, path, w, h => by simp [writes] at h
  | .map kvs, path, w, h => by
    simp only [writes, List.mem_append, List.mem_singleton] at h
    rcases h with h | h
    · exact Or.inr (writesMap_shape kvs path w h)
    · exact Or.inl (by simp [h])
  | .seq xs, path, w, h => by
    simp only [writes, List.mem_cons, List.mem_append, List.mem_singleton, List.mem_nil_iff,
      or_false] at h
    rcases h with h | h | h
    · exact Or.inr ⟨['#'], by simp [h, formatSliceSuffix]⟩
    · obtain ⟨j, -, -, hj | hj⟩ := writesSlice_shape xs _ 0 w h
      · exact Or.inr ⟨'#' :: decimalNat j, by simp [hj, formatSliceSuffix]⟩
      · obtain ⟨s, hs⟩ := hj
        exact Or.inr ⟨'#' :: (decimalNat j ++ '.' :: s), by simp [hs, formatSliceSuffix]⟩
    · exact Or.inl (by simp [h])
theorem writesMap_shape : ∀ (kvs : List (MapKey × Node)) (path : Str) (w : Path × Str),
    w ∈ writesMap path kvs → Below path w.1
  | [], path, w, h => by simp [writesMap] at h
  | (.other, _) :: _, path, w, h => by simp [writesMap] at h
  | (.str k, v) :: rest, path, w, h => by
    simp only [writesMap, List.mem_append] at h
    rcases h with h | h
    · rcases writes_shape v _ w h with e | e
      · exact e ▸ below_of_eq_key path k
      · exact below_trans_key e
    · exact writesMap_shape rest path w h
theorem writesSlice_shape : ∀ (xs : List Node) (path : Str) (i : Nat) (w : Path × Str),
    w ∈ writesSlice path i xs → ∃ j, i ≤ j ∧ j < i + xs.length ∧
      (w.1 = path ++ decimalNat j ∨ Below (path ++ decimalNat j) w.1)
  | [], path, i, w, h => by simp [writesSlice] at h
  | x :: rest, path, i, w, h => by
    simp only [writesSlice, List.mem_append] at h
    rcases h with h | h
    · exact ⟨i, le_refl _, by simp, writes_shape x _ w h⟩
    · obtain ⟨j, h1, h2, h3⟩ := writesSlice_shape rest path (i + 1) w h
      exact ⟨j, by omega, by simp only [List.length_cons]; omega, h3⟩
end

/-- A node of a supported kind is written last at its own path, after keys strictly below. -/
theorem writes_own_last (v : Node) (path : Str) (hv : v ≠ .other) :
    ∃ init, writes path v = init ++ [(path, v.ownValue)] ∧ ∀ w ∈ init, Below path w.1 := by
  cases v with
  | other => exact absurd rfl hv
  | bool b => exact ⟨[], by simp [writes], by simp⟩
  | int n => exact ⟨[], by simp [writes], by simp⟩
  | str s => exact ⟨[], by simp [writes], by simp⟩
  | float32 x => exact ⟨[], by simp [writes], by simp⟩
  | float64 x => exact ⟨[], by simp [writes], by simp⟩
  | map kvs =>
    exact ⟨writesMap path kvs, by simp [writes, Node.ownValue],
      fun w hw => writesMap_shape kvs path w hw⟩
  | seq xs =>
    refine ⟨(formatSliceSuffix path, decimalNat xs.length) ::
      writesSlice (formatSliceSuffix path) 0 xs, by simp [writes, Node.ownValue], ?_⟩
    intro w hw
    have hw' : w ∈ writes path (.seq xs) := by
      simp only [writes, List.mem_cons, List.mem_append] at hw ⊢
      tauto
    rcases writes_shape (.seq xs) path w hw' with e | e
    · exfalso
      rcases List.mem_cons.1 hw with h | h
      · subst h
        have := congrArg List.length e
        simp [formatSliceSuffix] at this
      · obtain ⟨j, -, -, hj | hj⟩ := writesSlice_shape xs _ 0 w h
        · have := congrArg List.length (hj.symm.trans e)
          simp [formatSliceSuffix] at this
        · obtain ⟨s, hs⟩ := hj
          have := congrArg List.length (hs.symm.trans e)
          simp [formatSliceSuffix] at this
    · exact e

theorem flattenSliceLoop_ok_ne_other : ∀ (xs : List Node) (path : Str) (i : Nat)
    (data d : ConfigMap), flattenSliceLoop path i xs data = .ok d → ∀ x ∈ xs, x ≠ .other
  | [], _, _, _, _, _ => by simp
  | x :: rest, path, i, data, d, h => by
    simp only [flattenSliceLoop] at h
    intro y hy
    cases hm : flatten (path ++ decimalNat i) x data with
    | ok d' =>
      rw [hm] at h
      rcases List.mem_cons.1 hy with e | e
      · subst e
        intro hx
        subst hx
        simp [flatten] at hm
      · exact flattenSliceLoop_ok_ne_other rest path (i + 1) d' d h y e
    | error p e => rw [hm] at h; simp at h
    | panic p => rw [hm] at h; simp at h

theorem writesSlice_split : ∀ (xs : List Node) (path : Str) (i k : Nat) (hk : k < xs.length),
    ∃ a, writesSlice path i xs =
      a ++ (writes (path ++ decimalNat (i + k)) xs[k] ++
        writesSlice path (i + k + 1) (xs.drop (k + 1)))
  | [], _, _, k, hk => by simp at hk
  | x :: rest, path, i, 0, _ => ⟨[], by simp [writesSlice]⟩
  | x :: rest, path, i, k + 1, hk => by
    have hk' : k < rest.length := by simpa using hk
    obtain ⟨a, ha⟩ := writesSlice_split rest path (i + 1) k hk'
    refine ⟨writes (path ++ decimalNat i) x ++ a, ?_⟩
    rw [writesSlice, ha]
    have e1 : i + 1 + k = i + (k + 1) := by omega
    simp [e1]

/-- C2. Scalar leaf encoding: `flatten` on a boolean, an integer or a string returns no error
and writes one entry, `data[path]`, holding `true` or `false`, the decimal string of the
integer, or the string verbatim; every other entry of `data` is unchanged. -/
theorem flatten_scalar_leaf (path : Str) (data : ConfigMap) :
    (∀ b : Bool, flatten path (.bool b) data =
        .ok (ConfigMap.put data path (if b then "true".toList else "false".toList))) ∧
      (∀ n : Int, flatten path (.int n) data = .ok (ConfigMap.put data path (decimal n))) ∧
      (∀ s : Str, flatten path (.str s) data = .ok (ConfigMap.put data path s)) ∧
      (∀ e : Str, (ConfigMap.put data path e).lookup path = some e ∧
        ConfigMap.get (ConfigMap.put data path e) path = e ∧
        ∀ k : Path, k ≠ path → (ConfigMap.put data path e).lookup k = data.lookup k) := by
  refine ⟨fun b => ?_, fun n => rfl, fun s => rfl, fun e => ⟨lookup_put_self _ _ _, ?_, ?_⟩⟩
  · cases b <;> rfl
  · simp [ConfigMap.get, lookup_put_self]
  · intro k hk
    exact lookup_put_ne _ _ _ _ hk

theorem slice_key_ne_of_shape {fs : Str} {i j : Nat} {k : Str} (hij : i ≠ j)
    (h : k = fs ++ decimalNat j ∨ Below (fs ++ decimalNat j) k) : k ≠ fs ++ decimalNat i := by
  intro e
  rcases h with h | h
  · have := List.append_cancel_left (h.symm.trans e)
    exact hij (decimalNat_injective this).symm
  · obtain ⟨s, hs⟩ := h
    have h2 : fs ++ (decimalNat j ++ '.' :: s) = fs ++ decimalNat i := by
      rw [← e, hs]; simp
    have h3 := List.append_cancel_left h2
    exact dot_not_mem_decimalNat i (h3 ▸ by simp)

/-- C3, as stated, fails: after flattening the sequence `[80, 443]` at `app.ports` the map has
the count marker and the elements at `app.ports.#0` and `app.ports.#1`, and no entry at
`app.ports.0`. -/
theorem flatten_seq_index_keys_counterexample :
    flatten "app.ports".toList (.seq [.int 80, .int 443]) [] =
        .ok [("app.ports.#".toList, "2".toList), ("app.ports.#0".toList, "80".toList),
          ("app.ports.#1".toList, "443".toList), ("app.ports".toList, [])] ∧
      List.lookup "app.ports.0".toList
        [("app.ports.#".toList, "2".toList), ("app.ports.#0".toList, "80".toList),
          ("app.ports.#1".toList, "443".toList), ("app.ports".toList, [])] = none := by
  constructor
  · rfl
  · decide

/-- C3, amended. Collection wire encoding as implemented: after a successful `flatten` of a
sequence of `n` elements at path `P`, the map holds the count marker at `P.#`, the decimal
string of `n`, and for every index `i` below `n` an entry at `P.#i` (the index is appended to
the marker's own path) holding what `flatten` stores for the element itself. -/
theorem flatten_seq_wire_encoding (P : Str) (xs : List Node) (data d : ConfigMap)
    (h : flatten P (.seq xs) data = .ok d) :
    d.lookup (P ++ ".#".toList) = some (decimalNat xs.length) ∧
      ∀ i (hi : i < xs.length),
        d.lookup (P ++ ".#".toList ++ decimalNat i) = some (xs[i]).ownValue := by
  have hd := flatten_ok_eq _ _ _ _ h
  have hfs : P ++ ".#".toList = formatSliceSuffix P := rfl
  rw [hfs]
  have hPne : ∀ t : Str, P ≠ formatSliceSuffix P ++ t := by
    intro t e
    have := congrArg List.length e
    simp [formatSliceSuffix] at this
  constructor
  · rw [hd, writes]
    apply lookup_putAll_last data [] _ (formatSliceSuffix P)
    intro w hw
    rcases List.mem_append.1 hw with hw | hw
    · obtain ⟨j, -, -, hj | hj⟩ := writesSlice_shape xs _ 0 w hw
      · intro e
        have := congrArg List.length (hj.symm.trans e)
        have hne := decimalNat_ne_nil j
        simp at this
        exact hne this
      · obtain ⟨s, hs⟩ := hj
        intro e
        have := congrArg List.length (hs.symm.trans e)
        simp at this
    · simp only [List.mem_singleton] at hw
      subst hw
      simpa using hPne []
  · intro i hi
    have hloop : ∀ x ∈ xs, x ≠ Node.other := by
      simp only [flatten] at h
      cases hm : flattenSliceLoop (formatSliceSuffix P) 0 xs
          (ConfigMap.put data (formatSliceSuffix P) (decimalNat xs.length)) with
      | ok d' => exact flattenSliceLoop_ok_ne_other xs _ 0 _ d' hm
      | error p e => rw [hm] at h; simp at h
      | panic p => rw [hm] at h; simp at h
    obtain ⟨a, ha⟩ := writesSlice_split xs (formatSliceSuffix P) 0 i hi
    obtain ⟨init, hinit, -⟩ := writes_own_last xs[i] (formatSliceSuffix P ++ decimalNat (0 + i))
      (hloop _ (List.getElem_mem _))
    rw [hinit] at ha
    simp only [Nat.zero_add] at ha
    have hw : writes P (.seq xs) =
        ((formatSliceSuffix P, decimalNat xs.length) :: (a ++ init)) ++
          (formatSliceSuffix P ++ decimalNat i, (xs[i]).ownValue) ::
            (writesSlice (formatSliceSuffix P) (i + 1) (xs.drop (i + 1)) ++ [(P, [])]) := by
      rw [writes, ha]
      simp
    rw [hd, hw]
    apply lookup_putAll_last
    intro w hw
    rcases List.mem_append.1 hw with hw | hw
    · obtain ⟨j, hj1, -, hj⟩ := writesSlice_shape _ _ (i + 1) w hw
      exact slice_key_ne_of_shape (by omega) hj
    · simp only [List.mem_singleton] at hw
      subst hw
      exact hPne _

/-- Witness of the amended C3 on the sequence `[80, 443]` at `app.ports`. -/
theorem flatten_seq_wire_encoding_witness :
    List.lookup "app.ports.#".toList
        [("app.ports.#".toList, "2".toList), ("app.ports.#0".toList, "80".toList),
          ("app.ports.#1".toList, "443".toList), ("app.ports".toList, [])]
        = some "2".toList ∧
      List.lookup "app.ports.#0".toList
        [("app.ports.#".toList, "2".toList), ("app.ports.#0".toList, "80".toList),
          ("app.ports.#1".toList, "443".toList), ("app.ports".toList, [])]
        = some "80".toList ∧
      List.lookup "app.ports.#1".toList
        [("app.ports.#".toList, "2".toList), ("app.ports.#0".toList, "80".toList),
          ("app.ports.#1".toList, "443".toList), ("app.ports".toList, [])]
        = some "443".toList :=
  have h := flatten_seq_wire_encoding "app.ports".toList [.int 80, .int 443] []
    [("app.ports.#".toList, "2".toList), ("app.ports.#0".toList, "80".toList),
      ("app.ports.#1".toList, "443".toList), ("app.ports".toList, [])] rfl
  ⟨h.1, h.2 0 (by decide), h.2 1 (by decide)⟩

/-- C5, the code at the failing input: `Load` succeeds on `app: (ports: [80, 443])`, the path
`app.ports` exists and is a collection, the pattern compiled from `formatSlicePrefix` asks for
a backslash after the path, and `values` returns no error and no string at all, where the
sequence has two elements. -/
theorem values_ports_returns_nothing :
    (Load portsWorld [] PkgState.initial).1.config = some portsConfig ∧
      (Load portsWorld [] PkgState.initial).1.loadErr = none ∧
      portsConfig.hasPath asciiFold "app.ports".toList = true ∧
      portsConfig.isCollection asciiFold "app.ports".toList = true ∧
      compileRegex (formatSlicePrefix "app.ports".toList) =
        some [(.lit 'a', false), (.lit 'p', false), (.lit 'p', false), (.any, false),
          (.lit 'p', false), (.lit 'o', false), (.lit 'r', false), (.lit 't', false),
          (.lit 's', false), (.lit '\\', false), (.any, false), (.lit '#', false),
          (.lit '\\', false), (.lit 'd', true)] ∧
      portsConfig.values asciiFold "app.ports".toList = some (.returned (.ok [])) := by
  refine ⟨rfl, rfl, by decide, by decide, by decide, rfl⟩

theorem goodKey_ne_nil {k : Str} (h : goodKey k = true) : k ≠ [] := by
  simp only [goodKey, Bool.and_eq_true, decide_eq_true_eq] at h
  exact h.1.1

theorem goodKey_no_dot {k : Str} (h : goodKey k = true) : '.' ∉ k := by
  simp only [goodKey, Bool.and_eq_true, Bool.not_eq_true', decide_eq_false_iff_not] at h
  exact h.2

theorem goodKey_head {k : Str} (h : goodKey k = true) :
    ∀ a, k.head? = some a → isSpace a = false := by
  simp only [goodKey, Bool.and_eq_true] at h
  have ht := h.1.2
  intro a ha
  cases k with
  | nil => simp at ha
  | cons c t =>
    simp only [List.head?_cons, Option.some.injEq] at ha
    subst ha
    unfold isTrimmed at ht
    have hl : (c :: t).getLast? = some ((c :: t).getLast (by simp)) :=
      List.getLast?_eq_getLast _ _
    rw [hl] at ht
    simp only [List.head?_cons, Bool.and_eq_true, Bool.not_eq_true'] at ht
    exact ht.1

theorem goodKey_lastOk {k : Str} (h : goodKey k = true) : LastOk k := by
  simp only [goodKey, Bool.and_eq_true] at h
  have ht := h.1.2
  intro a ha
  cases k with
  | nil => simp at ha
  | cons c t =>
    unfold isTrimmed at ht
    rw [ha] at ht
    simp only [List.head?_cons, Bool.and_eq_true, Bool.not_eq_true'] at ht
    exact ht.2

theorem lastOk_append {a b : Str} (ha : LastOk a) (hb : LastOk b) : LastOk (a ++ b) := by
  intro x hx
  cases b with
  | nil => rw [List.append_nil] at hx; exact ha x hx
  | cons c t =>
    rw [List.getLast?_append_of_ne_nil _ (by simp)] at hx
    exact hb x hx

theorem lastOk_cons {c : Char} {b : Str} (hb : LastOk b) (hne : b ≠ []) : LastOk (c :: b) := by
  intro x hx
  cases b with
  | nil => exact absurd rfl hne
  | cons d t =>
    rw [List.getLast?_cons_cons] at hx
    exact hb x hx

theorem lastOk_decimalNat (n : Nat) : LastOk (decimalNat n) := by
  intro a ha
  have hm : a ∈ decimalNat n := List.mem_of_getLast?_eq_some ha
  have hd := decimalNat_isDigit n a hm
  simp only [Char.isDigit, Bool.and_eq_true, decide_eq_true_eq] at hd
  have h1 : 48 ≤ a.toNat := by
    have := hd.1
    exact this
  have h2 : a.toNat ≤ 57 := hd.2
  simp only [isSpace]
  have e1 : a.toNat ≠ 32 := by omega
  simp [e1]
  omega

mutual
theorem supported_of_wellKeyed (f : Char → Char) : ∀ v : Node,
    v.wellKeyed f = true → v.supported = true
  | .bool _, _ => rfl
  | .int _, _ => rfl
  | .str _, _ => rfl
  | .float32 _, _ => rfl
  | .float64 _, _ => rfl
  | .other, h => by simp [Node.wellKeyed] at h
  | .map kvs, h => by
    simp only [Node.wellKeyed] at h
    simp only [Node.supported]
    exact supportedEntries_of_wellKeyed f kvs h
  | .seq xs, h => by
    simp only [Node.wellKeyed] at h
    simp only [Node.supported]
    exact supportedNodes_of_wellKeyed f xs h
theorem supportedEntries_of_wellKeyed (f : Char → Char) : ∀ kvs : List (MapKey × Node),
    wellKeyedEntries f kvs = true → supportedEntries kvs = true
  | [], _ => rfl
  | (.other, _) :: _, h => by simp [wellKeyedEntries] at h
  | (.str k, v) :: rest, h => by
    simp only [wellKeyedEntries, Bool.and_eq_true] at h
    simp only [supportedEntries, Bool.and_eq_true]
    exact ⟨supported_of_wellKeyed f v h.1.2, supportedEntries_of_wellKeyed f rest h.2⟩
theorem supportedNodes_of_wellKeyed (f : Char → Char) : ∀ xs : List Node,
    wellKeyedNodes f xs = true → supportedNodes xs = true
  | [], _ => rfl
  | x :: rest, h => by
    simp only [wellKeyedNodes, Bool.and_eq_true] at h
    simp only [supportedNodes, Bool.and_eq_true]
    exact ⟨supported_of_wellKeyed f x h.1, supportedNodes_of_wellKeyed f rest h.2⟩
end

theorem lastOk_nil : LastOk [] := by
  intro a ha
  simp at ha

theorem lastOk_sharp : LastOk ['.', '#'] := by
  intro a ha
  simp at ha
  subst ha
  decide

mutual
theorem writes_lastOk (f : Char → Char) : ∀ (v : Node) (path : Str) (w : Path × Str),
    v.wellKeyed f = true → w ∈ writes path v → ∃ s, w.1 = path ++ s ∧ LastOk s
  | .bool b, path, w, _, h => by simp [writes] at h; exact ⟨[], by simp [h], lastOk_nil⟩
  | .int n, path, w, _, h => by simp [writes] at h; exact ⟨[], by simp [h], lastOk_nil⟩
  | .str s, path, w, _, h => by simp [writes] at h; exact ⟨[], by simp [h], lastOk_nil⟩
  | .float32 x, path, w, _, h => by simp [writes] at h; exact ⟨[], by simp [h], lastOk_nil⟩
  | .float64 x, path, w, _, h => by simp [writes] at h; exact ⟨[], by simp [h], lastOk_nil⟩
  | .other, path, w, _, h => by simp [writes] at h
  | .map kvs, path, w, hw, h => by
    simp only [Node.wellKeyed] at hw
    simp only [writes, List.mem_append, List.mem_singleton] at h
    rcases h with h | h
    · exact writesMap_lastOk f kvs path w hw h
    · exact ⟨[], by simp [h], lastOk_nil⟩
  | .seq xs, path, w, hw, h => by
    simp only [Node.wellKeyed] at hw
    simp only [writes, List.mem_cons, List.mem_append, List.mem_singleton, List.mem_nil_iff,
      or_false] at h
    rcases h with h | h | h
    · exact ⟨['.', '#'], by simp [h, formatSliceSuffix], lastOk_sharp⟩
    · obtain ⟨s, hs, hl⟩ := writesSlice_lastOk f xs (formatSliceSuffix path) 0 w hw h
      exact ⟨['.', '#'] ++ s, by simp [hs, formatSliceSuffix],
        lastOk_append lastOk_sharp hl⟩
    · exact ⟨[], by simp [h], lastOk_nil⟩
theorem writesMap_lastOk (f : Char → Char) : ∀ (kvs : List (MapKey × Node)) (path : Str)
    (w : Path × Str), wellKeyedEntries f kvs = true → w ∈ writesMap path kvs →
    ∃ s, w.1 = path ++ s ∧ LastOk s
  | [], path, w, _, h => by simp [writesMap] at h
  | (.other, _) :: _, path, w, _, h => by simp [writesMap] at h
  | (.str k, v) :: rest, path, w, hw, h => by
    simp only [wellKeyedEntries, Bool.and_eq_true] at hw
    simp only [writesMap, List.mem_append] at h
    rcases h with h | h
    · obtain ⟨s, hs, hl⟩ := writes_lastOk f v _ w hw.1.2 h
      refine ⟨('.' :: k) ++ s, by simp [hs], ?_⟩
      exact lastOk_append (lastOk_cons (goodKey_lastOk hw.1.1.1) (goodKey_ne_nil hw.1.1.1)) hl
    · exact writesMap_lastOk f rest path w hw.2 h
theorem writesSlice_lastOk (f : Char → Char) : ∀ (xs : List Node) (path : Str) (i : Nat)
    (w : Path × Str), wellKeyedNodes f xs = true → w ∈ writesSlice path i xs →
    ∃ s, w.1 = path ++ s ∧ LastOk s
  | [], path, i, w, _, h => by simp [writesSlice] at h
  | x :: rest, path, i, w, hw, h => by
    simp only [wellKeyedNodes, Bool.and_eq_true] at hw
    simp only [writesSlice, List.mem_append] at h
    rcases h with h | h
    · obtain ⟨s, hs, hl⟩ := writes_lastOk f x _ w hw.1 h
      exact ⟨decimalNat i ++ s, by simp [hs], lastOk_append (lastOk_decimalNat i) hl⟩
    · exact writesSlice_lastOk f rest path (i + 1) w hw.2 h
end

/-- A key made of a good root and a suffix with a clean end is its own trimmed string. -/
theorem trimSpace_root_suffix {r s : Str} (hr : goodKey r = true) (hs : LastOk s) :
    trimSpace (r ++ s) = r ++ s := by
  apply trimSpace_eq_self
  · intro a ha
    apply goodKey_head hr a
    cases r with
    | nil => exact absurd rfl (goodKey_ne_nil hr)
    | cons c t => simpa using ha
  · exact lastOk_append (goodKey_lastOk hr) hs

theorem takeWhile_dot_append (r s : Str) (hr : '.' ∉ r) :
    (r ++ '.' :: s).takeWhile (fun c => c != '.') = r := by
  rw [List.takeWhile_append_of_pos]
  · simp
  · intro c hc
    have : c ≠ '.' := fun h => hr (h ▸ hc)
    simpa using this

theorem topLevelKey_of_root {r k : Str} (hr : goodKey r = true) (ht : trimSpace k = k)
    (hk : k = r ∨ Below r k) : topLevelKey k = r := by
  unfold topLevelKey Path.String
  rw [ht]
  rcases hk with hk | ⟨s, hs⟩
  · subst hk
    rw [if_neg (goodKey_no_dot hr)]
  · subst hs
    rw [if_pos (by simp), takeWhile_dot_append r s (goodKey_no_dot hr)]
    simp

theorem dedup_of_all_eq {r : Str} : ∀ (l : List Str), l ≠ [] → (∀ x ∈ l, x = r) →
    l.dedup = [r]
  | [], h, _ => absurd rfl h
  | [x], _, hall => by
    have := hall x (by simp)
    subst this
    rfl
  | x :: y :: t, _, hall => by
    have hx : x = y := (hall x (by simp)).trans (hall y (by simp)).symm
    rw [List.dedup_cons_of_mem (by simp [hx])]
    exact dedup_of_all_eq (y :: t) (by simp) (fun z hz => hall z (List.mem_cons_of_mem _ hz))

theorem splitGo_dot_of_not_mem (s : Str) (h : '.' ∉ s) : splitGo ['.'] 0 s = [s] := by
  induction s with
  | nil => simp [splitGo]
  | cons c s ih =>
    have hc : c ≠ '.' := fun e => h (by simp [e])
    have hs : '.' ∉ s := fun e => h (by simp [e])
    have hp : List.isPrefixOf ['.'] (c :: s) = false := by
      simp [List.isPrefixOf, hc.symm]
    simp [splitGo, hp, ih hs]

theorem trimSpace_goodKey {r : Str} (hr : goodKey r = true) : trimSpace r = r := by
  have := trimSpace_root_suffix (s := []) hr lastOk_nil
  simpa using this

theorem inferRootStep_first {r : Str} (hr : goodKey r = true) (e : Option ConfigError) :
    inferRootStep ⟨[], e, false⟩ r = ⟨r, e, false⟩ := by
  have h1 : trimSpace r = r := trimSpace_goodKey hr
  have h2 : stringsSplit r ['.'] = [r] := by
    simp [stringsSplit, splitGo_dot_of_not_mem r (goodKey_no_dot hr)]
  have h3 : Path.Empty ([] : Str) = true := by decide
  unfold inferRootStep
  simp only [Path.String, h1, h2, List.headD_cons, Bool.false_eq_true, if_false,
    goodKey_ne_nil hr, ne_eq, not_false_eq_true, if_true, h3]

theorem fold_dot {f : Char → Char} (hf : FoldsOnlyLetters f) {c : Char} (h : f c = f '.') :
    c = '.' :=
  hf '.' c (by decide) (by decide) h

theorem fold_sharp {f : Char → Char} (hf : FoldsOnlyLetters f) {c : Char} (h : f c = f '#') :
    c = '#' :=
  hf '#' c (by decide) (by decide) h

theorem isDigit_ascii_not_alpha {c : Char} (h : c.isDigit = true) :
    c.toNat < 128 ∧ c.isAlpha = false := by
  simp only [Char.isDigit, Bool.and_eq_true, decide_eq_true_eq] at h
  have h1 : 48 ≤ c.toNat := h.1
  have h2 : c.toNat ≤ 57 := h.2
  refine ⟨by omega, ?_⟩
  have hu : ¬ (c.val ≥ 65) := by
    intro hc
    have : 65 ≤ c.toNat := hc
    omega
  have hl : ¬ (c.val ≥ 97) := by
    intro hc
    have : 97 ≤ c.toNat := hc
    omega
  simp [Char.isAlpha, Char.isUpper, Char.isLower, hu, hl]

theorem fold_digits {f : Char → Char} (hf : FoldsOnlyLetters f) : ∀ {a b : Str},
    (∀ c ∈ a, c.isDigit = true) → a.map f = b.map f → a = b
  | [], [], _, _ => rfl
  | [], _ :: _, _, h => by simp at h
  | _ :: _, [], _, h => by simp at h
  | x :: a, y :: b, hd, h => by
    simp only [List.map_cons, List.cons.injEq] at h
    have hx := isDigit_ascii_not_alpha (hd x (by simp))
    have e : y = x := hf x y hx.1 hx.2 h.1.symm
    subst e
    rw [fold_digits hf (fun c hc => hd c (List.mem_cons_of_mem _ hc)) h.2]

/-- The suffix of a key at or below a path: nothing, or a dot and more. -/
theorem suffix_of_shape {path k : Str} (h : k = path ∨ Below path k) :
    ∃ s, k = path ++ s ∧ (s = [] ∨ ∃ s', s = '.' :: s') := by
  rcases h with h | ⟨s, hs⟩
  · exact ⟨[], by simp [h], Or.inl rfl⟩
  · exact ⟨'.' :: s, hs, Or.inr ⟨s, rfl⟩⟩

theorem takeWhile_fold_segment {f : Char → Char} (hf : FoldsOnlyLetters f) {a s : Str}
    (ha : '.' ∉ a) (hs : s = [] ∨ ∃ s', s = '.' :: s') :
    ((a ++ s).map f).takeWhile (fun c => c != f '.') = a.map f := by
  rw [List.map_append, List.takeWhile_append_of_pos]
  · rcases hs with hs | ⟨s', hs⟩
    · simp [hs]
    · simp [hs]
  · intro x hx
    obtain ⟨c, hc, rfl⟩ := List.mem_map.1 hx
    have : f c ≠ f '.' := fun e => ha (fold_dot hf e ▸ hc)
    simpa using this

theorem fold_first_segment {f : Char → Char} (hf : FoldsOnlyLetters f) {a b s t : Str}
    (ha : '.' ∉ a) (hb : '.' ∉ b) (hs : s = [] ∨ ∃ s', s = '.' :: s')
    (ht : t = [] ∨ ∃ t', t = '.' :: t') (h : (a ++ s).map f = (b ++ t).map f) :
    a.map f = b.map f := by
  have := congrArg (List.takeWhile (fun c => c != f '.')) h
  rwa [takeWhile_fold_segment hf ha hs, takeWhile_fold_segment hf hb ht] at this

theorem map_append_cancel {f : Char → Char} {p a b : Str}
    (h : (p ++ a).map f = (p ++ b).map f) : a.map f = b.map f := by
  rw [List.map_append, List.map_append] at h
  exact List.append_cancel_left h

/-- Keys at or below two children whose segments differ after folding differ after
folding. -/
theorem child_keys_ne {f : Char → Char} (hf : FoldsOnlyLetters f) {path k k' a b : Str}
    (hk : '.' ∉ k) (hk' : '.' ∉ k') (hne : k.map f ≠ k'.map f)
    (ha : a = path ++ k ∨ Below (path ++ k) a)
    (hb : b = path ++ k' ∨ Below (path ++ k') b) : a.map f ≠ b.map f := by
  obtain ⟨s, hs, hs'⟩ := suffix_of_shape ha
  obtain ⟨t, ht, ht'⟩ := suffix_of_shape hb
  intro e
  rw [hs, ht, List.append_assoc, List.append_assoc] at e
  exact hne (fold_first_segment hf hk hk' hs' ht' (map_append_cancel e))

theorem writesMap_shape_key : ∀ (kvs : List (MapKey × Node)) (path : Str) (w : Path × Str),
    w ∈ writesMap path kvs → ∃ k v, (MapKey.str k, v) ∈ kvs ∧
      (w.1 = path ++ '.' :: k ∨ Below (path ++ '.' :: k) w.1)
  | [], path, w, h => by simp [writesMap] at h
  | (.other, _) :: _, path, w, h => by simp [writesMap] at h
  | (.str k, v) :: rest, path, w, h => by
    simp only [writesMap, List.mem_append] at h
    rcases h with h | h
    · exact ⟨k, v, by simp, writes_shape v _ w h⟩
    · obtain ⟨k', v', hm, hw⟩ := writesMap_shape_key rest path w h
      exact ⟨k', v', List.mem_cons_of_mem _ hm, hw⟩

theorem hasFoldedKey_false {f : Char → Char} {k : Str} : ∀ {kvs : List (MapKey × Node)},
    hasFoldedKey f k kvs = false → ∀ {k' : Str} {v' : Node}, (MapKey.str k', v') ∈ kvs →
    k'.map f ≠ k.map f
  | [], _, _, _, hm => by simp at hm
  | (.other, _) :: rest, h, k', v', hm => by
    simp only [hasFoldedKey] at h
    rcases List.mem_cons.1 hm with e | e
    · simp at e
    · exact hasFoldedKey_false h e
  | (.str k1, _) :: rest, h, k', v', hm => by
    simp only [hasFoldedKey, Bool.or_eq_false_iff, decide_eq_false_iff_not] at h
    rcases List.mem_cons.1 hm with e | e
    · simp only [Prod.mk.injEq, MapKey.str.injEq] at e
      rw [e.1]
      exact h.1
    · exact hasFoldedKey_false h.2 e

theorem wellKeyedEntries_goodKey {f : Char → Char} : ∀ {kvs : List (MapKey × Node)},
    wellKeyedEntries f kvs = true → ∀ {k : Str} {v : Node}, (MapKey.str k, v) ∈ kvs →
    goodKey k = true
  | [], _, _, _, hm => by simp at hm
  | (.other, _) :: rest, h, _, _, _ => by simp [wellKeyedEntries] at h
  | (.str k1, _) :: rest, h, k, v, hm => by
    simp only [wellKeyedEntries, Bool.and_eq_true] at h
    rcases List.mem_cons.1 hm with e | e
    · simp only [Prod.mk.injEq, MapKey.str.injEq] at e
      rw [e.1]
      exact h.1.1.1
    · exact wellKeyedEntries_goodKey h.2 e

theorem map_ne_of_length {f : Char → Char} {a b : Str} (h : a.length ≠ b.length) :
    a.map f ≠ b.map f := by
  intro e
  have := congrArg List.length e
  simp at this
  exact h this

theorem below_length {path k : Str} (h : Below path k) : path.length < k.length := by
  obtain ⟨s, hs⟩ := h
  simp [hs]

theorem foldedKeys_append (f : Char → Char) (a b : List (Path × Str)) :
    foldedKeys f (a ++ b) = foldedKeys f a ++ foldedKeys f b := by
  simp [foldedKeys]

theorem mem_foldedKeys {f : Char → Char} {x : Str} {ws : List (Path × Str)}
    (h : x ∈ foldedKeys f ws) : ∃ w ∈ ws, x = w.1.map f := by
  obtain ⟨w, hw, e⟩ := List.mem_map.1 h
  exact ⟨w, hw, e.symm⟩

theorem dot_key_shape {path k a : Str} (h : a = path ++ '.' :: k ∨ Below (path ++ '.' :: k) a) :
    a = (path ++ ['.']) ++ k ∨ Below ((path ++ ['.']) ++ k) a := by
  have e : path ++ '.' :: k = (path ++ ['.']) ++ k := by simp
  rwa [e] at h

theorem decimalNat_fold_ne {f : Char → Char} (hf : FoldsOnlyLetters f) {i j : Nat}
    (h : i ≠ j) : (decimalNat i).map f ≠ (decimalNat j).map f := fun e =>
  h (decimalNat_injective (fold_digits hf (fun c hc => decimalNat_isDigit i c hc) e))

theorem slice_key_length {fs k : Str} {j : Nat}
    (h : k = fs ++ decimalNat j ∨ Below (fs ++ decimalNat j) k) : fs.length < k.length := by
  have hne := decimalNat_ne_nil j
  have hpos : 0 < (decimalNat j).length := List.length_pos.2 hne
  rcases h with h | h
  · rw [h]; simp; exact hpos
  · have := below_length h
    simp at this
    omega

mutual
theorem writes_nodup (f : Char → Char) (hf : FoldsOnlyLetters f) : ∀ (v : Node) (path : Str),
    v.wellKeyed f = true → (foldedKeys f (writes path v)).Nodup
  | .bool b, path, _ => by simp [writes, foldedKeys]
  | .int n, path, _ => by simp [writes, foldedKeys]
  | .str s, path, _ => by simp [writes, foldedKeys]
  | .float32 x, path, _ => by simp [writes, foldedKeys]
  | .float64 x, path, _ => by simp [writes, foldedKeys]
  | .other, path, _ => by simp [writes, foldedKeys]
  | .map kvs, path, hw => by
    simp only [Node.wellKeyed] at hw
    rw [writes, foldedKeys_append, List.nodup_append]
    refine ⟨writesMap_nodup f hf kvs path hw, by simp [foldedKeys], ?_⟩
    intro x hx hx'
    obtain ⟨w, hw1, rfl⟩ := mem_foldedKeys hx
    simp only [foldedKeys, List.map_cons, List.map_nil, List.mem_singleton] at hx'
    exact map_ne_of_length (ne_of_gt (below_length (writesMap_shape kvs path w hw1))) hx'
  | .seq xs, path, hw => by
    simp only [Node.wellKeyed] at hw
    have hlen : ∀ w ∈ writesSlice (formatSliceSuffix path) 0 xs,
        (formatSliceSuffix path).length < w.1.length := by
      intro w hw1
      obtain ⟨j, -, -, hj⟩ := writesSlice_shape xs _ 0 w hw1
      exact slice_key_length hj
    have hfs : (formatSliceSuffix path).length = path.length + 2 := by
      simp [formatSliceSuffix]
    rw [writes]
    show (foldedKeys f ([(formatSliceSuffix path, decimalNat xs.length)] ++
      (writesSlice (formatSliceSuffix path) 0 xs ++ [(path, [])]))).Nodup
    rw [foldedKeys_append, foldedKeys_append, List.nodup_append]
    refine ⟨by simp [foldedKeys], ?_, ?_⟩
    · rw [List.nodup_append]
      refine ⟨writesSlice_nodup f hf xs _ 0 hw, by simp [foldedKeys], ?_⟩
      intro x hx hx'
      obtain ⟨w, hw1, rfl⟩ := mem_foldedKeys hx
      simp only [foldedKeys, List.map_cons, List.map_nil, List.mem_singleton] at hx'
      have := hlen w hw1
      exact map_ne_of_length (by omega) hx'
    · intro x hx hx'
      simp only [foldedKeys, List.map_cons, List.map_nil, List.mem_singleton] at hx
      subst hx
      rcases List.mem_append.1 hx' with h | h
      · obtain ⟨w, hw1, e⟩ := mem_foldedKeys h
        have := hlen w hw1
        exact map_ne_of_length (by omega) e
      · simp only [foldedKeys, List.map_cons, List.map_nil, List.mem_singleton] at h
        exact map_ne_of_length (by omega) h
theorem writesMap_nodup (f : Char → Char) (hf : FoldsOnlyLetters f) :
    ∀ (kvs : List (MapKey × Node)) (path : Str),
    wellKeyedEntries f kvs = true → (foldedKeys f (writesMap path kvs)).Nodup
  | [], path, _ => by simp [writesMap, foldedKeys]
  | (.other, _) :: _, path, _ => by simp [writesMap, foldedKeys]
  | (.str k, v) :: rest, path, hw => by
    simp only [wellKeyedEntries, Bool.and_eq_true, Bool.not_eq_true'] at hw
    rw [writesMap, foldedKeys_append, List.nodup_append]
    refine ⟨writes_nodup f hf v _ hw.1.2, writesMap_nodup f hf rest path hw.2, ?_⟩
    intro x hx hx'
    obtain ⟨a, ha, rfl⟩ := mem_foldedKeys hx
    obtain ⟨b, hb, e⟩ := mem_foldedKeys hx'
    obtain ⟨k', v', hm, hb'⟩ := writesMap_shape_key rest path b hb
    exact child_keys_ne hf (goodKey_no_dot hw.1.1.1)
      (goodKey_no_dot (wellKeyedEntries_goodKey hw.2 hm))
      (fun e' => hasFoldedKey_false hw.1.1.2 hm e'.symm)
      (dot_key_shape (writes_shape v _ a ha)) (dot_key_shape hb') e
theorem writesSlice_nodup (f : Char → Char) (hf : FoldsOnlyLetters f) :
    ∀ (xs : List Node) (path : Str) (i : Nat),
    wellKeyedNodes f xs = true → (foldedKeys f (writesSlice path i xs)).Nodup
  | [], path, i, _ => by simp [writesSlice, foldedKeys]
  | x :: rest, path, i, hw => by
    simp only [wellKeyedNodes, Bool.and_eq_true] at hw
    rw [writesSlice, foldedKeys_append, List.nodup_append]
    refine ⟨writes_nodup f hf x _ hw.1, writesSlice_nodup f hf rest path (i + 1) hw.2, ?_⟩
    intro y hy hy'
    obtain ⟨a, ha, rfl⟩ := mem_foldedKeys hy
    obtain ⟨b, hb, e⟩ := mem_foldedKeys hy'
    obtain ⟨j, hj, -, hb'⟩ := writesSlice_shape rest path (i + 1) b hb
    exact child_keys_ne hf (dot_not_mem_decimalNat i) (dot_not_mem_decimalNat j)
      (decimalNat_fold_ne hf (by omega)) (writes_shape x _ a ha) hb' e
end

theorem foldsOnlyLetters_id : FoldsOnlyLetters id := fun _ _ _ _ h => h

/-- In a well-keyed document no two writes of `flatten` go to the same key. -/
theorem writes_keys_nodup (f : Char → Char) (hf : FoldsOnlyLetters f) (v : Node) (path : Str)
    (hw : v.wellKeyed f = true) : ((writes path v).map Prod.fst).Nodup := by
  have h := writes_nodup f hf v path hw
  unfold foldedKeys at h
  have e : (writes path v).map (fun w => w.1.map f) =
      ((writes path v).map Prod.fst).map (List.map f) := by simp
  rw [e] at h
  exact List.Nodup.of_map _ h

theorem lookup_putAll_of_mem (data : ConfigMap) (ws : List (Path × Str))
    (hn : (ws.map Prod.fst).Nodup) (k : Path) (v : Str) (h : (k, v) ∈ ws) :
    (putAll data ws).lookup k = some v := by
  obtain ⟨a, b, hab⟩ := List.append_of_mem h
  subst hab
  apply lookup_putAll_last
  intro w hw
  simp only [List.map_append, List.map_cons] at hn
  have := (List.nodup_append.1 hn).2.1
  simp only [List.nodup_cons] at this
  intro e
  exact this.1 (List.mem_map.2 ⟨w, hw, e⟩)

theorem lookup_map_snd (g : Str → Str) (k : Path) : ∀ (m : ConfigMap),
    List.lookup k (m.map (fun kv => (kv.1, g kv.2))) = (m.lookup k).map g
  | [] => rfl
  | (k', v') :: m => by
    simp only [List.map_cons, List.lookup]
    split
    · rfl
    · exact lookup_map_snd g k m

theorem mem_keys_loadedMapping {env : Str → Str} {r : Str} {node : Node} {k : Path} :
    k ∈ (loadedMapping env r node).map Prod.fst ↔ k ∈ (writes r node).map Prod.fst := by
  unfold loadedMapping
  rw [List.map_map]
  have e : (Prod.fst ∘ fun kv : Path × Str => (kv.1, interpolate env kv.2)) = Prod.fst := by
    funext kv; rfl
  rw [e, mem_keys_putAll]
  simp

/-- Shape of the keys of a well-keyed document under the good root `r`. -/
theorem loaded_key_shape {f : Char → Char} {env : Str → Str} {r : Str} {node : Node}
    (hr : goodKey r = true) (hwf : node.wellKeyed f = true) {k : Path}
    (hk : k ∈ (loadedMapping env r node).map Prod.fst) :
    (k = r ∨ Below r k) ∧ trimSpace k = k := by
  obtain ⟨w, hw, rfl⟩ := List.mem_map.1 (mem_keys_loadedMapping.1 hk)
  refine ⟨writes_shape node r w hw, ?_⟩
  obtain ⟨s, hs, hl⟩ := writes_lastOk f node r w hwf hw
  rw [hs]
  exact trimSpace_root_suffix hr hl

theorem root_mem_loadedMapping {f : Char → Char} {env : Str → Str} {r : Str} {node : Node}
    (hwf : node.wellKeyed f = true) : r ∈ (loadedMapping env r node).map Prod.fst := by
  rw [mem_keys_loadedMapping]
  have hne : node ≠ .other := by
    intro e
    subst e
    simp [Node.wellKeyed] at hwf
  obtain ⟨init, hinit, -⟩ := writes_own_last node r hne
  rw [hinit]
  simp

theorem keys_loadedMapping {f : Char → Char} {env : Str → Str} {r : Str} {node : Node}
    (hr : goodKey r = true) (hwf : node.wellKeyed f = true) :
    ConfigMap.keys (loadedMapping env r node) = [r] := by
  unfold ConfigMap.keys
  apply dedup_of_all_eq
  · intro e
    have := @root_mem_loadedMapping f env r node hwf
    have h2 := congrArg List.length e
    simp only [List.length_map, List.length_nil] at h2
    have h3 : (loadedMapping env r node) = [] := List.length_eq_zero.1 h2
    rw [h3] at this
    simp at this
  · intro x hx
    obtain ⟨kv, hkv, rfl⟩ := List.mem_map.1 hx
    have hk : kv.1 ∈ (loadedMapping env r node).map Prod.fst := List.mem_map.2 ⟨kv, hkv, rfl⟩
    obtain ⟨h1, h2⟩ := loaded_key_shape hr hwf hk
    exact topLevelKey_of_root hr h2 h1

/-- `Load` succeeds on a well-keyed document with a single good top-level key. -/
theorem load_wellKeyed (f : Char → Char) (w : World) (optFilePath r : Str) (node : Node)
    (hread : readConfig w (if optFilePath = [] then defaultFilePath else optFilePath) =
      .ok [(r, node)])
    (hr : goodKey r = true) (hwf : node.wellKeyed f = true) :
    Load w optFilePath PkgState.initial =
      (⟨true, some ⟨if optFilePath = [] then defaultFilePath else optFilePath,
          loadedMapping w.env r node, r⟩, none⟩, .returned none) := by
  have hflat : newConfigMap [(r, node)] = .ok (putAll [] (writes r node)) := by
    simp only [newConfigMap, newConfigMapLoop,
      flatten_of_supported node r [] (supported_of_wellKeyed f node hwf)]
  have hkeys := @keys_loadedMapping f w.env r node hr hwf
  unfold loadedMapping at hkeys
  unfold Load
  simp only [PkgState.initial, Bool.false_eq_true, if_false, hread, hflat, hkeys,
    List.foldl_cons, List.foldl_nil, inferRootStep_first hr, goodKey_ne_nil hr]
  rfl

theorem equalFold_refl (f : Char → Char) (s : Str) : equalFold f s s = true := by
  simp [equalFold]

theorem resolve_under_root (f : Char → Char) (c : Configuration) (p : Path)
    (hr : goodKey c.root = true) (hp : p = c.root ∨ Below c.root p) (ht : trimSpace p = p) :
    c.resolve f p = p := by
  unfold Configuration.resolve
  split
  · rfl
  · rename_i hne
    rcases hp with hp | ⟨s, hs⟩
    · exfalso
      apply hne
      rw [hp]
      exact equalFold_refl f _
    · have hpre : hasPrefix (Path.String p) (Path.String c.root ++ ['.']) = true := by
        unfold hasPrefix Path.String
        rw [ht, trimSpace_goodKey hr, hs]
        exact List.isPrefixOf_iff_prefix.2 ⟨s, by simp⟩
      simp [hpre]

theorem under_root_ne_nil {r p : Str} (hr : goodKey r = true) (hp : p = r ∨ Below r p) :
    p ≠ [] := by
  rcases hp with hp | ⟨s, hs⟩
  · rw [hp]; exact goodKey_ne_nil hr
  · rw [hs]; simp

/-- Membership test of `hasPath` on the store loaded from a well-keyed document. -/
theorem hasPath_loaded_iff (f g : Char → Char) (env : Str → Str) (fp r : Str) (node : Node)
    (hr : goodKey r = true) (hwf : node.wellKeyed f = true) (p : Path)
    (hp : p = r ∨ Below r p) (ht : trimSpace p = p) :
    (Configuration.mk fp (loadedMapping env r node) r).hasPath g p = true ↔
      ∃ k ∈ (writes r node).map Prod.fst, k.map g = p.map g := by
  unfold Configuration.hasPath
  have hempty : Path.Empty p = false := by
    simp [Path.Empty, Path.String, ht, under_root_ne_nil hr hp]
  rw [hempty, resolve_under_root g _ p hr hp ht]
  simp only [Bool.false_eq_true, if_false, List.any_eq_true]
  constructor
  · rintro ⟨kv, hkv, he⟩
    have hk : kv.1 ∈ (loadedMapping env r node).map Prod.fst := List.mem_map.2 ⟨kv, hkv, rfl⟩
    obtain ⟨-, h2⟩ := loaded_key_shape hr hwf hk
    refine ⟨kv.1, mem_keys_loadedMapping.1 hk, ?_⟩
    simpa [Path.Equals, Path.String, equalFold, h2, ht] using he
  · rintro ⟨k, hk, he⟩
    have hk' := (@mem_keys_loadedMapping env r node k).2 hk
    obtain ⟨kv, hkv, rfl⟩ := List.mem_map.1 hk'
    obtain ⟨-, h2⟩ := loaded_key_shape hr hwf hk'
    refine ⟨kv, hkv, ?_⟩
    simpa [Path.Equals, Path.String, equalFold, h2, ht] using he

theorem placeholderMatchString_of_no_dollar : ∀ (s : Str), '$' ∉ s →
    placeholderMatchString s = false
  | [], _ => rfl
  | c :: s, h => by
    have hc : c ≠ '$' := fun e => h (by simp [e])
    have hs : '$' ∉ s := fun e => h (by simp [e])
    have hm : matchPlaceholderAt (c :: s) = none := by
      simp [matchPlaceholderAt, List.isPrefixOf, Ne.symm hc]
    simp [placeholderMatchString, hm, placeholderMatchString_of_no_dollar s hs]

theorem interpolate_of_no_match (env : Str → Str) (s : Str)
    (h : placeholderMatchString s = false) : interpolate env s = s := by
  simp [interpolate, h]

theorem dollar_not_mem_decimal (n : Int) : '$' ∉ decimal n := by
  have hd : ∀ m : Nat, '$' ∉ decimalNat m := fun m hm => by
    have := decimalNat_isDigit m '$' hm
    simp [Char.isDigit] at this
  unfold decimal
  split
  · intro hm
    rcases List.mem_cons.1 hm with e | e
    · simp at e
    · exact hd _ e
  · exact hd _

mutual
theorem leafAt_plain : ∀ (v : Node) (ks : List Str) (e : Str),
    v.plainLeaves = true → v.leafAt ks = some e → placeholderMatchString e = false
  | .bool b, [], e, _, h => by
    simp only [Node.leafAt, Option.some.injEq] at h
    subst h
    cases b <;> decide
  | .int n, [], e, _, h => by
    simp only [Node.leafAt, Option.some.injEq] at h
    subst h
    exact placeholderMatchString_of_no_dollar _ (dollar_not_mem_decimal n)
  | .str s, [], e, hp, h => by
    simp only [Node.leafAt, Option.some.injEq] at h
    subst h
    simpa [Node.plainLeaves] using hp
  | .map kvs, k :: ks, e, hp, h => by
    simp only [Node.plainLeaves] at hp
    simp only [Node.leafAt] at h
    exact entriesLeafAt_plain kvs k ks e hp h
  | .bool _, _ :: _, _, _, h => by simp [Node.leafAt] at h
  | .int _, _ :: _, _, _, h => by simp [Node.leafAt] at h
  | .str _, _ :: _, _, _, h => by simp [Node.leafAt] at h
  | .map _, [], _, _, h => by simp [Node.leafAt] at h
  | .float32 _, _, _, _, h => by simp [Node.leafAt] at h
  | .float64 _, _, _, _, h => by simp [Node.leafAt] at h
  | .seq _, _, _, _, h => by simp [Node.leafAt] at h
  | .other, _, _, _, h => by simp [Node.leafAt] at h
theorem entriesLeafAt_plain : ∀ (kvs : List (MapKey × Node)) (k : Str) (ks : List Str)
    (e : Str), plainEntries kvs = true → entriesLeafAt kvs k ks = some e →
    placeholderMatchString e = false
  | [], _, _, _, _, h => by simp [entriesLeafAt] at h
  | (key, v) :: rest, k, ks, e, hp, h => by
    simp only [plainEntries, Bool.and_eq_true] at hp
    simp only [entriesLeafAt] at h
    split at h
    · exact leafAt_plain v ks e hp.1 h
    · exact entriesLeafAt_plain rest k ks e hp.2 h
end

mutual
theorem leafAt_mem_writes (f : Char → Char) : ∀ (v : Node) (path : Str) (ks : List Str)
    (e : Str), v.wellKeyed f = true → v.leafAt ks = some e →
    (dottedPath path ks, e) ∈ writes path v
  | .bool b, path, [], e, _, h => by
    simp only [Node.leafAt, Option.some.injEq] at h
    simp [writes, dottedPath, h]
  | .int n, path, [], e, _, h => by
    simp only [Node.leafAt, Option.some.injEq] at h
    simp [writes, dottedPath, h]
  | .str s, path, [], e, _, h => by
    simp only [Node.leafAt, Option.some.injEq] at h
    simp [writes, dottedPath, h, Node.ownValue]
  | .map kvs, path, k :: ks, e, hw, h => by
    simp only [Node.wellKeyed] at hw
    simp only [Node.leafAt] at h
    rw [writes, dottedPath]
    exact List.mem_append_left _ (entriesLeafAt_mem_writes f kvs path k ks e hw h)
  | .bool _, _, _ :: _, _, _, h => by simp [Node.leafAt] at h
  | .int _, _, _ :: _, _, _, h => by simp [Node.leafAt] at h
  | .str _, _, _ :: _, _, _, h => by simp [Node.leafAt] at h
  | .map _, _, [], _, _, h => by simp [Node.leafAt] at h
  | .float32 _, _, _, _, _, h => by simp [Node.leafAt] at h
  | .float64 _, _, _, _, _, h => by simp [Node.leafAt] at h
  | .seq _, _, _, _, _, h => by simp [Node.leafAt] at h
  | .other, _, _, _, _, h => by simp [Node.leafAt] at h
theorem entriesLeafAt_mem_writes (f : Char → Char) : ∀ (kvs : List (MapKey × Node))
    (path k : Str) (ks : List Str) (e : Str), wellKeyedEntries f kvs = true →
    entriesLeafAt kvs k ks = some e →
    (dottedPath (path ++ '.' :: k) ks, e) ∈ writesMap path kvs
  | [], _, _, _, _, _, h => by simp [entriesLeafAt] at h
  | (.other, _) :: _, _, _, _, _, hw, _ => by simp [wellKeyedEntries] at hw
  | (.str k1, v) :: rest, path, k, ks, e, hw, h => by
    simp only [wellKeyedEntries, Bool.and_eq_true] at hw
    simp only [entriesLeafAt] at h
    rw [writesMap]
    split at h
    · rename_i hk
      simp only [MapKey.str.injEq] at hk
      subst hk
      exact List.mem_append_left _ (leafAt_mem_writes f v _ ks e hw.1.2 h)
    · exact List.mem_append_right _ (entriesLeafAt_mem_writes f rest path k ks e hw.2 h)
end

/-- C1. End-to-end leaf lookup: `Load` of `src/config.go` succeeds with root `r` on the document
with the single top-level key `r` over nested string-keyed maps (keys not blank, trimmed,
without a dot, distinct among siblings) whose leaves are booleans, integers or strings without
a placeholder, and then for every leaf reached by the keys `k1 … kn` the path `r.k1.….kn` is
present and `value` returns the encoding of the leaf, without error. -/
theorem load_leaf_lookup (fold : Char → Char) (w : World) (optFilePath r : Str) (node : Node)
    (hread : readConfig w (if optFilePath = [] then defaultFilePath else optFilePath) =
      .ok [(r, node)])
    (hr : goodKey r = true) (hkeys : node.wellKeyed id = true)
    (hplain : node.plainLeaves = true) :
    ∃ c : Configuration,
      Load w optFilePath PkgState.initial = (⟨true, some c, none⟩, .returned none) ∧
      c.root = r ∧
      ∀ (ks : List Str) (e : Str), node.leafAt ks = some e →
        c.hasPath fold (dottedPath r ks) = true ∧
          c.value fold (dottedPath r ks) = .ok e := by
  refine ⟨_, load_wellKeyed id w optFilePath r node hread hr hkeys, rfl, ?_⟩
  intro ks e hleaf
  have hmem := leafAt_mem_writes id node r ks e hkeys hleaf
  have hkey : dottedPath r ks ∈ (writes r node).map Prod.fst :=
    List.mem_map.2 ⟨_, hmem, rfl⟩
  obtain ⟨hshape, htrim⟩ :=
    @loaded_key_shape id w.env r node hr hkeys _ (mem_keys_loadedMapping.2 hkey)
  have hhas := (hasPath_loaded_iff id fold w.env
    (if optFilePath = [] then defaultFilePath else optFilePath) r node hr hkeys
    (dottedPath r ks) hshape htrim).2 ⟨_, hkey, rfl⟩
  refine ⟨hhas, ?_⟩
  unfold Configuration.value
  rw [hhas]
  simp only [Bool.not_true, Bool.false_eq_true, if_false]
  rw [resolve_under_root fold _ _ hr hshape htrim]
  unfold ConfigMap.get loadedMapping
  rw [lookup_map_snd, lookup_putAll_of_mem [] _
    (writes_keys_nodup id foldsOnlyLetters_id node r hkeys) _ _ hmem]
  simp only [Option.map_some', Option.getD_some]
  rw [interpolate_of_no_match _ _ (leafAt_plain node ks e hplain hleaf)]

/-- Witness of C1 on the document `app: (name: svc)`: `value("app.name")` is `svc`. -/
theorem load_leaf_lookup_witness :
    ∃ c : Configuration,
      Load svcWorld [] PkgState.initial = (⟨true, some c, none⟩, .returned none) ∧
      c.root = "app".toList ∧
      c.hasPath asciiFold "app.name".toList = true ∧
      c.value asciiFold "app.name".toList = .ok "svc".toList := by
  obtain ⟨c, h1, h2, h3⟩ := load_leaf_lookup asciiFold svcWorld [] "app".toList svcNode
    rfl (by decide) (by decide) (by decide)
  exact ⟨c, h1, h2, h3 ["name".toList] "svc".toList (by decide)⟩

theorem below_formatSliceSuffix {q p : Str} (h : p = q ∨ Below q p) :
    Below q (formatSliceSuffix p) := by
  rcases h with h | ⟨s, hs⟩
  · exact ⟨['#'], by simp [h, formatSliceSuffix]⟩
  · exact ⟨s ++ ['.', '#'], by simp [hs, formatSliceSuffix]⟩

theorem mem_keys_append_left {a b : List (Path × Str)} {k : Path}
    (h : k ∈ a.map Prod.fst) : k ∈ (a ++ b).map Prod.fst := by
  rw [List.map_append]
  exact List.mem_append_left _ h

theorem mem_keys_append_right {a b : List (Path × Str)} {k : Path}
    (h : k ∈ b.map Prod.fst) : k ∈ (a ++ b).map Prod.fst := by
  rw [List.map_append]
  exact List.mem_append_right _ h

mutual
theorem nodesAt_mem_writes (f : Char → Char) : ∀ (v : Node) (path : Str) (p : Path) (n : Node),
    v.wellKeyed f = true → (p, n) ∈ nodesAt path v →
    p ∈ (writes path v).map Prod.fst ∧
      (n.isSeq = true → formatSliceSuffix p ∈ (writes path v).map Prod.fst)
  | .bool b, path, p, n, _, h => by
    simp only [nodesAt, List.mem_singleton, Prod.mk.injEq] at h
    obtain ⟨rfl, rfl⟩ := h
    simp [writes, Node.isSeq]
  | .int b, path, p, n, _, h => by
    simp only [nodesAt, List.mem_singleton, Prod.mk.injEq] at h
    obtain ⟨rfl, rfl⟩ := h
    simp [writes, Node.isSeq]
  | .str b, path, p, n, _, h => by
    simp only [nodesAt, List.mem_singleton, Prod.mk.injEq] at h
    obtain ⟨rfl, rfl⟩ := h
    simp [writes, Node.isSeq]
  | .float32 b, path, p, n, _, h => by
    simp only [nodesAt, List.mem_singleton, Prod.mk.injEq] at h
    obtain ⟨rfl, rfl⟩ := h
    simp [writes, Node.isSeq]
  | .float64 b, path, p, n, _, h => by
    simp only [nodesAt, List.mem_singleton, Prod.mk.injEq] at h
    obtain ⟨rfl, rfl⟩ := h
    simp [writes, Node.isSeq]
  | .other, path, p, n, hw, _ => by simp [Node.wellKeyed] at hw
  | .map kvs, path, p, n, hw, h => by
    simp only [Node.wellKeyed] at hw
    simp only [nodesAt, List.mem_cons, Prod.mk.injEq] at h
    rw [writes]
    rcases h with ⟨rfl, rfl⟩ | h
    · exact ⟨mem_keys_append_right (by simp), by simp [Node.isSeq]⟩
    · obtain ⟨h1, h2⟩ := nodesAtEntries_mem_writes f kvs path p n hw h
      exact ⟨mem_keys_append_left h1, fun hs => mem_keys_append_left (h2 hs)⟩
  | .seq xs, path, p, n, hw, h => by
    simp only [Node.wellKeyed] at hw
    simp only [nodesAt, List.mem_cons, Prod.mk.injEq] at h
    rw [writes]
    rcases h with ⟨rfl, rfl⟩ | h
    · refine ⟨?_, fun _ => by simp⟩
      simp
    · obtain ⟨h1, h2⟩ := nodesAtElems_mem_writes f xs (formatSliceSuffix path) 0 p n hw h
      refine ⟨?_, fun hs => ?_⟩
      · simp only [List.map_cons, List.mem_cons]
        exact Or.inr (mem_keys_append_left h1)
      · simp only [List.map_cons, List.mem_cons]
        exact Or.inr (mem_keys_append_left (h2 hs))
theorem nodesAtEntries_mem_writes (f : Char → Char) : ∀ (kvs : List (MapKey × Node))
    (path : Str) (p : Path) (n : Node), wellKeyedEntries f kvs = true →
    (p, n) ∈ nodesAtEntries path kvs →
    p ∈ (writesMap path kvs).map Prod.fst ∧
      (n.isSeq = true → formatSliceSuffix p ∈ (writesMap path kvs).map Prod.fst)
  | [], _, _, _, _, h => by simp [nodesAtEntries] at h
  | (.other, _) :: _, _, _, _, hw, _ => by simp [wellKeyedEntries] at hw
  | (.str k, v) :: rest, path, p, n, hw, h => by
    simp only [wellKeyedEntries, Bool.and_eq_true] at hw
    simp only [nodesAtEntries, List.mem_append] at h
    rw [writesMap]
    rcases h with h | h
    · obtain ⟨h1, h2⟩ := nodesAt_mem_writes f v _ p n hw.1.2 h
      exact ⟨mem_keys_append_left h1, fun hs => mem_keys_append_left (h2 hs)⟩
    · obtain ⟨h1, h2⟩ := nodesAtEntries_mem_writes f rest path p n hw.2 h
      exact ⟨mem_keys_append_right h1, fun hs => mem_keys_append_right (h2 hs)⟩
theorem nodesAtElems_mem_writes (f : Char → Char) : ∀ (xs : List Node) (path : Str) (i : Nat)
    (p : Path) (n : Node), wellKeyedNodes f xs = true → (p, n) ∈ nodesAtElems path i xs →
    p ∈ (writesSlice path i xs).map Prod.fst ∧
      (n.isSeq = true → formatSliceSuffix p ∈ (writesSlice path i xs).map Prod.fst)
  | [], _, _, _, _, _, h => by simp [nodesAtElems] at h
  | x :: rest, path, i, p, n, hw, h => by
    simp only [wellKeyedNodes, Bool.and_eq_true] at hw
    simp only [nodesAtElems, List.mem_append] at h
    rw [writesSlice]
    rcases h with h | h
    · obtain ⟨h1, h2⟩ := nodesAt_mem_writes f x _ p n hw.1 h
      exact ⟨mem_keys_append_left h1, fun hs => mem_keys_append_left (h2 hs)⟩
    · obtain ⟨h1, h2⟩ := nodesAtElems_mem_writes f rest path (i + 1) p n hw.2 h
      exact ⟨mem_keys_append_right h1, fun hs => mem_keys_append_right (h2 hs)⟩
end

theorem noSharpEntries_key : ∀ {kvs : List (MapKey × Node)}, noSharpEntries kvs = true →
    ∀ {k : Str} {v : Node}, (MapKey.str k, v) ∈ kvs → k ≠ ['#']
  | [], _, _, _, hm => by simp at hm
  | (k1, _) :: rest, h, k, v, hm => by
    simp only [noSharpEntries, Bool.and_eq_true, decide_eq_true_eq] at h
    rcases List.mem_cons.1 hm with e | e
    · simp only [Prod.mk.injEq] at e
      intro hk
      apply h.1.1
      rw [← e.1, hk]
    · exact noSharpEntries_key h.2 e

theorem fold_eq_sharp {f : Char → Char} (hf : FoldsOnlyLetters f) {k : Str}
    (h : k.map f = ['#'].map f) : k = ['#'] := by
  cases k with
  | nil => simp at h
  | cons c t =>
    cases t with
    | nil =>
      simp only [List.map_cons, List.map_nil, List.cons.injEq, and_true] at h
      rw [fold_sharp hf h]
    | cons d t => simp at h

theorem cross_marker_ne {f : Char → Char} (hf : FoldsOnlyLetters f) {q k k' p w : Str}
    (hk : '.' ∉ k) (hk' : '.' ∉ k') (hne : k.map f ≠ k'.map f)
    (hw : w = q ++ k ∨ Below (q ++ k) w) (hp : p = q ++ k' ∨ Below (q ++ k') p) :
    w.map f ≠ (formatSliceSuffix p).map f :=
  child_keys_ne hf hk hk' hne hw (Or.inr (below_formatSliceSuffix hp))

theorem formatSliceSuffix_length (p : Str) : (formatSliceSuffix p).length = p.length + 2 := by
  simp [formatSliceSuffix]

theorem shape_length {path k : Str} (h : k = path ∨ Below path k) :
    path.length ≤ k.length := by
  rcases h with h | h
  · rw [h]
  · exact le_of_lt (below_length h)

theorem sharp_key_of_marker {f : Char → Char} (hf : FoldsOnlyLetters f) {path k w : Str}
    (hk : '.' ∉ k) (hw : w = path ++ '.' :: k ∨ Below (path ++ '.' :: k) w)
    (e : w.map f = (formatSliceSuffix path).map f) : k = ['#'] := by
  obtain ⟨s, hs, hs'⟩ := suffix_of_shape (dot_key_shape hw)
  have e2 : formatSliceSuffix path = (path ++ ['.']) ++ (['#'] ++ []) := by
    simp [formatSliceSuffix]
  rw [hs, e2, List.append_assoc] at e
  exact fold_eq_sharp hf (fold_first_segment hf hk (by decide) hs' (Or.inl rfl)
    (map_append_cancel e))

mutual
theorem marker_only_seq (f : Char → Char) (hf : FoldsOnlyLetters f) :
    ∀ (v : Node) (path : Str) (p : Path) (n : Node) (w : Path × Str),
    v.wellKeyed f = true → v.noSharpKey = true → (p, n) ∈ nodesAt path v →
    w ∈ writes path v → w.1.map f = (formatSliceSuffix p).map f → n.isSeq = true
  | .bool b, path, p, n, w, _, _, h, hw, e => by
    simp only [nodesAt, List.mem_singleton, Prod.mk.injEq] at h
    simp only [writes, List.mem_singleton] at hw
    rw [hw, h.1] at e
    exact absurd e (map_ne_of_length (by simp [formatSliceSuffix]))
  | .int b, path, p, n, w, _, _, h, hw, e => by
    simp only [nodesAt, List.mem_singleton, Prod.mk.injEq] at h
    simp only [writes, List.mem_singleton] at hw
    rw [hw, h.1] at e
    exact absurd e (map_ne_of_length (by simp [formatSliceSuffix]))
  | .str b, path, p, n, w, _, _, h, hw, e => by
    simp only [nodesAt, List.mem_singleton, Prod.mk.injEq] at h
    simp only [writes, List.mem_singleton] at hw
    rw [hw, h.1] at e
    exact absurd e (map_ne_of_length (by simp [formatSliceSuffix]))
  | .float32 b, path, p, n, w, _, _, h, hw, e => by
    simp only [nodesAt, List.mem_singleton, Prod.mk.injEq] at h
    simp only [writes, List.mem_singleton] at hw
    rw [hw, h.1] at e
    exact absurd e (map_ne_of_length (by simp [formatSliceSuffix]))
  | .float64 b, path, p, n, w, _, _, h, hw, e => by
    simp only [nodesAt, List.mem_singleton, Prod.mk.injEq] at h
    simp only [writes, List.mem_singleton] at hw
    rw [hw, h.1] at e
    exact absurd e (map_ne_of_length (by simp [formatSliceSuffix]))
  | .other, _, _, _, _, hwf, _, _, _, _ => by simp [Node.wellKeyed] at hwf
  | .map kvs, path, p, n, w, hwf, hns, h, hw, e => by
    simp only [Node.wellKeyed] at hwf
    simp only [Node.noSharpKey] at hns
    simp only [nodesAt, List.mem_cons, Prod.mk.injEq] at h
    simp only [writes, List.mem_append, List.mem_singleton] at hw
    rcases h with ⟨rfl, rfl⟩ | h
    · exfalso
      rcases hw with hw | hw
      · obtain ⟨k, v', hm, hshape⟩ := writesMap_shape_key kvs p w hw
        exact noSharpEntries_key hns hm
          (sharp_key_of_marker hf (goodKey_no_dot (wellKeyedEntries_goodKey hwf hm)) hshape e)
      · rw [hw] at e
        exact map_ne_of_length (by simp [formatSliceSuffix]) e
    · rcases hw with hw | hw
      · exact marker_only_seq_entries f hf kvs path p n w hwf hns h hw e
      · exfalso
        have hp := (nodesAtEntries_mem_writes f kvs path p n hwf h).1
        obtain ⟨w', hw', rfl⟩ := List.mem_map.1 hp
        have := below_length (writesMap_shape kvs path w' hw')
        rw [hw] at e
        exact map_ne_of_length (by rw [formatSliceSuffix_length]; simp only; omega) e
  | .seq xs, path, p, n, w, hwf, hns, h, hw, e => by
    simp only [Node.wellKeyed] at hwf
    simp only [Node.noSharpKey] at hns
    simp only [nodesAt, List.mem_cons, Prod.mk.injEq] at h
    simp only [writes, List.mem_cons, List.mem_append, List.mem_singleton, List.mem_nil_iff,
      or_false] at hw
    rcases h with ⟨rfl, rfl⟩ | h
    · rfl
    · have hp := (nodesAtElems_mem_writes f xs (formatSliceSuffix path) 0 p n hwf h).1
      obtain ⟨w', hw', rfl⟩ := List.mem_map.1 hp
      obtain ⟨j, -, -, hj⟩ := writesSlice_shape xs _ 0 w' hw'
      have hlen := slice_key_length hj
      rw [formatSliceSuffix_length] at hlen
      rcases hw with hw | hw | hw
      · exfalso
        rw [hw] at e
        exact map_ne_of_length
          (by rw [formatSliceSuffix_length, formatSliceSuffix_length]; omega) e
      · exact marker_only_seq_elems f hf xs (formatSliceSuffix path) 0 w'.1 n w hwf hns h hw e
      · exfalso
        rw [hw] at e
        exact map_ne_of_length (by rw [formatSliceSuffix_length]; simp only; omega) e
theorem marker_only_seq_entries (f : Char → Char) (hf : FoldsOnlyLetters f) :
    ∀ (kvs : List (MapKey × Node)) (path : Str) (p : Path) (n : Node) (w : Path × Str),
    wellKeyedEntries f kvs = true → noSharpEntries kvs = true →
    (p, n) ∈ nodesAtEntries path kvs → w ∈ writesMap path kvs →
    w.1.map f = (formatSliceSuffix p).map f → n.isSeq = true
  | [], _, _, _, _, _, _, h, _, _ => by simp [nodesAtEntries] at h
  | (.other, _) :: _, _, _, _, _, hwf, _, _, _, _ => by simp [wellKeyedEntries] at hwf
  | (.str k, v) :: rest, path, p, n, w, hwf, hns, h, hw, e => by
    simp only [wellKeyedEntries, Bool.and_eq_true, Bool.not_eq_true'] at hwf
    simp only [noSharpEntries, Bool.and_eq_true] at hns
    simp only [nodesAtEntries, List.mem_append] at h
    simp only [writesMap, List.mem_append] at hw
    have hk := goodKey_no_dot hwf.1.1.1
    rcases h with h | h
    · rcases hw with hw | hw
      · exact marker_only_seq f hf v _ p n w hwf.1.2 hns.1.2 h hw e
      · exfalso
        obtain ⟨k', v', hm, hshape⟩ := writesMap_shape_key rest path w hw
        have hp := (nodesAt_mem_writes f v _ p n hwf.1.2 h).1
        obtain ⟨w', hw', rfl⟩ := List.mem_map.1 hp
        exact cross_marker_ne hf (goodKey_no_dot (wellKeyedEntries_goodKey hwf.2 hm)) hk
          (hasFoldedKey_false hwf.1.1.2 hm) (dot_key_shape hshape)
          (dot_key_shape (writes_shape v _ w' hw')) e
    · rcases hw with hw | hw
      · exfalso
        have hp := (nodesAtEntries_mem_writes f rest path p n hwf.2 h).1
        obtain ⟨w', hw', rfl⟩ := List.mem_map.1 hp
        obtain ⟨k', v', hm, hshape⟩ := writesMap_shape_key rest path w' hw'
        exact cross_marker_ne hf hk (goodKey_no_dot (wellKeyedEntries_goodKey hwf.2 hm))
          (fun e' => hasFoldedKey_false hwf.1.1.2 hm e'.symm)
          (dot_key_shape (writes_shape v _ w hw)) (dot_key_shape hshape) e
      · exact marker_only_seq_entries f hf rest path p n w hwf.2 hns.2 h hw e
theorem marker_only_seq_elems (f : Char → Char) (hf : FoldsOnlyLetters f) :
    ∀ (xs : List Node) (path : Str) (i : Nat) (p : Path) (n : Node) (w : Path × Str),
    wellKeyedNodes f xs = true → noSharpNodes xs = true →
    (p, n) ∈ nodesAtElems path i xs → w ∈ writesSlice path i xs →
    w.1.map f = (formatSliceSuffix p).map f → n.isSeq = true
  | [], _, _, _, _, _, _, _, h, _, _ => by simp [nodesAtElems] at h
  | x :: rest, path, i, p, n, w, hwf, hns, h, hw, e => by
    simp only [wellKeyedNodes, Bool.and_eq_true] at hwf
    simp only [noSharpNodes, Bool.and_eq_true] at hns
    simp only [nodesAtElems, List.mem_append] at h
    simp only [writesSlice, List.mem_append] at hw
    rcases h with h | h
    · rcases hw with hw | hw
      · exact marker_only_seq f hf x _ p n w hwf.1 hns.1 h hw e
      · exfalso
        obtain ⟨j, hj, -, hshape⟩ := writesSlice_shape rest path (i + 1) w hw
        have hp := (nodesAt_mem_writes f x _ p n hwf.1 h).1
        obtain ⟨w', hw', rfl⟩ := List.mem_map.1 hp
        exact cross_marker_ne hf (dot_not_mem_decimalNat j) (dot_not_mem_decimalNat i)
          (decimalNat_fold_ne hf (by omega)) hshape (writes_shape x _ w' hw') e
    · rcases hw with hw | hw
      · exfalso
        have hp := (nodesAtElems_mem_writes f rest path (i + 1) p n hwf.2 h).1
        obtain ⟨w', hw', rfl⟩ := List.mem_map.1 hp
        obtain ⟨j, hj, -, hshape⟩ := writesSlice_shape rest path (i + 1) w' hw'
        exact cross_marker_ne hf (dot_not_mem_decimalNat i) (dot_not_mem_decimalNat j)
          (decimalNat_fold_ne hf (by omega)) (writes_shape x _ w hw) hshape e
      · exact marker_only_seq_elems f hf rest path (i + 1) p n w hwf.2 hns.2 h hw e
end

theorem foldsOnlyLetters_asciiFold : FoldsOnlyLetters asciiFold := by
  intro c d _ hc h
  have hcu : c.isUpper = false := by
    simp only [Char.isAlpha, Bool.or_eq_false_iff] at hc
    exact hc.1
  unfold asciiFold at h
  rw [hcu] at h
  simp only [Bool.false_eq_true, if_false] at h
  split at h
  · rename_i hd
    exfalso
    simp only [Char.isUpper, Bool.and_eq_true, decide_eq_true_eq] at hd
    have h1 : 65 ≤ d.toNat := hd.1
    have h2 : d.toNat ≤ 90 := hd.2
    generalize d.toNat = n at h h1 h2
    subst h
    interval_cases n <;> simp [Char.isAlpha, Char.isUpper, Char.isLower] at hc
  · exact h

theorem lastOk_formatSliceSuffix (s : Str) : LastOk (s ++ ['.', '#']) := by
  intro a ha
  rw [List.getLast?_append_of_ne_nil _ (by simp)] at ha
  simp at ha
  subst ha
  decide

/-- C4, as stated, fails: in `app: (x: (#: 1))` the node at `app.x` is a map, and
`isCollection("app.x")` is true, because the entry of the key `#` sits where the count marker
of a sequence would be. -/
theorem isCollection_map_counterexample :
    (Load sharpWorld [] PkgState.initial).1.config = some sharpConfig ∧
      (Load sharpWorld [] PkgState.initial).1.loadErr = none ∧
      (nodesAt "app".toList sharpNode).map (fun pn => (pn.1, pn.2.isSeq)) =
        [("app".toList, false), ("app.x".toList, false), ("app.x.#".toList, false)] ∧
      sharpConfig.isCollection asciiFold "app.x".toList = true := by
  refine ⟨rfl, rfl, by decide, by decide⟩

/-- C4, amended. For every document with a single top-level key over maps, sequences and
scalars of supported kinds, whose map keys are not blank, carry no surrounding white space and
no dot, are never `#`, and differ among siblings also when case is ignored: after `Load`, for
every node path `p` of the document (an element of a sequence at `P` has the path `P.#i`),
`isCollection(p)` is true if and only if the node at `p` is a sequence. -/
theorem isCollection_iff_seq (fold : Char → Char) (hfold : FoldsOnlyLetters fold) (w : World)
    (optFilePath r : Str) (node : Node)
    (hread : readConfig w (if optFilePath = [] then defaultFilePath else optFilePath) =
      .ok [(r, node)])
    (hr : goodKey r = true) (hkeys : node.wellKeyed fold = true)
    (hsharp : node.noSharpKey = true) :
    ∃ c : Configuration,
      Load w optFilePath PkgState.initial = (⟨true, some c, none⟩, .returned none) ∧
      ∀ (p : Path) (n : Node), (p, n) ∈ nodesAt r node →
        (c.isCollection fold p = true ↔ n.isSeq = true) := by
  refine ⟨_, load_wellKeyed fold w optFilePath r node hread hr hkeys, ?_⟩
  intro p n hpn
  obtain ⟨hp1, hp2⟩ := nodesAt_mem_writes fold node r p n hkeys hpn
  obtain ⟨hshape, htrim⟩ :=
    @loaded_key_shape fold w.env r node hr hkeys _ (mem_keys_loadedMapping.2 hp1)
  have hhas := (hasPath_loaded_iff fold fold w.env
    (if optFilePath = [] then defaultFilePath else optFilePath) r node hr hkeys
    p hshape htrim).2 ⟨_, hp1, rfl⟩
  have hmshape : formatSliceSuffix p = r ∨ Below r (formatSliceSuffix p) :=
    Or.inr (below_formatSliceSuffix hshape)
  have hmtrim : trimSpace (formatSliceSuffix p) = formatSliceSuffix p := by
    obtain ⟨s, hs, -⟩ := suffix_of_shape hshape
    have e : formatSliceSuffix p = r ++ (s ++ ['.', '#']) := by
      simp [formatSliceSuffix, hs]
    rw [e]
    exact trimSpace_root_suffix hr (lastOk_formatSliceSuffix s)
  unfold Configuration.isCollection
  rw [hhas]
  simp only [Bool.not_true, Bool.false_eq_true, if_false]
  rw [resolve_under_root fold _ _ hr hshape htrim]
  have hps : Path.String p = p := htrim
  rw [hps, hasPath_loaded_iff fold fold w.env _ r node hr hkeys _ hmshape hmtrim]
  constructor
  · rintro ⟨k, hk, e⟩
    obtain ⟨w', hw', rfl⟩ := List.mem_map.1 hk
    exact marker_only_seq fold hfold node r p n w' hkeys hsharp hpn hw' e
  · intro hs
    exact ⟨_, hp2 hs, rfl⟩

theorem nodesAt_portsDoc :
    nodesAt "app".toList (.map [(.str "ports".toList, .seq [.int 80, .int 443])]) =
      [("app".toList, .map [(.str "ports".toList, .seq [.int 80, .int 443])]),
        ("app.ports".toList, .seq [.int 80, .int 443]),
        ("app.ports.#0".toList, .int 80), ("app.ports.#1".toList, .int 443)] := rfl

/-- Witness of the amended C4 on `app: (ports: [80, 443])`: `app.ports` is a collection,
`app` and the element `app.ports.#0` are not. -/
theorem isCollection_iff_seq_witness :
    ∃ c : Configuration,
      Load portsWorld [] PkgState.initial = (⟨true, some c, none⟩, .returned none) ∧
      c.isCollection asciiFold "app.ports".toList = true ∧
      c.isCollection asciiFold "app".toList = false ∧
      c.isCollection asciiFold "app.ports.#0".toList = false := by
  obtain ⟨c, h1, h2⟩ := isCollection_iff_seq asciiFold foldsOnlyLetters_asciiFold portsWorld []
    "app".toList (.map [(.str "ports".toList, .seq [.int 80, .int 443])])
    rfl (by decide) (by decide) (by decide)
  rw [nodesAt_portsDoc] at h2
  refine ⟨c, h1, ?_, ?_, ?_⟩
  · exact (h2 "app.ports".toList (.seq [.int 80, .int 443])
      (List.mem_cons_of_mem _ (List.mem_cons_self _ _))).2 rfl
  · have := (h2 "app".toList (.map [(.str "ports".toList, .seq [.int 80, .int 443])])
      (List.mem_cons_self _ _)).not
    simpa [Node.isSeq] using this
  · have := (h2 "app.ports.#0".toList (.int 80)
      (List.mem_cons_of_mem _ (List.mem_cons_of_mem _ (List.mem_cons_self _ _)))).not
    simpa [Node.isSeq] using this

theorem interpolateSinglePassGo_skip (env : Str → Str) (k : Nat) (s : Str) :
    interpolateSinglePassGo env k s = interpolateSinglePassGo env 0 (s.drop k) := by
  induction s generalizing k with
  | nil => cases k <;> simp [interpolateSinglePassGo]
  | cons c s ih =>
    cases k with
    | zero => simp
    | succ k => simp [interpolateSinglePassGo, ih k]

theorem drop_placeholderText (e r : Str) :
    (placeholderText e ++ r).drop (e.length + 3) = r := by
  rw [← placeholderText_length e]
  exact List.drop_left' rfl

theorem matchPlaceholderAt_of_ne_dollar (c : Char) (s : Str) (h : c ≠ '$') :
    matchPlaceholderAt (c :: s) = none := by
  simp [matchPlaceholderAt, List.isPrefixOf, Ne.symm h]

theorem render_lits_append (r : Str) (ts : List Tok) :
    render (r.map Tok.lit ++ ts) = r ++ render ts := by
  induction r with
  | nil => rfl
  | cons c r ih => simp [render, ih]

theorem findAllGo_render : ∀ (ts : List Tok), cleanToks ts →
    findAllGo 0 (render ts) = (innerExprs ts).map placeholderText
  | [], _ => rfl
  | .lit c :: ts, h => by
    rw [render, findAllGo_of_none (matchPlaceholderAt_of_ne_dollar c _ h.1), innerExprs]
    exact findAllGo_render ts h.2
  | .ph e :: ts, h => by
    rw [render, findAllGo_of_some (matchPlaceholderAt_text e _ h.1.1 h.1.2.1),
      drop_placeholderText, innerExprs, List.map_cons, findAllGo_render ts h.2]

theorem interpolateSinglePassGo_of_some (env : Str → Str) {s inner : Str}
    (h : matchPlaceholderAt s = some inner) :
    interpolateSinglePassGo env 0 s =
      interpolateValue env inner placeholderValueDelimiter ++
        interpolateSinglePassGo env 0 (s.drop (inner.length + 3)) := by
  cases s with
  | nil => simp [matchPlaceholderAt, List.isPrefixOf] at h
  | cons c s =>
    rw [interpolateSinglePassGo, h]
    simp only
    rw [interpolateSinglePassGo_skip]
    rfl

theorem interpolateSinglePassGo_render (env : Str → Str) : ∀ (ts : List Tok), cleanToks ts →
    interpolateSinglePassGo env 0 (render ts) = render (substAll env (innerExprs ts) ts) := by
  have key : ∀ (es : List Str) (ts : List Tok), cleanToks ts → (∀ e ∈ innerExprs ts, e ∈ es) →
      interpolateSinglePassGo env 0 (render ts) = render (substAll env es ts) := by
    intro es ts
    induction ts with
    | nil => intro _ _; rfl
    | cons t ts ih =>
      intro h hes
      cases t with
      | lit c =>
        have hm := matchPlaceholderAt_of_ne_dollar c (render ts) h.1
        rw [render, interpolateSinglePassGo, hm, substAll, render]
        simp only
        rw [ih h.2 hes]
      | ph e =>
        have he : e ∈ es := hes e (by simp [innerExprs])
        rw [render, interpolateSinglePassGo_of_some env
          (matchPlaceholderAt_text e _ h.1.1 h.1.2.1), drop_placeholderText, substAll,
          if_pos he, render_lits_append,
          ih h.2 (fun x hx => hes x (by simp [innerExprs, hx]))]
  intro ts h
  exact key _ ts h (fun e he => he)

theorem cleanToks_lits_append (r : Str) (ts : List Tok) (hr : '$' ∉ r) (h : cleanToks ts) :
    cleanToks (r.map Tok.lit ++ ts) := by
  induction r with
  | nil => exact h
  | cons c r ih =>
    have hc : c ≠ '$' := fun e => hr (by simp [e])
    exact ⟨hc, ih (fun e => hr (by simp [e]))⟩

theorem cleanToks_substOne (e r : Str) (hr : '$' ∉ r) : ∀ (ts : List Tok), cleanToks ts →
    cleanToks (substOne e r ts)
  | [], _ => trivial
  | .lit c :: ts, h => ⟨h.1, cleanToks_substOne e r hr ts h.2⟩
  | .ph e' :: ts, h => by
    rw [substOne]
    split
    · exact cleanToks_lits_append r _ hr (cleanToks_substOne e r hr ts h.2)
    · exact ⟨h.1, cleanToks_substOne e r hr ts h.2⟩

theorem placeholderText_not_head (e : Str) {c : Char} (s : Str) (h : c ≠ '$') :
    (placeholderText e).isPrefixOf (c :: s) = false := by
  simp [placeholderText, List.isPrefixOf, Ne.symm h]

theorem replaceGo_no_dollar_append (e new : Str) : ∀ (a rest : Str), '$' ∉ a →
    replaceGo (placeholderText e) new 0 (a ++ rest) =
      a ++ replaceGo (placeholderText e) new 0 rest
  | [], _, _ => rfl
  | c :: a, rest, h => by
    have hc : c ≠ '$' := fun e' => h (by simp [e'])
    rw [List.cons_append, replaceGo_of_no_occurrence _ _ _ _
      (placeholderText_not_head e _ hc),
      replaceGo_no_dollar_append e new a rest (fun e' => h (by simp [e'])), List.cons_append]

/-- On a clean token list, `Replace` of a placeholder text rewrites the placeholders with
that inner expression and nothing else. -/
theorem replaceGo_render (e new : Str) (he : e ≠ []) (hclose : '}' ∉ e) :
    ∀ (ts : List Tok), cleanToks ts →
    replaceGo (placeholderText e) new 0 (render ts) = render (substOne e new ts)
  | [], _ => rfl
  | .lit c :: ts, h => by
    rw [render, replaceGo_of_no_occurrence _ _ _ _
      (placeholderText_not_head e _ h.1), substOne, render,
      replaceGo_render e new he hclose ts h.2]
  | .ph e' :: ts, h => by
    rw [render, substOne]
    split
    · rename_i heq
      subst heq
      rw [replaceGo_of_occurrence _ _ _ (placeholderText_ne_nil e'), render_lits_append,
        replaceGo_render e' new he hclose ts h.2]
    · rename_i hne
      have hnp : (placeholderText e).isPrefixOf (placeholderText e' ++ render ts) = false := by
        by_contra hp
        have h1 := matchPlaceholderAt_of_occurrence he hclose (by simpa using hp)
        rw [matchPlaceholderAt_text e' _ h.1.1 h.1.2.1] at h1
        exact hne (Option.some.inj h1)
      have hsplit : placeholderText e' ++ render ts =
          '$' :: (('{' :: (e' ++ ['}'])) ++ render ts) := rfl
      have hbody : '$' ∉ '{' :: (e' ++ ['}']) := by
        simp [h.1.2.2]
      rw [hsplit] at hnp ⊢
      rw [replaceGo_of_no_occurrence _ _ _ _ hnp, replaceGo_no_dollar_append e new _ _ hbody,
        render, replaceGo_render e new he hclose ts h.2]
      rfl

theorem substAll_lits_append (env : Str → Str) (es : List Str) (r : Str) (ts : List Tok) :
    substAll env es (r.map Tok.lit ++ ts) = r.map Tok.lit ++ substAll env es ts := by
  induction r with
  | nil => rfl
  | cons c r ih => simp [substAll, ih]

theorem substAll_nil (env : Str → Str) : ∀ (ts : List Tok), substAll env [] ts = ts
  | [] => rfl
  | .lit c :: ts => by rw [substAll, substAll_nil env ts]
  | .ph e :: ts => by rw [substAll, if_neg (by simp), substAll_nil env ts]

theorem substAll_substOne (env : Str → Str) (e : Str) (es : List Str) :
    ∀ (ts : List Tok),
    substAll env es (substOne e (interpolateValue env e placeholderValueDelimiter) ts) =
      substAll env (e :: es) ts
  | [] => rfl
  | .lit c :: ts => by rw [substOne, substAll, substAll, substAll_substOne env e es ts]
  | .ph e' :: ts => by
    rw [substOne]
    split
    · rename_i heq
      subst heq
      rw [substAll_lits_append, substAll, if_pos (by simp), substAll_substOne env e' es ts]
    · rename_i hne
      rw [substAll, substAll, substAll_substOne env e es ts]
      by_cases hmem : e' ∈ es
      · rw [if_pos hmem, if_pos (List.mem_cons_of_mem _ hmem)]
      · rw [if_neg hmem, if_neg (by simp [hne, hmem])]

/-- The loop of `interpolate` over the placeholders `es`, on a clean token list. -/
theorem foldl_interpolateStep_render (env : Str → Str) : ∀ (es : List Str) (ts : List Tok),
    cleanToks ts →
    (∀ e ∈ es, e ≠ [] ∧ '}' ∉ e ∧ '$' ∉ interpolateValue env e placeholderValueDelimiter) →
    (es.map placeholderText).foldl (interpolateStep env) (render ts) =
      render (substAll env es ts)
  | [], ts, _, _ => by simp [substAll_nil]
  | e :: es, ts, h, hes => by
    obtain ⟨he, hclose, hdollar⟩ := hes e (by simp)
    rw [List.map_cons, List.foldl_cons]
    have hstep : interpolateStep env (render ts) (placeholderText e) =
        render (substOne e (interpolateValue env e placeholderValueDelimiter) ts) := by
      unfold interpolateStep stringsReplaceAll
      rw [if_neg (placeholderText_ne_nil e), placeholderValue_text e he hclose,
        replaceGo_render e _ he hclose ts h]
    rw [hstep, foldl_interpolateStep_render env es _ (cleanToks_substOne e _ hdollar ts h)
      (fun x hx => hes x (List.mem_cons_of_mem _ hx)), substAll_substOne]

theorem findAllGo_of_no_match : ∀ (s : Str), placeholderMatchString s = false →
    findAllGo 0 s = []
  | [], _ => rfl
  | c :: s, h => by
    simp only [placeholderMatchString, Bool.or_eq_false_iff] at h
    have hm : matchPlaceholderAt (c :: s) = none := by
      cases hx : matchPlaceholderAt (c :: s) with
      | none => rfl
      | some x => rw [hx] at h; simp at h
    rw [findAllGo_of_none hm]
    exact findAllGo_of_no_match s h.2

/-- In both branches `interpolate` is the loop over the matches of the original value. -/
theorem interpolate_eq_foldl (env : Str → Str) (v : Str) :
    interpolate env v = (findAllMatchesOf v).foldl (interpolateStep env) v := by
  unfold interpolate
  cases h : placeholderMatchString v with
  | true => rfl
  | false => simp [findAllMatchesOf, findAllGo_of_no_match v h]

theorem count_dollar_placeholderText (e : Str) :
    (placeholderText e).count '$' = 1 + e.count '$' := by
  simp [placeholderText, List.count_cons, List.count_append]
  omega

theorem findAllGo_length_le : ∀ (n : Nat) (v : Str), v.length ≤ n →
    (findAllGo 0 v).length ≤ v.count '$' := by
  intro n
  induction n with
  | zero =>
    intro v hv
    have : v = [] := List.length_eq_zero.1 (Nat.le_zero.1 hv)
    subst this
    simp [findAllGo]
  | succ n ih =>
    intro v hv
    cases v with
    | nil => simp [findAllGo]
    | cons c s =>
      cases hm : matchPlaceholderAt (c :: s) with
      | none =>
        rw [findAllGo_of_none hm]
        have := ih s (by simpa using hv)
        rw [List.count_cons]
        omega
      | some e =>
        obtain ⟨hval, -, -⟩ := matchPlaceholderAt_some hm
        rw [findAllGo_of_some hm]
        generalize hr : (c :: s).drop (e.length + 3) = r at hval
        have hlen : r.length ≤ n := by
          have := congrArg List.length hval
          simp [placeholderText] at this hv
          omega
        have := ih r hlen
        rw [hval, List.count_append, count_dollar_placeholderText, List.length_cons]
        omega

/-- A value in which every dollar sign starts a match is the text of a clean token list. -/
theorem exists_cleanToks : ∀ (n : Nat) (v : Str), v.length ≤ n →
    v.count '$' = (findAllGo 0 v).length → ∃ ts, cleanToks ts ∧ render ts = v := by
  intro n
  induction n with
  | zero =>
    intro v hv _
    have : v = [] := List.length_eq_zero.1 (Nat.le_zero.1 hv)
    subst this
    exact ⟨[], trivial, rfl⟩
  | succ n ih =>
    intro v hv hcount
    cases v with
    | nil => exact ⟨[], trivial, rfl⟩
    | cons c s =>
      cases hm : matchPlaceholderAt (c :: s) with
      | none =>
        rw [findAllGo_of_none hm, List.count_cons] at hcount
        have hle := findAllGo_length_le s.length s (le_refl _)
        have hc : c ≠ '$' := by
          intro e
          subst e
          simp at hcount
          omega
        have hc' : (c == '$') = false := by simpa using hc
        rw [hc'] at hcount
        simp only [Bool.false_eq_true, if_false, Nat.add_zero] at hcount
        obtain ⟨ts, h1, h2⟩ := ih s (by simpa using hv) hcount
        exact ⟨.lit c :: ts, ⟨hc, h1⟩, by rw [render, h2]⟩
      | some e =>
        obtain ⟨hval, hne, hclose⟩ := matchPlaceholderAt_some hm
        rw [findAllGo_of_some hm] at hcount
        generalize hr : (c :: s).drop (e.length + 3) = r at hval hcount
        have hlen : r.length ≤ n := by
          have := congrArg List.length hval
          simp [placeholderText] at this hv
          omega
        have hle := findAllGo_length_le r.length r (le_refl _)
        rw [hval, List.count_append, count_dollar_placeholderText, List.length_cons] at hcount
        have he0 : e.count '$' = 0 := by omega
        obtain ⟨ts, h1, h2⟩ := ih r hlen (by omega)
        refine ⟨.ph e :: ts, ⟨⟨hne, hclose, List.count_eq_zero.1 he0⟩, h1⟩, ?_⟩
        rw [render, h2, hval]

theorem cleanToks_inner : ∀ (ts : List Tok), cleanToks ts → ∀ e ∈ innerExprs ts,
    e ≠ [] ∧ '}' ∉ e
  | [], _, e, he => by simp [innerExprs] at he
  | .lit c :: ts, h, e, he => cleanToks_inner ts h.2 e (by simpa [innerExprs] using he)
  | .ph e' :: ts, h, e, he => by
    simp only [innerExprs, List.mem_cons] at he
    rcases he with rfl | he
    · exact ⟨h.1.1, h.1.2.1⟩
    · exact cleanToks_inner ts h.2 e he

/-- C8, as stated, fails: in the value below the fallback of the first placeholder produces
the text of the second one, which the `Replace` step of the second match rewrites as well;
the single-pass substitution leaves it alone. -/
theorem interpolate_rescans_counterexample :
    interpolate emptyEnv "$\x7bA|$\x7bB\x7d\x7d $\x7bB\x7d".toList = "B B".toList ∧
      interpolateSinglePass emptyEnv "$\x7bA|$\x7bB\x7d\x7d $\x7bB\x7d".toList =
        "$\x7bB\x7d B".toList ∧
      interpolate emptyEnv "$\x7bA|$\x7bB\x7d\x7d $\x7bB\x7d".toList ≠
        interpolateSinglePass emptyEnv "$\x7bA|$\x7bB\x7d\x7d $\x7bB\x7d".toList := by
  decide

/-- C8, amended. When every dollar sign of the value starts a match of the placeholder
pattern (the value has as many dollar signs as matches) and no substituted text contains a
dollar sign, `interpolate` returns the same string as the reference single-pass substitution;
the matches are those of the original value. -/
theorem interpolate_eq_singlePass (env : Str → Str) (value : Str)
    (hdollar : value.count '$' = (findAllMatchesOf value).length)
    (hsubst : ∀ m ∈ findAllMatchesOf value,
      '$' ∉ interpolateValue env (placeholderValue m) placeholderValueDelimiter) :
    interpolate env value = interpolateSinglePass env value := by
  obtain ⟨ts, hclean, hrender⟩ := exists_cleanToks value.length value (le_refl _) hdollar
  subst hrender
  have hall : findAllMatchesOf (render ts) = (innerExprs ts).map placeholderText :=
    findAllGo_render ts hclean
  rw [interpolate_eq_foldl, hall]
  unfold interpolateSinglePass
  rw [interpolateSinglePassGo_render env ts hclean]
  apply foldl_interpolateStep_render env _ ts hclean
  intro e he
  obtain ⟨h1, h2⟩ := cleanToks_inner ts hclean e he
  refine ⟨h1, h2, ?_⟩
  have := hsubst (placeholderText e) (by rw [hall]; exact List.mem_map.2 ⟨e, he, rfl⟩)
  rwa [placeholderValue_text e h1 h2] at this

/-- Witness of the amended C8: with `FOO=bar`, two placeholders in one value. -/
theorem interpolate_eq_singlePass_witness :
    interpolate (singleEnv "FOO".toList "bar".toList)
        "$\x7bFOO\x7d-$\x7bBAR|x\x7d".toList = "bar-x".toList ∧
      interpolateSinglePass (singleEnv "FOO".toList "bar".toList)
        "$\x7bFOO\x7d-$\x7bBAR|x\x7d".toList = "bar-x".toList :=
  have h := interpolate_eq_singlePass (singleEnv "FOO".toList "bar".toList)
    "$\x7bFOO\x7d-$\x7bBAR|x\x7d".toList (by decide) (by decide)
  ⟨by decide, h ▸ by decide⟩

/-- C20, as stated, fails: when `p` is itself an empty Path, `p.Join(e)` returns `e`, not
`p`; a blank `p` joined with the empty string gives the empty string. -/
theorem join_empty_counterexample :
    Path.Empty [' '] = true ∧ Path.Empty [] = true ∧ Path.Join [' '] [] = [] ∧
      Path.Join [' '] [] ≠ [' '] := by
  decide

/-- C20, amended. For an empty Path `e` (the empty or a white-space-only string):
`e.Join(p)` is `p` itself for every `p`; `p.Join(e)` is `p` itself for every `p` that is not
empty; and when `p` is empty too, `p.Join(e)` is `e`. -/
theorem join_empty_identity (p e : Path) (he : Path.Empty e = true) :
    Path.Join e p = p ∧ (Path.Empty p = false → Path.Join p e = p) ∧
      (Path.Empty p = true → Path.Join p e = e) := by
  refine ⟨?_, ?_, ?_⟩
  · simp [Path.Join, he]
  · intro hp
    simp [Path.Join, he, hp]
  · intro hp
    simp [Path.Join, hp]

/-- Witness of the amended C20 with `p = app.name` and a blank `e`. -/
theorem join_empty_identity_witness :
    Path.Join [' ', ' '] "app.name".toList = "app.name".toList ∧
      Path.Join "app.name".toList [' ', ' '] = "app.name".toList :=
  have h := join_empty_identity "app.name".toList [' ', ' '] (by decide)
  ⟨h.1, h.2.1 (by decide)⟩

/-- C14. `set` with an empty path (the empty or a white-space-only string) returns false and
leaves the store, its mapping and its root as they are. -/
theorem set_empty_path (fold : Char → Char) (c : Configuration) (p : Path) (v : Str)
    (hp : Path.Empty p = true) :
    c.set fold p v = (c, false) ∧ (c.set fold p v).1.mapping = c.mapping ∧
      (c.set fold p v).1.root = c.root := by
  simp [Configuration.set, hp]

/-- Witness of C14 on the store loaded from `app: (ports: [80, 443])` and a blank path. -/
theorem set_empty_path_witness :
    portsConfig.set asciiFold [' '] ['x'] = (portsConfig, false) ∧
      (portsConfig.set asciiFold [' '] ['x']).1.mapping = portsConfig.mapping ∧
      (portsConfig.set asciiFold [' '] ['x']).1.root = portsConfig.root :=
  set_empty_path asciiFold portsConfig [' '] ['x'] (by decide)

theorem resolve_set (fold : Char → Char) (c : Configuration) (p q : Path) (v : Str) :
    (c.set fold p v).1.resolve fold q = c.resolve fold q := by
  unfold Configuration.set
  split <;> rfl

theorem any_equals_put (fold : Char → Char) (m : ConfigMap) (k : Path) (v : Str) :
    (ConfigMap.put m k v).any (fun kv => Path.Equals fold kv.1 k) = true := by
  rw [List.any_eq_true]
  have hk : k ∈ (ConfigMap.put m k v).map Prod.fst := (mem_keys_put m k k v).2 (Or.inl rfl)
  obtain ⟨kv, hkv, rfl⟩ := List.mem_map.1 hk
  exact ⟨kv, hkv, equalFold_refl fold _⟩

/-- C13. Set/value round trip: for a non-empty path `p`, `set(p, v)` returns true, and
`value(p)` on the resulting store returns `v` without error, whether or not the path was
present before. -/
theorem set_value_round_trip (fold : Char → Char) (c : Configuration) (p : Path) (v : Str)
    (hp : Path.Empty p = false) :
    (c.set fold p v).2 = true ∧ (c.set fold p v).1.hasPath fold p = true ∧
      (c.set fold p v).1.value fold p = .ok v := by
  have hres := resolve_set fold c p p v
  have hset : c.set fold p v =
      ({ c with mapping := ConfigMap.put c.mapping (c.resolve fold p) v }, true) := by
    simp [Configuration.set, hp]
  have hhas : (c.set fold p v).1.hasPath fold p = true := by
    unfold Configuration.hasPath
    rw [hp, hres]
    simp only [Bool.false_eq_true, if_false]
    rw [hset]
    exact any_equals_put fold _ _ _
  refine ⟨by rw [hset], hhas, ?_⟩
  unfold Configuration.value
  rw [hhas, hres]
  simp only [Bool.not_true, Bool.false_eq_true, if_false]
  rw [hset]
  simp [ConfigMap.get, lookup_put_self]

/-- Witness of C13: `Set("a.b", "1")` on a loaded store, then `value("a.b")`. -/
theorem set_value_round_trip_witness :
    (portsConfig.set asciiFold "a.b".toList ['1']).2 = true ∧
      (portsConfig.set asciiFold "a.b".toList ['1']).1.hasPath asciiFold "a.b".toList = true ∧
      (portsConfig.set asciiFold "a.b".toList ['1']).1.value asciiFold "a.b".toList
        = .ok ['1'] :=
  set_value_round_trip asciiFold portsConfig "a.b".toList ['1'] (by decide)

theorem load_returned_state (w : World) (opt : Str) (st0 st1 : PkgState)
    (e : Option ConfigError) (h : Load w opt st0 = (st1, .returned e)) :
    st1.attempted = true ∧ st1.loadErr = e := by
  unfold Load at h
  split at h
  · rename_i ha
    simp only [Prod.mk.injEq, LoadResult.returned.injEq] at h
    obtain ⟨h1, h2⟩ := h
    subst h1
    exact ⟨ha, h2⟩
  · simp only at h
    split at h
    · simp only [Prod.mk.injEq, LoadResult.returned.injEq] at h
      obtain ⟨h1, h2⟩ := h
      subst h1
      exact ⟨rfl, h2⟩
    · split at h
      · simp at h
      · simp only [Prod.mk.injEq, LoadResult.returned.injEq] at h
        obtain ⟨h1, h2⟩ := h
        subst h1
        exact ⟨rfl, h2⟩
      · simp only [Prod.mk.injEq, LoadResult.returned.injEq] at h
        obtain ⟨h1, h2⟩ := h
        subst h1
        exact ⟨rfl, h2⟩

/-- C17. One-shot load: once a call of `Load` has returned, every later call, in any world and
with any options, returns the same error value (or nil) as that call and leaves the package
state, with `config`, its mapping and its root, unchanged; the result of the later call does
not depend on its world or options, the body is not run again. -/
theorem load_once (w w' : World) (opt opt' : Str) (st0 st1 : PkgState)
    (e : Option ConfigError) (h : Load w opt st0 = (st1, .returned e)) :
    Load w' opt' st1 = (st1, .returned e) ∧ (Load w' opt' st1).1.config = st1.config := by
  obtain ⟨h1, h2⟩ := load_returned_state w opt st0 st1 e h
  have : Load w' opt' st1 = (st1, .returned e) := by
    unfold Load
    rw [h1, h2]
    rfl
  exact ⟨this, by rw [this]⟩

/-- Witness of C17: a second `Load`, in a world without any file, after the load of
`app: (ports: [80, 443])`. -/
theorem load_once_witness :
    Load missingFileWorld "other.yaml".toList (Load portsWorld [] PkgState.initial).1 =
        ((Load portsWorld [] PkgState.initial).1, .returned none) ∧
      (Load missingFileWorld "other.yaml".toList (Load portsWorld [] PkgState.initial).1).1.config
        = (Load portsWorld [] PkgState.initial).1.config :=
  load_once portsWorld missingFileWorld [] "other.yaml".toList PkgState.initial
    (Load portsWorld [] PkgState.initial).1 none rfl

/-- C11, the code at the failing input: in the store loaded from `app: (Name: svc)` the key
`app.Name` Equals `resolve("app.name")`, `hasPath("app.name")` is true, and `value("app.name")`
returns the empty string with no error, although `svc` is stored under the key. -/
theorem value_misses_folded_key :
    (Load mixedCaseWorld [] PkgState.initial).1.config = some mixedCaseConfig ∧
      (Load mixedCaseWorld [] PkgState.initial).1.loadErr = none ∧
      Path.Equals asciiFold "app.Name".toList
        (mixedCaseConfig.resolve asciiFold "app.name".toList) = true ∧
      mixedCaseConfig.hasPath asciiFold "app.name".toList = true ∧
      ConfigMap.get mixedCaseConfig.mapping "app.Name".toList = "svc".toList ∧
      mixedCaseConfig.value asciiFold "app.name".toList = .ok [] := by
  refine ⟨rfl, rfl, by decide, by decide, by decide, rfl⟩

/-- C18, as stated, fails: `Load` on the document with the top-level keys `svc1` and `svc2`
returns the `multiple root paths defined` error, yet `config` has been stored and
`Value("svc1")` returns `1` with no error. -/
theorem value_after_failed_load_counterexample :
    (Load twoRootsWorld [] PkgState.initial).2 =
        .returned (some (.multipleRoots "svc2".toList)) ∧
      Value asciiFold (Load twoRootsWorld [] PkgState.initial).1 "svc1".toList =
        .ok "1".toList := by
  refine ⟨rfl, rfl⟩

/-- C18, amended. The accessors are gated on `config`: while it is nil, `Value`, `HasPath`,
`Set` and `Sub` each return `ErrNotInitialized`. It is nil before any `Load` and after a `Load`
that failed in `readConfig` or in `newConfigMap`. Once `config` is stored, `Value` of a path
that is not present fails with `ErrPathNotFound`. -/
theorem accessors_gated_on_config (fold : Char → Char) (w : World) (opt p v : Str) :
    (∀ st : PkgState, st.config = none →
        Value fold st p = .error .notInitialized ∧ HasPath fold st p = .error .notInitialized ∧
        (ConfigGo.Set fold st p v).2 = .error .notInitialized ∧
        (ConfigGo.Set fold st p v).1 = st ∧ Sub fold st p = .error .notInitialized) ∧
      PkgState.initial.config = none ∧
      (∀ e, readConfig w (if opt = [] then defaultFilePath else opt) = .error e →
        (Load w opt PkgState.initial).1.config = none ∧
        (Load w opt PkgState.initial).2 = .returned (some e)) ∧
      (∀ raw path d, readConfig w (if opt = [] then defaultFilePath else opt) = .ok raw →
        newConfigMap raw = .error path d →
        (Load w opt PkgState.initial).1.config = none ∧
        (Load w opt PkgState.initial).2 = .returned (some (.unknownValueType path d))) ∧
      (∀ (st : PkgState) (c : Configuration), st.config = some c → c.hasPath fold p = false →
        Value fold st p = .error (.pathNotFound "value".toList (Path.String p))) := by
  refine ⟨?_, rfl, ?_, ?_, ?_⟩
  · intro st h
    simp [Value, HasPath, ConfigGo.Set, Sub, h]
  · intro e h
    simp [Load, PkgState.initial, h]
  · intro raw path d h1 h2
    simp [Load, PkgState.initial, h1, h2]
  · intro st c h1 h2
    simp [Value, h1, Configuration.value, h2]

/-- Witness of the amended C18: before any `Load`, and after a `Load` of a file that cannot be
read, `Value` fails with `ErrNotInitialized`; on a loaded store a missing path fails with
`ErrPathNotFound`. -/
theorem accessors_gated_on_config_witness :
    Value asciiFold PkgState.initial "missing.path".toList = .error .notInitialized ∧
      Value asciiFold (Load unreadableFileWorld [] PkgState.initial).1 "missing.path".toList =
        .error .notInitialized ∧
      Value asciiFold (Load portsWorld [] PkgState.initial).1 "missing.path".toList =
        .error (.pathNotFound "value".toList "missing.path".toList) :=
  have h := accessors_gated_on_config asciiFold unreadableFileWorld [] "missing.path".toList []
  ⟨(h.1 PkgState.initial rfl).1,
    (h.1 _ (h.2.2.1 (.fileRead "application.yaml".toList false) rfl).1).1,
    h.2.2.2.2 (Load portsWorld [] PkgState.initial).1 portsConfig rfl (by decide)⟩

theorem fileExtension_mem_dot : ∀ (s : Str), fileExtension s ≠ [] → '.' ∈ s
  | [], h => by simp [fileExtension] at h
  | c :: s, h => by
    rw [fileExtension] at h
    split at h
    · rename_i hc
      simp [hc.1]
    · exact List.mem_cons_of_mem _ (fileExtension_mem_dot s h)

theorem readConfig_yaml (w : World) (fp : Str)
    (hext : fileExtension fp = ".yaml".toList ∨ fileExtension fp = ".yml".toList) :
    readConfig w fp =
      match w.readFile fp with
      | .doc d => .ok d
      | .notExist => .error (.fileRead fp true)
      | .readError => .error (.fileRead fp false)
      | .parseError => .error .yamlParse := by
  have hne : fileExtension fp ≠ [] := by
    rcases hext with h | h <;> rw [h] <;> decide
  have hblank : trimSpace fp ≠ [] :=
    trimSpace_ne_nil_of_mem (fileExtension_mem_dot fp hne) (by decide)
  have hjson : fileExtension fp ≠ ".json".toList := by
    rcases hext with h | h <;> rw [h] <;> decide
  unfold readConfig readConfigAndThen
  rw [if_neg hjson, if_pos hext, if_neg hblank]

/-- C19, as stated, fails: when the file does not exist, `Load` of `src/pkg/config.go`
returns nil, with an empty mapping under the default root `config`. -/
theorem pkg_load_missing_file_counterexample :
    Pkg.Load asciiFold missingFileWorld "app.yaml".toList PkgState.initial =
      (⟨true, some ⟨"app.yaml".toList, [], "config".toList⟩, none⟩, .returned none) := by
  rfl

/-- C19, amended. In `Load` of `src/pkg/config.go`, for a `.yaml` or `.yml` file path: when
reading the file fails for a reason other than the file not existing, or its content fails to
parse, `Load` returns a non-nil error, stores no configuration, and every later `Load` call
returns that error; when the file does not exist, `Load` returns nil and stores an empty
mapping under the default root. -/
theorem pkg_load_read_failure (fold : Char → Char) (w w' : World) (opt opt' : Str)
    (hext : fileExtension (if opt = [] then defaultFilePath else opt) = ".yaml".toList ∨
      fileExtension (if opt = [] then defaultFilePath else opt) = ".yml".toList) :
    (w.readFile (if opt = [] then defaultFilePath else opt) = .readError ∨
        w.readFile (if opt = [] then defaultFilePath else opt) = .parseError →
      ∃ e, (Pkg.Load fold w opt PkgState.initial).2 = .returned (some e) ∧
        (Pkg.Load fold w opt PkgState.initial).1.config = none ∧
        Pkg.Load fold w' opt' (Pkg.Load fold w opt PkgState.initial).1 =
          ((Pkg.Load fold w opt PkgState.initial).1, .returned (some e))) ∧
      (w.readFile (if opt = [] then defaultFilePath else opt) = .notExist →
        Pkg.Load fold w opt PkgState.initial =
          (⟨true, some ⟨if opt = [] then defaultFilePath else opt, [], Pkg.defaultRoot⟩, none⟩,
            .returned none)) := by
  have hread := readConfig_yaml w _ hext
  constructor
  · rintro (h | h)
    · rw [h] at hread
      refine ⟨.fileRead (if opt = [] then defaultFilePath else opt) false, ?_, ?_, ?_⟩ <;>
        simp [Pkg.Load, PkgState.initial, hread, isNotExist]
    · rw [h] at hread
      refine ⟨.yamlParse, ?_, ?_, ?_⟩ <;>
        simp [Pkg.Load, PkgState.initial, hread, isNotExist]
  · intro h
    rw [h] at hread
    simp only [Pkg.Load, PkgState.initial, hread, isNotExist, Bool.false_eq_true, if_false,
      Bool.not_true]
    rfl

/-- Witness of the amended C19: a file that cannot be read. -/
theorem pkg_load_read_failure_witness :
    ∃ e, (Pkg.Load asciiFold unreadableFileWorld "app.yaml".toList PkgState.initial).2 =
        .returned (some e) ∧
      (Pkg.Load asciiFold unreadableFileWorld "app.yaml".toList PkgState.initial).1.config
        = none ∧
      Pkg.Load asciiFold portsWorld []
          (Pkg.Load asciiFold unreadableFileWorld "app.yaml".toList PkgState.initial).1 =
        ((Pkg.Load asciiFold unreadableFileWorld "app.yaml".toList PkgState.initial).1,
          .returned (some e)) :=
  (pkg_load_read_failure asciiFold unreadableFileWorld portsWorld "app.yaml".toList []
    (by decide)).1 (Or.inl rfl)

theorem head_trimSpace (s : Str) (a : Char) (h : (trimSpace s).head? = some a) :
    isSpace a = false :=
  dropWhile_head_false isSpace s a (rdropWhile_head isSpace _ a h)

theorem getLast_trimSpace (s : Str) (a : Char) (h : (trimSpace s).getLast? = some a) :
    isSpace a = false :=
  rdropWhile_getLast_false isSpace _ a h

theorem join_of_not_empty (p q : Path) (hp : Path.Empty p = false) (hq : Path.Empty q = false) :
    Path.Join p q = Path.String p ++ '.' :: Path.String q := by
  simp [Path.Join, hp, hq]

theorem trimSpace_join (p q : Path) (hp : Path.Empty p = false) (hq : Path.Empty q = false) :
    trimSpace (Path.Join p q) = Path.Join p q := by
  have hp' : trimSpace p ≠ [] := by simpa [Path.Empty, Path.String] using hp
  have hq' : trimSpace q ≠ [] := by simpa [Path.Empty, Path.String] using hq
  rw [join_of_not_empty p q hp hq]
  unfold Path.String
  apply trimSpace_eq_self
  · intro a ha
    apply head_trimSpace p a
    cases hx : trimSpace p with
    | nil => exact absurd hx hp'
    | cons c t => rw [hx] at ha; simpa using ha
  · intro a ha
    apply getLast_trimSpace q a
    have e : trimSpace p ++ '.' :: trimSpace q = (trimSpace p ++ ['.']) ++ trimSpace q := by
      simp
    rw [e, List.getLast?_append_of_ne_nil _ hq'] at ha
    exact ha

theorem resolve_of_relative (fold : Char → Char) (c : Configuration) (q : Path)
    (h1 : Path.Equals fold q c.root = false)
    (h2 : hasPrefix (Path.String q) (Path.String c.root ++ ['.']) = false) :
    c.resolve fold q = Path.Join c.root q := by
  simp [Configuration.resolve, h1, h2]

theorem resolve_join (fold : Char → Char) (c : Configuration) (q : Path)
    (hroot : Path.Empty c.root = false) (hq : Path.Empty q = false) :
    c.resolve fold (Path.Join c.root q) = Path.Join c.root q := by
  have ht := trimSpace_join c.root q hroot hq
  have hj := join_of_not_empty c.root q hroot hq
  unfold Configuration.resolve
  split
  · rfl
  · have hpre : hasPrefix (Path.String (Path.Join c.root q)) (Path.String c.root ++ ['.'])
        = true := by
      unfold hasPrefix
      rw [show Path.String (Path.Join c.root q) = Path.Join c.root q from ht, hj]
      exact List.isPrefixOf_iff_prefix.2 ⟨Path.String q, by simp⟩
    simp [hpre]

theorem empty_join (p q : Path) (hp : Path.Empty p = false) (hq : Path.Empty q = false) :
    Path.Empty (Path.Join p q) = false := by
  have ht := trimSpace_join p q hp hq
  unfold Path.Empty Path.String
  rw [ht, join_of_not_empty p q hp hq]
  simp

/-- C12. Root-relative and root-qualified addressing are interchangeable. For a store with a
non-empty root `r` and a non-empty root-relative path `q` (one that neither Equals the root nor
begins with `r.`): both `q` and `r.Join(q)` resolve to `r.Join(q)`,
`hasPath(q) = hasPath(r.Join(q))`, and `value(q)` and `value(r.Join(q))` return the same string
with no error when the path is present and both fail with `ErrPathNotFound` when it is not
(the `PathError` echoes the path as it was supplied). -/
theorem root_relative_addressing (fold : Char → Char) (c : Configuration) (q : Path)
    (hroot : Path.Empty c.root = false) (hq : Path.Empty q = false)
    (hrel1 : Path.Equals fold q c.root = false)
    (hrel2 : hasPrefix (Path.String q) (Path.String c.root ++ ['.']) = false) :
    c.resolve fold q = Path.Join c.root q ∧
      c.resolve fold (Path.Join c.root q) = Path.Join c.root q ∧
      c.hasPath fold q = c.hasPath fold (Path.Join c.root q) ∧
      (c.hasPath fold q = true →
        c.value fold q = .ok (ConfigMap.get c.mapping (Path.Join c.root q)) ∧
        c.value fold (Path.Join c.root q) =
          .ok (ConfigMap.get c.mapping (Path.Join c.root q))) ∧
      (c.hasPath fold q = false →
        c.value fold q = .error (.pathNotFound "value".toList (Path.String q)) ∧
        c.value fold (Path.Join c.root q) =
          .error (.pathNotFound "value".toList (Path.String (Path.Join c.root q)))) ∧
      (c.value fold q).toOption = (c.value fold (Path.Join c.root q)).toOption := by
  have hr1 := resolve_of_relative fold c q hrel1 hrel2
  have hr2 := resolve_join fold c q hroot hq
  have hej := empty_join c.root q hroot hq
  have hhas : c.hasPath fold q = c.hasPath fold (Path.Join c.root q) := by
    unfold Configuration.hasPath
    rw [hq, hej, hr1, hr2]
  have hpresent : c.hasPath fold q = true →
      c.value fold q = .ok (ConfigMap.get c.mapping (Path.Join c.root q)) ∧
      c.value fold (Path.Join c.root q) =
        .ok (ConfigMap.get c.mapping (Path.Join c.root q)) := by
    intro h
    have h' := hhas ▸ h
    constructor
    · unfold Configuration.value
      rw [h, hr1]
      rfl
    · unfold Configuration.value
      rw [h', hr2]
      rfl
  have habsent : c.hasPath fold q = false →
      c.value fold q = .error (.pathNotFound "value".toList (Path.String q)) ∧
      c.value fold (Path.Join c.root q) =
        .error (.pathNotFound "value".toList (Path.String (Path.Join c.root q))) := by
    intro h
    have h' := hhas ▸ h
    constructor
    · unfold Configuration.value
      rw [h]
      rfl
    · unfold Configuration.value
      rw [h']
      rfl
  refine ⟨hr1, hr2, hhas, hpresent, habsent, ?_⟩
  cases h : c.hasPath fold q with
  | true => rw [(hpresent h).1, (hpresent h).2]
  | false =>
    rw [(habsent h).1, (habsent h).2]
    rfl

/-- Witness of C12 on the store loaded from `app: (ports: [80, 443])` and the root-relative
path `ports`. -/
theorem root_relative_addressing_witness :
    portsConfig.resolve asciiFold "ports".toList = "app.ports".toList ∧
      portsConfig.hasPath asciiFold "ports".toList =
        portsConfig.hasPath asciiFold "app.ports".toList ∧
      portsConfig.value asciiFold "ports".toList = .ok [] ∧
      portsConfig.value asciiFold "app.ports".toList = .ok [] :=
  have h := root_relative_addressing asciiFold portsConfig "ports".toList
    (by decide) (by decide) (by decide) (by decide)
  ⟨h.1, h.2.2.1, (h.2.2.2.1 (by decide)).1, (h.2.2.2.1 (by decide)).2⟩

theorem trimSpace_of_isTrimmed : ∀ (s : Str), isTrimmed s = true → trimSpace s = s
  | [], _ => rfl
  | c :: t, h => by
    unfold isTrimmed at h
    have hl : (c :: t).getLast? = some ((c :: t).getLast (by simp)) :=
      List.getLast?_eq_getLast _ _
    rw [hl] at h
    simp only [List.head?_cons, Bool.and_eq_true, Bool.not_eq_true'] at h
    apply trimSpace_eq_self
    · intro a ha
      simp only [List.head?_cons, Option.some.injEq] at ha
      exact ha ▸ h.1
    · intro a ha
      rw [hl] at ha
      simp only [Option.some.injEq] at ha
      exact ha ▸ h.2

theorem dot_not_mem_firstSegment (k : Str) : '.' ∉ firstSegment k := by
  intro h
  have := List.mem_takeWhile_imp h
  simp at this

theorem firstSegment_of_not_mem (k : Str) (h : '.' ∉ k) : firstSegment k = k :=
  takeWhile_ne_of_not_mem '.' k h

theorem firstSegment_append (seg rest : Str) (h : '.' ∉ seg) :
    firstSegment (seg ++ '.' :: rest) = seg :=
  takeWhile_dot_append seg rest h

/-- On a key whose first segment carries no surrounding white space, `keys` cuts out exactly
the first segment. -/
theorem topLevelKey_eq_firstSegment (k : Str) (h : isTrimmed (firstSegment k) = true) :
    topLevelKey k = firstSegment k := by
  by_cases hd : '.' ∈ k
  · obtain ⟨seg, rest, hk, hseg, hfs, -⟩ := split_at_first '.' k hd
    have hfs' : firstSegment k = seg := hfs
    rw [hfs'] at h ⊢
    have hhead : ∀ a, k.head? = some a → isSpace a = false := by
      intro a ha
      rw [hk] at ha
      cases seg with
      | nil =>
        simp at ha
        subst ha
        decide
      | cons c t =>
        simp only [List.cons_append, List.head?_cons, Option.some.injEq] at ha
        have ht := trimSpace_of_isTrimmed _ h
        have := head_trimSpace (c :: t) a (by rw [ht]; simpa using ha)
        exact this
    have hdrop : k.dropWhile isSpace = k := dropWhile_eq_self_of_head hhead
    have ht_mem : '.' ∈ trimSpace k := mem_trimSpace_of_not_space hd (by decide)
    obtain ⟨u, hu⟩ : trimSpace k <+: k := by
      unfold trimSpace
      rw [hdrop]
      exact List.rdropWhile_prefix isSpace k
    obtain ⟨seg', rest', ht, hseg', hfs2, -⟩ := split_at_first '.' (trimSpace k) ht_mem
    have hk2 : k = seg' ++ '.' :: (rest' ++ u) := by
      rw [← hu, ht]
      simp
    have hseg_eq : seg' = seg := by
      have e1 := firstSegment_append seg' (rest' ++ u) hseg'
      rw [← hk2, hfs'] at e1
      exact e1.symm
    unfold topLevelKey Path.String
    rw [if_pos ht_mem, hfs2, hseg_eq, hk]
    simp
  · rw [firstSegment_of_not_mem k hd] at h ⊢
    unfold topLevelKey Path.String
    rw [trimSpace_of_isTrimmed k h, if_neg hd]

theorem inferRootStep_blank (st : RootScan) : inferRootStep st [] = st := by
  have h0 : trimSpace ((stringsSplit (Path.String []) ['.']).headD []) = [] := by decide
  unfold inferRootStep
  split
  · rfl
  · simp only [h0, ne_eq, not_true_eq_false, if_false]

theorem inferRootStep_other (root x : Str) (e : Option ConfigError) (hr : root ≠ [])
    (hrt : trimSpace root = root) (hx : isTrimmed x = true) (hd : '.' ∉ x) (hne : x ≠ [])
    (hxr : x ≠ root) :
    inferRootStep ⟨root, e, false⟩ x = ⟨root, some (.multipleRoots x), false⟩ := by
  have h1 := trimSpace_of_isTrimmed x hx
  have h2 : stringsSplit x ['.'] = [x] := by
    simp [stringsSplit, splitGo_dot_of_not_mem x hd]
  have hempty : Path.Empty root = false := by
    simp [Path.Empty, Path.String, hrt, hr]
  unfold inferRootStep
  simp only [Path.String, h1, h2, List.headD_cons, Bool.false_eq_true, if_false, hempty,
    hrt, ne_eq, hne, not_false_eq_true, if_true, Ne.symm hxr]

theorem inferRootStep_set (x : Str) (e : Option ConfigError) (hx : isTrimmed x = true)
    (hd : '.' ∉ x) (hne : x ≠ []) :
    inferRootStep ⟨[], e, false⟩ x = ⟨x, e, false⟩ := by
  have h1 := trimSpace_of_isTrimmed x hx
  have h2 : stringsSplit x ['.'] = [x] := by
    simp [stringsSplit, splitGo_dot_of_not_mem x hd]
  have hempty : Path.Empty ([] : Str) = true := by decide
  unfold inferRootStep
  simp only [Path.String, h1, h2, List.headD_cons, Bool.false_eq_true, if_false, hempty,
    ne_eq, hne, not_false_eq_true, if_true]

/-- The root loop once the root is set, over keys that all differ from it. -/
theorem scan_with_root (root : Str) (hr : root ≠ []) (hrt : trimSpace root = root) :
    ∀ (L : List Str) (e : Option ConfigError),
    (∀ x ∈ L, isTrimmed x = true ∧ '.' ∉ x ∧ x ≠ root) →
    ∃ e', L.foldl inferRootStep ⟨root, e, false⟩ = ⟨root, e', false⟩ ∧
      ((∃ x ∈ L, x ≠ []) → ∃ s, e' = some (.multipleRoots s)) ∧
      ((∀ x ∈ L, x = []) → e' = e)
  | [], e, _ => ⟨e, rfl, by simp, fun _ => rfl⟩
  | x :: L, e, h => by
    have hx := h x (by simp)
    have hL : ∀ y ∈ L, isTrimmed y = true ∧ '.' ∉ y ∧ y ≠ root :=
      fun y hy => h y (List.mem_cons_of_mem _ hy)
    by_cases hne : x = []
    · subst hne
      obtain ⟨e', h1, h2, h3⟩ := scan_with_root root hr hrt L e hL
      refine ⟨e', by rw [List.foldl_cons, inferRootStep_blank]; exact h1, ?_, ?_⟩
      · rintro ⟨y, hy, hyn⟩
        rcases List.mem_cons.1 hy with rfl | hy
        · exact absurd rfl hyn
        · exact h2 ⟨y, hy, hyn⟩
      · intro hall
        exact h3 (fun y hy => hall y (List.mem_cons_of_mem _ hy))
    · obtain ⟨e', h1, h2, h3⟩ :=
        scan_with_root root hr hrt L (some (.multipleRoots x)) hL
      refine ⟨e', ?_, ?_, ?_⟩
      · rw [List.foldl_cons, inferRootStep_other root x e hr hrt hx.1 hx.2.1 hne hx.2.2]
        exact h1
      · intro _
        by_cases hex : ∃ y ∈ L, y ≠ []
        · exact h2 hex
        · have hall : ∀ y ∈ L, y = [] := by
            intro y hy
            by_contra hyn
            exact hex ⟨y, hy, hyn⟩
          exact ⟨x, h3 hall⟩
      · intro hall
        exact absurd (hall x (by simp)) hne

/-- The root loop from the empty root over distinct top-level keys. -/
theorem scan_from_empty : ∀ (L : List Str) (e : Option ConfigError), L.Nodup →
    (∀ x ∈ L, isTrimmed x = true ∧ '.' ∉ x) →
    ∃ r e', L.foldl inferRootStep ⟨[], e, false⟩ = ⟨r, e', false⟩ ∧
      (∀ a ∈ L, ∀ b ∈ L, a ≠ [] → b ≠ [] → a ≠ b → ∃ s, e' = some (.multipleRoots s)) ∧
      ((∀ x ∈ L, x = []) → r = [] ∧ e' = e) ∧
      (∀ s, s ≠ [] → s ∈ L → (∀ x ∈ L, x ≠ [] → x = s) → r = s ∧ e' = e) ∧
      ((∃ x ∈ L, x ≠ []) → r ≠ []) ∧
      (r = [] ∨ r ∈ L)
  | [], e, _, _ => ⟨[], e, rfl, by simp, fun _ => ⟨rfl, rfl⟩, by simp, by simp, Or.inl rfl⟩
  | x :: L, e, hn, h => by
    have hx := h x (by simp)
    have hL : ∀ y ∈ L, isTrimmed y = true ∧ '.' ∉ y :=
      fun y hy => h y (List.mem_cons_of_mem _ hy)
    obtain ⟨hxL, hnL⟩ := List.nodup_cons.1 hn
    by_cases hne : x = []
    · subst hne
      obtain ⟨r, e', h1, h2, h3, h4, h5, h6⟩ := scan_from_empty L e hnL hL
      refine ⟨r, e', by rw [List.foldl_cons, inferRootStep_blank]; exact h1, ?_, ?_, ?_, ?_, ?_⟩
      · intro a ha b hb han hbn hab
        rcases List.mem_cons.1 ha with rfl | ha
        · exact absurd rfl han
        · rcases List.mem_cons.1 hb with rfl | hb
          · exact absurd rfl hbn
          · exact h2 a ha b hb han hbn hab
      · intro hall
        exact h3 (fun y hy => hall y (List.mem_cons_of_mem _ hy))
      · intro s hs hsm hall
        rcases List.mem_cons.1 hsm with rfl | hsm
        · exact absurd rfl hs
        · exact h4 s hs hsm (fun y hy => hall y (List.mem_cons_of_mem _ hy))
      · rintro ⟨y, hy, hyn⟩
        rcases List.mem_cons.1 hy with rfl | hy
        · exact absurd rfl hyn
        · exact h5 ⟨y, hy, hyn⟩
      · exact h6.imp id (List.mem_cons_of_mem _)
    · have hrt := trimSpace_of_isTrimmed x hx.1
      obtain ⟨e', h1, h2, h3⟩ := scan_with_root x hne hrt L e
        (fun y hy => ⟨(hL y hy).1, (hL y hy).2, fun e' => hxL (e' ▸ hy)⟩)
      refine ⟨x, e', ?_, ?_, ?_, ?_, fun _ => hne, Or.inr (by simp)⟩
      · rw [List.foldl_cons, inferRootStep_set x e hx.1 hx.2 hne]
        exact h1
      · intro a ha b hb han hbn hab
        apply h2
        rcases List.mem_cons.1 ha with rfl | ha
        · rcases List.mem_cons.1 hb with rfl | hb
          · exact absurd rfl hab
          · exact ⟨b, hb, hbn⟩
        · exact ⟨a, ha, han⟩
      · intro hall
        exact absurd (hall x (by simp)) hne
      · intro s _ _ hall
        have hxs : x = s := hall x (by simp) hne
        refine ⟨hxs, h3 ?_⟩
        intro y hy
        by_contra hyn
        have := hall y (List.mem_cons_of_mem _ hy) hyn
        exact hxL (hxs ▸ this ▸ hy)

/-- The top-level keys of an interpolated mapping whose first segments carry no surrounding
white space are its distinct first segments. -/
theorem keys_of_trimmed (m : ConfigMap) (g : Str → Str)
    (hkeys : ∀ kv ∈ m, isTrimmed (firstSegment kv.1) = true) :
    ConfigMap.keys (m.map (fun kv => (kv.1, g kv.2))) =
      (m.map (fun kv => firstSegment kv.1)).dedup := by
  unfold ConfigMap.keys
  rw [List.map_map]
  congr 1
  apply List.map_congr_left
  intro kv hkv
  exact topLevelKey_eq_firstSegment kv.1 (hkeys kv hkv)

/-- The result of `Load` in terms of the final state of its root loop. -/
theorem load_of_scan (w : World) (opt : Str) (raw : List (Str × Node)) (m : ConfigMap)
    (hread : readConfig w (if opt = [] then defaultFilePath else opt) = .ok raw)
    (hflat : newConfigMap raw = .ok m)
    (hkeys : ∀ kv ∈ m, isTrimmed (firstSegment kv.1) = true) (r : Str)
    (e : Option ConfigError)
    (hscan : ((m.map (fun kv => firstSegment kv.1)).dedup).foldl inferRootStep
      ⟨[], none, false⟩ = ⟨r, e, false⟩) :
    Load w opt PkgState.initial =
      (⟨true, some ⟨if opt = [] then defaultFilePath else opt,
          m.map (fun kv => (kv.1, interpolate w.env kv.2)), r⟩,
        if r = [] then some .rootUndefined else e⟩,
       .returned (if r = [] then some .rootUndefined else e)) := by
  unfold Load
  simp only [PkgState.initial, Bool.false_eq_true, if_false, hread, hflat,
    keys_of_trimmed m (interpolate w.env) hkeys, hscan]

/-- The distinct first segments of a mapping are pairwise distinct, dot-free, and as trimmed
as the first segments they come from. -/
theorem firstSegments_facts (m : ConfigMap)
    (hkeys : ∀ kv ∈ m, isTrimmed (firstSegment kv.1) = true) :
    ((m.map (fun kv => firstSegment kv.1)).dedup).Nodup ∧
      ∀ x ∈ (m.map (fun kv => firstSegment kv.1)).dedup, isTrimmed x = true ∧ '.' ∉ x := by
  refine ⟨List.nodup_dedup _, ?_⟩
  intro x hx
  obtain ⟨kv, hkv, rfl⟩ := List.mem_map.1 (List.mem_dedup.1 hx)
  exact ⟨hkeys kv hkv, dot_not_mem_firstSegment kv.1⟩

theorem firstSegment_mem (m : ConfigMap) (kv : Path × Str) (h : kv ∈ m) :
    firstSegment kv.1 ∈ (m.map (fun kv => firstSegment kv.1)).dedup :=
  List.mem_dedup.2 (List.mem_map.2 ⟨kv, h, rfl⟩)

/-- C15. Root inference in `Load`, for a document whose flattened mapping `m` has keys with
first segments free of surrounding white space. If two keys have distinct non-blank first
segments, `Load` returns the `multiple root paths defined` error. If `m` has no keys at all,
`Load` returns the `root path is undefined` error. If `m` has keys and every key has the
non-blank first segment `s`, `Load` returns no error and the stored root is `s`. -/
theorem load_root_inference (w : World) (opt : Str) (raw : List (Str × Node)) (m : ConfigMap)
    (hread : readConfig w (if opt = [] then defaultFilePath else opt) = .ok raw)
    (hflat : newConfigMap raw = .ok m)
    (hkeys : ∀ kv ∈ m, isTrimmed (firstSegment kv.1) = true) :
    ((∃ a ∈ m, ∃ b ∈ m, firstSegment a.1 ≠ [] ∧ firstSegment b.1 ≠ [] ∧
        firstSegment a.1 ≠ firstSegment b.1) →
      ∃ s, (Load w opt PkgState.initial).2 = .returned (some (.multipleRoots s))) ∧
    (m = [] → (Load w opt PkgState.initial).2 = .returned (some .rootUndefined)) ∧
    (∀ s, s ≠ [] → (∃ kv ∈ m, firstSegment kv.1 = s) → (∀ kv ∈ m, firstSegment kv.1 = s) →
      ∃ c, Load w opt PkgState.initial = (⟨true, some c, none⟩, .returned none) ∧
        c.root = s) := by
  obtain ⟨hnd, hL⟩ := firstSegments_facts m hkeys
  obtain ⟨r, e, h1, h2, h3, h4, h5, -⟩ := scan_from_empty _ none hnd hL
  have hload := load_of_scan w opt raw m hread hflat hkeys r e h1
  refine ⟨?_, ?_, ?_⟩
  · rintro ⟨a, ha, b, hb, han, hbn, hab⟩
    obtain ⟨s, hs⟩ := h2 _ (firstSegment_mem m a ha) _ (firstSegment_mem m b hb) han hbn hab
    have hr : r ≠ [] := h5 ⟨_, firstSegment_mem m a ha, han⟩
    exact ⟨s, by rw [hload, if_neg hr, hs]⟩
  · intro hm
    subst hm
    obtain ⟨hr, -⟩ := h3 (by simp)
    rw [hload, if_pos hr]
  · rintro s hs ⟨kv, hkv, hseg⟩ hall
    obtain ⟨hr, he⟩ := h4 s hs (hseg ▸ firstSegment_mem m kv hkv) (by
      intro x hx _
      obtain ⟨kv', hkv', rfl⟩ := List.mem_map.1 (List.mem_dedup.1 hx)
      exact hall kv' hkv')
    refine ⟨⟨if opt = [] then defaultFilePath else opt,
      m.map (fun kv => (kv.1, interpolate w.env kv.2)), r⟩, ?_, hr⟩
    have hrn : r ≠ [] := hr ▸ hs
    rw [hload, he]
    simp only [if_neg hrn]

/-- C15 at the document with the top-level keys `svc1` and `svc2`. -/
theorem load_root_inference_witness :
    ∃ s, (Load twoRootsWorld [] PkgState.initial).2 = .returned (some (.multipleRoots s)) :=
  (load_root_inference twoRootsWorld [] twoRootsDoc
    [("svc1".toList, "1".toList), ("svc2".toList, "2".toList)] rfl rfl (by decide)).1
    ⟨("svc1".toList, "1".toList), by simp, ("svc2".toList, "2".toList), by simp,
      by decide, by decide, by decide⟩

/-- C16, as stated, fails: on the document with the top-level keys `""` and `app`, `Load`
returns no error and stores the root `app`, while the loaded mapping holds the key `""`, whose
first segment is blank. -/
theorem load_blank_key_counterexample :
    ∃ c : Configuration,
      Load blankKeyWorld [] PkgState.initial = (⟨true, some c, none⟩, .returned none) ∧
      c.root = "app".toList ∧ ∃ kv ∈ c.mapping, firstSegment kv.1 ≠ c.root :=
  ⟨⟨defaultFilePath, [([], "1".toList), ("app".toList, "2".toList)], "app".toList⟩, rfl, rfl,
    ([], "1".toList), by simp, by decide⟩

/-- C16, amended. For a document whose flattened mapping `m` has keys with non-blank first
segments free of surrounding white space: when `Load` returns no error, a store has been
saved, its root is not empty, and every key of its mapping has the root as first segment. -/
theorem load_root_invariant (w : World) (opt : Str) (raw : List (Str × Node)) (m : ConfigMap)
    (hread : readConfig w (if opt = [] then defaultFilePath else opt) = .ok raw)
    (hflat : newConfigMap raw = .ok m)
    (hkeys : ∀ kv ∈ m, firstSegment kv.1 ≠ [] ∧ isTrimmed (firstSegment kv.1) = true)
    (hok : (Load w opt PkgState.initial).2 = .returned none) :
    ∃ c, (Load w opt PkgState.initial).1.config = some c ∧ c.root ≠ [] ∧
      ∀ kv ∈ c.mapping, firstSegment kv.1 = c.root := by
  have hkeys' : ∀ kv ∈ m, isTrimmed (firstSegment kv.1) = true := fun kv h => (hkeys kv h).2
  obtain ⟨hnd, hL⟩ := firstSegments_facts m hkeys'
  obtain ⟨r, e, h1, h2, -, -, -, h6⟩ := scan_from_empty _ none hnd hL
  have hload := load_of_scan w opt raw m hread hflat hkeys' r e h1
  rw [hload] at hok ⊢
  simp only [LoadResult.returned.injEq] at hok
  have hr : r ≠ [] := by
    intro hr
    rw [if_pos hr] at hok
    exact absurd hok (by simp)
  rw [if_neg hr] at hok
  have hrL := h6.resolve_left hr
  refine ⟨_, rfl, hr, ?_⟩
  intro kv hkv
  obtain ⟨kv', hkv', rfl⟩ := List.mem_map.1 hkv
  by_contra hne
  obtain ⟨s, hs⟩ := h2 _ (firstSegment_mem m kv' hkv') r hrL (hkeys kv' hkv').1 hr hne
  rw [hs] at hok
  exact absurd hok (by simp)

/-- C16, amended, at the document `app: (ports: [80, 443])`. -/
theorem load_root_invariant_witness :
    ∃ c, (Load portsWorld [] PkgState.initial).1.config = some c ∧ c.root ≠ [] ∧
      ∀ kv ∈ c.mapping, firstSegment kv.1 = c.root :=
  load_root_invariant portsWorld [] portsDoc portsConfig.mapping rfl rfl (by decide) rfl

theorem asciiFold_toLower (ch : Char) : asciiFold ch.toLower = asciiFold ch := by
  unfold Char.toLower
  by_cases h : ch.toNat ≥ 65 ∧ ch.toNat ≤ 90
  · have hu : ch.isUpper = true := by
      simp only [Char.isUpper, Bool.and_eq_true, decide_eq_true_eq]
      exact h
    simp only [h, and_self, if_true]
    conv_rhs => unfold asciiFold
    rw [if_pos hu]
    obtain ⟨h1, h2⟩ := h
    generalize ch.toNat = n at h1 h2
    interval_cases n <;> rfl
  · simp only [h, if_false]

theorem put_of_fresh : ∀ (m : ConfigMap) (k : Path) (v : Str), (∀ kv ∈ m, kv.1 ≠ k) →
    ConfigMap.put m k v = m ++ [(k, v)]
  | [], _, _, _ => rfl
  | (k', v') :: m, k, v, h => by
    have hne : k' ≠ k := h (k', v') (by simp)
    simp only [ConfigMap.put, if_neg hne, List.cons_append]
    rw [put_of_fresh m k v (fun kv hkv => h kv (List.mem_cons_of_mem _ hkv))]

/-- C21. `Path.Equals` is an equivalence relation, for every folding table; and when the
table folds each letter with its lower-case form, two paths whose trimmed strings differ only
in letter case are Equal. -/
theorem path_equals_equivalence (fold : Char → Char) (a b c : Path) :
    Path.Equals fold a a = true ∧
      (Path.Equals fold a b = true → Path.Equals fold b a = true) ∧
      (Path.Equals fold a b = true → Path.Equals fold b c = true →
        Path.Equals fold a c = true) ∧
      ((∀ ch : Char, fold ch.toLower = fold ch) →
        (Path.String a).map Char.toLower = (Path.String b).map Char.toLower →
        Path.Equals fold a b = true) := by
  simp only [Path.Equals, equalFold, decide_eq_true_eq]
  refine ⟨trivial, fun h => h.symm, fun h1 h2 => h1.trans h2, ?_⟩
  intro hfold hcase
  have e : ∀ s : Str, s.map fold = (s.map Char.toLower).map fold := by
    intro s
    rw [List.map_map]
    exact List.map_congr_left (fun ch _ => (hfold ch).symm)
  rw [e (Path.String a), e (Path.String b), hcase]

/-- Witness of C21: ` App.Name ` and `app.name` are Equal under the ASCII folding table. -/
theorem path_equals_equivalence_witness :
    Path.Equals asciiFold " App.Name ".toList "app.name".toList = true :=
  (path_equals_equivalence asciiFold " App.Name ".toList "app.name".toList []).2.2.2
    asciiFold_toLower (by decide)

/-- C24, the code at the failing input: `flatten` stores for the float `1.168` (and for every
other float) the string `<float64 Value>` that `reflect.Value.String` returns for a value
that is not a string, not its decimal representation; `Value` then returns that string. -/
theorem flatten_float_stores_kind_name :
    flatten "value.float".toList (.float64 4607939023537415651) [] =
        .ok [("value.float".toList, "<float64 Value>".toList)] ∧
      (∀ (path : Str) (bits : Nat) (data : ConfigMap),
        flatten path (.float64 bits) data =
          .ok (ConfigMap.put data path "<float64 Value>".toList)) ∧
      "<float64 Value>".toList ≠ "1.168".toList ∧
      (Load floatWorld [] PkgState.initial).2 = .returned none ∧
      Value asciiFold (Load floatWorld [] PkgState.initial).1 "value.float".toList =
        .ok "<float64 Value>".toList := by
  refine ⟨rfl, fun _ _ _ => rfl, by decide, rfl, rfl⟩

/-- C27, the code at the failing input: the store loaded from `app: (ports: [80, 443])` has
no path `app.name`, and `Set("app.name", "svc")` returns true and inserts the entry. -/
theorem set_absent_path_returns_true :
    (Load portsWorld [] PkgState.initial).1.config = some portsConfig ∧
      portsConfig.hasPath asciiFold "app.name".toList = false ∧
      (portsConfig.set asciiFold "app.name".toList "svc".toList).2 = true ∧
      (ConfigGo.Set asciiFold (Load portsWorld [] PkgState.initial).1 "app.name".toList
        "svc".toList).2 = .ok true ∧
      (portsConfig.set asciiFold "app.name".toList "svc".toList).1.value asciiFold
        "app.name".toList = .ok "svc".toList := by
  refine ⟨rfl, by decide, rfl, rfl, rfl⟩

/-- C25, as stated, fails: on the empty map at `p`, `flatten` adds the entry of `p` itself,
and on the empty sequence it adds two entries, the marker `p.#` and the entry of `p`. -/
theorem flatten_empty_composite_counterexample :
    flatten ['p'] (.map []) [] = .ok [(['p'], [])] ∧
      flatten ['p'] (.seq []) [] = .ok [("p.#".toList, ['0']), (['p'], [])] := by
  exact ⟨rfl, rfl⟩

/-- C25, amended. For a map `data` with no entry at `prefix` nor at `prefix.#`: `flatten` of
the empty map adds exactly one entry, `prefix` with the empty string, and `flatten` of the
empty sequence adds exactly two, the marker `prefix.#` with `0` and `prefix` with the empty
string; no entry is added below them and the entries of `data` are kept. -/
theorem flatten_empty_composite (pre : Str) (data : ConfigMap)
    (hfresh : ∀ kv ∈ data, kv.1 ≠ pre ∧ kv.1 ≠ formatSliceSuffix pre) :
    flatten pre (.map []) data = .ok (data ++ [(pre, [])]) ∧
      flatten pre (.seq []) data =
        .ok (data ++ [(formatSliceSuffix pre, ['0']), (pre, [])]) := by
  have h1 : ∀ kv ∈ data, kv.1 ≠ pre := fun kv h => (hfresh kv h).1
  have h2 : ∀ kv ∈ data, kv.1 ≠ formatSliceSuffix pre := fun kv h => (hfresh kv h).2
  have hne : formatSliceSuffix pre ≠ pre := by
    intro e
    have := congrArg List.length e
    simp [formatSliceSuffix] at this
  constructor
  · simp only [flatten, flattenMap]
    rw [put_of_fresh data pre [] h1]
  · simp only [flatten, flattenSliceLoop, List.length_nil]
    rw [put_of_fresh data _ _ h2, put_of_fresh _ pre []]
    · have h0 : decimalNat 0 = ['0'] := by decide
      simp [h0]
    · intro kv hkv
      rcases List.mem_append.1 hkv with h | h
      · exact h1 kv h
      · simp only [List.mem_singleton] at h
        subst h
        exact hne

/-- Witness of the amended C25 on a map that holds the entry `a`. -/
theorem flatten_empty_composite_witness :
    flatten "a.b".toList (.map []) [(['a'], [])] = .ok [(['a'], []), ("a.b".toList, [])] ∧
      flatten "a.b".toList (.seq []) [(['a'], [])] =
        .ok [(['a'], []), ("a.b.#".toList, ['0']), ("a.b".toList, [])] :=
  flatten_empty_composite "a.b".toList [(['a'], [])] (by decide)

theorem trimSpace_idem (s : Str) : trimSpace (trimSpace s) = trimSpace s :=
  trimSpace_of_isTrimmed _ (isTrimmed_trimSpace s)

theorem trimSpace_formatSliceSuffix (s : Str) :
    trimSpace (formatSliceSuffix (trimSpace s)) = formatSliceSuffix (trimSpace s) := by
  apply trimSpace_eq_self
  · intro a ha
    cases hs : trimSpace s with
    | nil =>
      rw [hs] at ha
      simp only [formatSliceSuffix, List.nil_append, List.head?_cons, Option.some.injEq] at ha
      subst ha
      decide
    | cons c t =>
      apply head_trimSpace s a
      rw [hs] at ha ⊢
      simpa [formatSliceSuffix] using ha
  · exact lastOk_formatSliceSuffix _

theorem equals_length (fold : Char → Char) (a b : Path) (h : Path.Equals fold a b = true) :
    (Path.String a).length = (Path.String b).length := by
  simp only [Path.Equals, equalFold, decide_eq_true_eq] at h
  have := congrArg List.length h
  simpa using this

theorem resolve_of_empty_root (fold : Char → Char) (c : Configuration) (x : Path)
    (hr : Path.Empty c.root = true) : c.resolve fold x = x := by
  unfold Configuration.resolve
  split
  · rfl
  · split
    · simp [Path.Join, hr]
    · rfl

theorem resolve_of_rooted (fold : Char → Char) (c : Configuration) (x : Path)
    (h : hasPrefix (Path.String x) (Path.String c.root ++ ['.']) = true) :
    c.resolve fold x = x := by
  unfold Configuration.resolve
  split
  · rfl
  · simp [h]

/-- The trimmed string of a resolved path is the root's, or begins with the root and a dot,
when the path is the root in the root's own letter case or does not Equal the root. -/
theorem resolve_shape (fold : Char → Char) (c : Configuration) (p : Path)
    (hroot : Path.Empty c.root = false)
    (hp : Path.Equals fold p c.root = false ∨ Path.String p = Path.String c.root) :
    Path.String (c.resolve fold p) = Path.String c.root ∨
      hasPrefix (Path.String (c.resolve fold p)) (Path.String c.root ++ ['.']) = true := by
  unfold Configuration.resolve
  split
  · rename_i he
    rcases hp with hp | hp
    · rw [hp] at he
      exact absurd he (by simp)
    · exact Or.inl hp
  · split
    · by_cases hq : Path.Empty p = true
      · left
        simp [Path.Join, hroot, hq]
      · right
        have hq' : Path.Empty p = false := by simpa using hq
        rw [show Path.String (Path.Join c.root p) = Path.Join c.root p from
          trimSpace_join c.root p hroot hq', join_of_not_empty c.root p hroot hq']
        unfold hasPrefix
        exact List.isPrefixOf_iff_prefix.2 ⟨Path.String p, by simp⟩
    · rename_i h
      right
      simpa using h

/-- C30, the code at the failing input: on the store loaded from `app: [1, 2]` the path `APP`
Equals the root and resolves to itself, `hasPath("APP")` is true and `isCollection("app")` is
true, yet the marker path `APP.#` built from `resolve("APP")` resolves to `app.APP.#`, not to
itself, and `isCollection("APP")` is false although the key `app.#` Equals `APP.#`. -/
theorem isCollection_misses_root_in_other_case :
    (Load seqRootWorld [] PkgState.initial).1.config = some seqRootConfig ∧
      seqRootConfig.isCollection asciiFold "app".toList = true ∧
      seqRootConfig.resolve asciiFold "APP".toList = "APP".toList ∧
      seqRootConfig.resolve asciiFold
          (formatSliceSuffix (Path.String (seqRootConfig.resolve asciiFold "APP".toList))) =
        "app.APP.#".toList ∧
      seqRootConfig.mapping.any (fun kv => Path.Equals asciiFold kv.1 "APP.#".toList) = true ∧
      seqRootConfig.hasPath asciiFold "APP".toList = true ∧
      seqRootConfig.isCollection asciiFold "APP".toList = false := by
  refine ⟨rfl, by decide, by decide, by decide, by decide, by decide, by decide⟩

/-- The method `resolve` is idempotent, for every store and every path. For a path that does
not Equal the root, or whose trimmed string is the root's own, the marker path that
`isCollection` builds from `resolve(p)` resolves to itself, so that `isCollection(p)` holds
exactly when `hasPath(p)` holds and some key Equals `resolve(p).#`. -/
theorem resolve_idempotent (fold : Char → Char) (c : Configuration) (p : Path) :
    c.resolve fold (c.resolve fold p) = c.resolve fold p ∧
      ((Path.Equals fold p c.root = false ∨ Path.String p = Path.String c.root) →
        c.resolve fold (formatSliceSuffix (Path.String (c.resolve fold p))) =
            formatSliceSuffix (Path.String (c.resolve fold p)) ∧
          c.isCollection fold p = (c.hasPath fold p && c.mapping.any (fun kv =>
            Path.Equals fold kv.1 (formatSliceSuffix (Path.String (c.resolve fold p)))))) := by
  constructor
  · by_cases he : Path.Equals fold p c.root = true
    · have hr : c.resolve fold p = p := by simp [Configuration.resolve, he]
      rw [hr, hr]
    · by_cases hpre : hasPrefix (Path.String p) (Path.String c.root ++ ['.']) = true
      · have hr := resolve_of_rooted fold c p hpre
        rw [hr, hr]
      · have hr := resolve_of_relative fold c p (by simpa using he) (by simpa using hpre)
        rw [hr]
        by_cases hroot : Path.Empty c.root = true
        · exact resolve_of_empty_root fold c _ hroot
        · have hroot' : Path.Empty c.root = false := by simpa using hroot
          by_cases hq : Path.Empty p = true
          · have hj : Path.Join c.root p = c.root := by simp [Path.Join, hroot', hq]
            rw [hj]
            simp [Configuration.resolve, Path.Equals, equalFold]
          · exact resolve_join fold c p hroot' (by simpa using hq)
  · intro hp
    have hX : Path.String (formatSliceSuffix (Path.String (c.resolve fold p))) =
        formatSliceSuffix (Path.String (c.resolve fold p)) :=
      trimSpace_formatSliceSuffix _
    have hres : c.resolve fold (formatSliceSuffix (Path.String (c.resolve fold p))) =
        formatSliceSuffix (Path.String (c.resolve fold p)) := by
      by_cases hroot : Path.Empty c.root = true
      · exact resolve_of_empty_root fold c _ hroot
      · apply resolve_of_rooted
        rw [hX]
        unfold hasPrefix
        rcases resolve_shape fold c p (by simpa using hroot) hp with h | h
        · rw [h]
          exact List.isPrefixOf_iff_prefix.2 ⟨['#'], by simp [formatSliceSuffix]⟩
        · obtain ⟨t, ht⟩ := List.isPrefixOf_iff_prefix.1 h
          rw [← ht]
          exact List.isPrefixOf_iff_prefix.2 ⟨t ++ ['.', '#'], by simp [formatSliceSuffix]⟩
    refine ⟨hres, ?_⟩
    unfold Configuration.isCollection
    cases hh : c.hasPath fold p with
    | false => simp
    | true =>
      have hne : Path.Empty (formatSliceSuffix (Path.String (c.resolve fold p))) = false := by
        unfold Path.Empty
        rw [hX]
        simp [formatSliceSuffix]
      simp only [Bool.not_true, Bool.false_eq_true, if_false, Bool.true_and]
      unfold Configuration.hasPath
      rw [hne, hres]
      simp

/-- Idempotence of `resolve` and the marker path, on the root-relative path `ports` of a
loaded store. -/
theorem resolve_idempotent_witness :
    portsConfig.resolve asciiFold (portsConfig.resolve asciiFold "ports".toList) =
        portsConfig.resolve asciiFold "ports".toList ∧
      portsConfig.resolve asciiFold
          (formatSliceSuffix (Path.String (portsConfig.resolve asciiFold "ports".toList))) =
        formatSliceSuffix (Path.String (portsConfig.resolve asciiFold "ports".toList)) :=
  ⟨(resolve_idempotent asciiFold portsConfig "ports".toList).1,
    ((resolve_idempotent asciiFold portsConfig "ports".toList).2 (Or.inl (by decide))).1⟩

/-- C26, the code at the failing input: on the store loaded from `app: ("*x": [1])` the path
`*x` exists and is a collection, the pattern built from the unescaped path begins with a star,
and `values("*x")` does not return: `regexp.MustCompile` panics. -/
theorem values_panics_on_unescaped_path :
    (Load starWorld [] PkgState.initial).1.config = some starConfig ∧
      (Load starWorld [] PkgState.initial).2 = .returned none ∧
      starConfig.hasPath asciiFold "*x".toList = true ∧
      starConfig.isCollection asciiFold "*x".toList = true ∧
      formatSlicePrefix "*x".toList = "*x\\\\.#\\\\d+".toList ∧
      starConfig.values asciiFold "*x".toList = some .panicked := by
  refine ⟨rfl, rfl, by decide, by decide, by decide, rfl⟩

/-- The outcomes of `values(p)`: the `ErrPathNotFound` error when `hasPath(p)` is false, and
the `value does not represent a collection` error when `hasPath(p)` is true and
`isCollection(p)` is false. Otherwise: a panic when the pattern built from `p` begins with a
repetition operator, and a list with no error when that pattern lies in the modelled fragment
of `regexp`. -/
theorem values_error_kinds (fold : Char → Char) (c : Configuration) (p : Path) :
    (c.hasPath fold p = false →
        c.values fold p =
          some (.returned (.error (.pathNotFound "values".toList (Path.String p))))) ∧
      (c.hasPath fold p = true → c.isCollection fold p = false →
        c.values fold p = some (.returned (.error (.notCollection (Path.String p))))) ∧
      (c.hasPath fold p = true → c.isCollection fold p = true →
        (beginsWithRepetition (formatSlicePrefix p) = true →
          c.values fold p = some .panicked) ∧
        (beginsWithRepetition (formatSlicePrefix p) = false →
          ∀ pat, compileRegex (formatSlicePrefix p) = some pat →
            ∃ vs, c.values fold p = some (.returned (.ok vs)))) := by
  refine ⟨?_, ?_, ?_⟩
  · intro h
    simp [Configuration.values, h]
  · intro h1 h2
    simp [Configuration.values, h1, h2]
  · intro h1 h2
    refine ⟨?_, ?_⟩
    · intro h3
      simp [Configuration.values, h1, h2, h3]
    · intro h3 pat h4
      simp [Configuration.values, h1, h2, h3, h4]

/-- The outcomes of `values` on the store loaded from `app: (ports: [80, 443])`: a missing
path, a path that is not a collection, and a collection. -/
theorem values_error_kinds_witness :
    portsConfig.values asciiFold "app.name".toList =
        some (.returned (.error (.pathNotFound "values".toList "app.name".toList))) ∧
      portsConfig.values asciiFold "app".toList =
        some (.returned (.error (.notCollection "app".toList))) ∧
      ∃ vs, portsConfig.values asciiFold "app.ports".toList = some (.returned (.ok vs)) :=
  ⟨(values_error_kinds asciiFold portsConfig "app.name".toList).1 (by decide),
    (values_error_kinds asciiFold portsConfig "app".toList).2.1 (by decide) (by decide),
    ((values_error_kinds asciiFold portsConfig "app.ports".toList).2.2 (by decide)
      (by decide)).2 (by decide) _ rfl⟩

theorem splitGo_dot_length : ∀ s : Str, (splitGo ['.'] 0 s).length = s.count '.' + 1
  | [] => by simp [splitGo]
  | c :: s => by
    have ih := splitGo_dot_length s
    by_cases hc : c = '.'
    · subst hc
      simp [splitGo, List.isPrefixOf, ih]
    · have hp : List.isPrefixOf ['.'] (c :: s) = false := by
        simp [List.isPrefixOf, Ne.symm hc]
      simp only [splitGo, hp, Bool.false_eq_true, if_false]
      cases h : splitGo ['.'] 0 s with
      | nil => exact absurd h (splitGo_ne_nil _ _ _)
      | cons q qs =>
        rw [h] at ih
        rw [List.count_cons_of_ne (Ne.symm hc)]
        simpa using ih

theorem depth_eq_count (k : Path) : Path.Depth k = (Path.String k).count '.' + 1 := by
  unfold Path.Depth stringsSplit
  rw [if_neg (by simp)]
  exact splitGo_dot_length _

theorem stringsContains_of_isPrefix (s sub : Str) (h : sub <+: s) :
    stringsContains s sub = true := by
  cases s with
  | nil =>
    simp only [stringsContains]
    exact List.isPrefixOf_iff_prefix.2 h
  | cons c t =>
    simp only [stringsContains, Bool.or_eq_true]
    exact Or.inl (List.isPrefixOf_iff_prefix.2 h)

theorem count_dot_eq_zero {s : Str} : s.count '.' = 0 ↔ '.' ∉ s :=
  List.count_eq_zero

/-- C22, the code at the failing input: on the store loaded from `app: (a: 1, ab: (c: 2))`,
`Sub("app.a")` returns the key `app.ab.c`, which does not lie below `app.a`: its string
contains `app.a` and it is one segment deeper. -/
theorem sub_returns_sibling_descendant :
    (Load siblingWorld [] PkgState.initial).2 = .returned none ∧
      Sub asciiFold (Load siblingWorld [] PkgState.initial).1 "app.a".toList =
        .ok ["app.ab.c".toList] := by
  exact ⟨rfl, rfl⟩

/-- What `Sub` returns for a loaded store and an existing path `p`: exactly the keys whose
trimmed string contains the trimmed `resolve(p)` and whose depth is one more than the depth of
`resolve(p)`. Every key `resolve(p).s` with a single segment `s` is among them. When every key
that contains `resolve(p)` is `resolve(p)` itself or begins with `resolve(p).`, the returned
keys are exactly these immediate children. -/
theorem sub_children (fold : Char → Char) (st : PkgState) (c : Configuration) (p : Str)
    (hcfg : st.config = some c) (hhas : c.hasPath fold p = true) :
    ∃ ks, Sub fold st p = .ok ks ∧
      (∀ k, k ∈ ks ↔ (k ∈ c.mapping.map Prod.fst ∧
        stringsContains (Path.String k) (Path.String (c.resolve fold p)) = true ∧
        Path.Depth k = Path.Depth (c.resolve fold p) + 1)) ∧
      (∀ k ∈ c.mapping.map Prod.fst, ∀ s, '.' ∉ s →
        Path.String k = Path.String (c.resolve fold p) ++ '.' :: s → k ∈ ks) ∧
      ((∀ k ∈ c.mapping.map Prod.fst,
          stringsContains (Path.String k) (Path.String (c.resolve fold p)) = true →
          Path.String k = Path.String (c.resolve fold p) ∨
            hasPrefix (Path.String k) (Path.String (c.resolve fold p) ++ ['.']) = true) →
        ∀ k ∈ ks, ∃ s, '.' ∉ s ∧
          Path.String k = Path.String (c.resolve fold p) ++ '.' :: s) := by
  have hchar : ∀ k, k ∈ (c.mapping.filter (fun kv =>
        stringsContains (Path.String kv.1) (Path.String (c.resolve fold p)) &&
          Path.Depth kv.1 == Path.Depth (c.resolve fold p) + 1)).map Prod.fst ↔
      (k ∈ c.mapping.map Prod.fst ∧
        stringsContains (Path.String k) (Path.String (c.resolve fold p)) = true ∧
        Path.Depth k = Path.Depth (c.resolve fold p) + 1) := by
    intro k
    simp only [List.mem_map, List.mem_filter, Bool.and_eq_true, beq_iff_eq]
    constructor
    · rintro ⟨kv, ⟨hm, h1, h2⟩, rfl⟩
      exact ⟨⟨kv, hm, rfl⟩, h1, h2⟩
    · rintro ⟨⟨kv, hm, rfl⟩, h1, h2⟩
      exact ⟨kv, ⟨hm, h1, h2⟩, rfl⟩
  refine ⟨_, by simp [Sub, hcfg, hhas], hchar, ?_, ?_⟩
  · intro k hk s hs hks
    refine (hchar k).2 ⟨hk, ?_, ?_⟩
    · rw [hks]
      exact stringsContains_of_isPrefix _ _ ⟨'.' :: s, rfl⟩
    · rw [depth_eq_count, depth_eq_count, hks]
      simp [count_dot_eq_zero.2 hs]
  · intro hpre k hk
    obtain ⟨hmem, hcon, hdep⟩ := (hchar k).1 hk
    rw [depth_eq_count, depth_eq_count] at hdep
    rcases hpre k hmem hcon with h | h
    · rw [h] at hdep
      omega
    · obtain ⟨t, ht⟩ := List.isPrefixOf_iff_prefix.1 h
      refine ⟨t, ?_, by rw [← ht]; simp⟩
      rw [← ht] at hdep
      simp only [List.append_assoc, List.count_append, List.count_cons_self, List.count_nil,
        List.singleton_append] at hdep
      exact count_dot_eq_zero.1 (by omega)

/-- On the store loaded from `app: (name: svc, ports: [80, 443])`, `Sub("app")` returns
`app.name` and `app.ports`. -/
theorem sub_children_witness :
    Sub asciiFold (Load appWorld [] PkgState.initial).1 "app".toList =
        .ok ["app.name".toList, "app.ports".toList] ∧
      ∃ ks, Sub asciiFold (Load appWorld [] PkgState.initial).1 "app".toList = .ok ks ∧
        "app.name".toList ∈ ks ∧ "app.ports".toList ∈ ks := by
  obtain ⟨ks, h1, -, h3, -⟩ := sub_children asciiFold (Load appWorld [] PkgState.initial).1
    appConfig "app".toList rfl (by decide)
  exact ⟨rfl, ks, h1, h3 _ (by decide) "name".toList (by decide) (by decide),
    h3 _ (by decide) "ports".toList (by decide) (by decide)⟩

theorem supported_of_isScalar {x : Node} (h : x.isScalar = true) : x.supported = true := by
  cases x <;> simp [Node.isScalar] at h <;> simp [Node.supported]

theorem supportedNodes_of_scalars : ∀ (xs : List Node), (∀ x ∈ xs, x.isScalar = true) →
    supportedNodes xs = true
  | [], _ => by simp [supportedNodes]
  | x :: rest, h => by
    simp only [supportedNodes, Bool.and_eq_true]
    exact ⟨supported_of_isScalar (h x (by simp)),
      supportedNodes_of_scalars rest (fun y hy => h y (List.mem_cons_of_mem _ hy))⟩

theorem path_ne_suffix (P t : Str) : P ≠ formatSliceSuffix P ++ t := by
  intro e
  have := congrArg List.length e
  simp [formatSliceSuffix] at this

/-- The count marker is written once by the writes of a sequence. -/
theorem seq_marker_lookup (P : Str) (xs : List Node) (data : ConfigMap) :
    (putAll data (writes P (.seq xs))).lookup (formatSliceSuffix P) =
      some (decimalNat xs.length) := by
  rw [writes]
  apply lookup_putAll_last data [] _ (formatSliceSuffix P)
  intro w hw
  rcases List.mem_append.1 hw with hw | hw
  · obtain ⟨j, -, -, hj | ⟨s, hs⟩⟩ := writesSlice_shape xs _ 0 w hw
    · intro e
      have := congrArg List.length (hj.symm.trans e)
      have hne := decimalNat_ne_nil j
      simp at this
      exact hne this
    · intro e
      have := congrArg List.length (hs.symm.trans e)
      simp at this
  · simp only [List.mem_singleton] at hw
    subst hw
    simpa using path_ne_suffix P []

/-- The entry of element `i` is decided by the last write of that element. -/
theorem seq_element_lookup (P : Str) (xs : List Node) (data : ConfigMap) (i : Nat)
    (hi : i < xs.length) (hne : xs[i] ≠ .other) :
    (putAll data (writes P (.seq xs))).lookup (formatSliceSuffix P ++ decimalNat i) =
      some (xs[i]).ownValue := by
  obtain ⟨a, ha⟩ := writesSlice_split xs (formatSliceSuffix P) 0 i hi
  obtain ⟨init, hinit, -⟩ := writes_own_last xs[i] (formatSliceSuffix P ++ decimalNat (0 + i))
    hne
  rw [hinit] at ha
  simp only [Nat.zero_add] at ha
  have hw : writes P (.seq xs) =
      ((formatSliceSuffix P, decimalNat xs.length) :: (a ++ init)) ++
        (formatSliceSuffix P ++ decimalNat i, (xs[i]).ownValue) ::
          (writesSlice (formatSliceSuffix P) (i + 1) (xs.drop (i + 1)) ++ [(P, [])]) := by
    rw [writes, ha]
    simp
  rw [hw]
  apply lookup_putAll_last
  intro w hw
  rcases List.mem_append.1 hw with hw | hw
  · obtain ⟨j, hj1, -, hj⟩ := writesSlice_shape _ _ (i + 1) w hw
    exact slice_key_ne_of_shape (by omega) hj
  · simp only [List.mem_singleton] at hw
    subst hw
    exact path_ne_suffix P _

theorem ne_other_of_isScalar {x : Node} (h : x.isScalar = true) : x ≠ .other := by
  intro e
  subst e
  simp [Node.isScalar] at h

/-- C28. Sequence flattening as implemented. On a sequence of `n` scalar elements at `P`,
`flatten` returns no error, and the map then holds the decimal string of `n` at `P.#` and the
encoding of element `i` at `P.#i`, the index following the marker's own path with no separator.
For elements of any kind, when `flatten` of the sequence succeeds, every key that `flatten`
writes for element `i` under the path `P.#i` is a key of the resulting map. -/
theorem flatten_seq_as_implemented (P : Str) (xs : List Node) (data : ConfigMap) :
    ((∀ x ∈ xs, x.isScalar = true) →
      ∃ d, flatten P (.seq xs) data = .ok d ∧
        ConfigMap.get d (formatSliceSuffix P) = decimalNat xs.length ∧
        ∀ i (hi : i < xs.length),
          ConfigMap.get d (formatSliceSuffix P ++ decimalNat i) = (xs[i]).ownValue) ∧
      (∀ d, flatten P (.seq xs) data = .ok d → ∀ i (hi : i < xs.length), ∀ e,
        flatten (formatSliceSuffix P ++ decimalNat i) xs[i] [] = .ok e →
        ∀ k ∈ e.map Prod.fst, k ∈ d.map Prod.fst) := by
  constructor
  · intro hs
    have hsup : (Node.seq xs).supported = true := by
      simp only [Node.supported]
      exact supportedNodes_of_scalars xs hs
    refine ⟨_, flatten_of_supported _ P data hsup, ?_, ?_⟩
    · simp [ConfigMap.get, seq_marker_lookup]
    · intro i hi
      simp [ConfigMap.get, seq_element_lookup P xs data i hi
        (ne_other_of_isScalar (hs _ (List.getElem_mem _)))]
  · intro d hd i hi e he k hk
    have h1 := flatten_ok_eq _ _ _ _ hd
    have h2 := flatten_ok_eq _ _ _ _ he
    rw [h2, mem_keys_putAll] at hk
    rw [h1, mem_keys_putAll]
    right
    rcases hk with hk | hk
    · simp at hk
    · obtain ⟨a, ha⟩ := writesSlice_split xs (formatSliceSuffix P) 0 i hi
      simp only [Nat.zero_add] at ha
      obtain ⟨w, hw, rfl⟩ := List.mem_map.1 hk
      apply List.mem_map.2
      refine ⟨w, ?_, rfl⟩
      rw [writes, ha]
      simp [hw]

/-- Witness of C28 on the sequence `[80, 443]` at `app.ports`. -/
theorem flatten_seq_as_implemented_witness :
    ∃ d, flatten "app.ports".toList (.seq [.int 80, .int 443]) [] = .ok d ∧
      ConfigMap.get d "app.ports.#".toList = "2".toList ∧
      ConfigMap.get d "app.ports.#0".toList = "80".toList ∧
      ConfigMap.get d "app.ports.#1".toList = "443".toList := by
  obtain ⟨d, h1, h2, h3⟩ :=
    (flatten_seq_as_implemented "app.ports".toList [.int 80, .int 443] []).1 (by decide)
  exact ⟨d, h1, h2, h3 0 (by decide), h3 1 (by decide)⟩

mutual
theorem flatten_outcome : ∀ (v : Node) (path : Str) (data : ConfigMap),
    v.stringKeyed = true →
    (v.hasOther = false → ∃ d, flatten path v data = .ok d) ∧
      (v.hasOther = true →
        ∃ p d, flatten path v data = .error p d ∧ (p, Node.other) ∈ nodesAt path v)
  | .bool b, path, data, _ => ⟨fun _ => ⟨_, rfl⟩, by simp [Node.hasOther]⟩
  | .int n, path, data, _ => ⟨fun _ => ⟨_, rfl⟩, by simp [Node.hasOther]⟩
  | .str s, path, data, _ => ⟨fun _ => ⟨_, rfl⟩, by simp [Node.hasOther]⟩
  | .float32 x, path, data, _ => ⟨fun _ => ⟨_, rfl⟩, by simp [Node.hasOther]⟩
  | .float64 x, path, data, _ => ⟨fun _ => ⟨_, rfl⟩, by simp [Node.hasOther]⟩
  | .other, path, data, _ =>
    ⟨by simp [Node.hasOther], fun _ => ⟨path, data, rfl, by simp [nodesAt]⟩⟩
  | .map kvs, path, data, hk => by
    simp only [Node.stringKeyed] at hk
    obtain ⟨h1, h2⟩ := flattenMap_outcome kvs path data hk
    constructor
    · intro h
      simp only [Node.hasOther] at h
      obtain ⟨d, hd⟩ := h1 h
      exact ⟨ConfigMap.put d path [], by simp only [flatten, hd]⟩
    · intro h
      simp only [Node.hasOther] at h
      obtain ⟨p, d, hd, hm⟩ := h2 h
      exact ⟨p, d, by simp only [flatten, hd], by simp [nodesAt, hm]⟩
  | .seq xs, path, data, hk => by
    simp only [Node.stringKeyed] at hk
    obtain ⟨h1, h2⟩ := flattenSliceLoop_outcome xs (formatSliceSuffix path) 0
      (ConfigMap.put data (formatSliceSuffix path) (decimalNat xs.length)) hk
    constructor
    · intro h
      simp only [Node.hasOther] at h
      obtain ⟨d, hd⟩ := h1 h
      exact ⟨ConfigMap.put d path [], by simp only [flatten, hd]⟩
    · intro h
      simp only [Node.hasOther] at h
      obtain ⟨p, d, hd, hm⟩ := h2 h
      exact ⟨p, d, by simp only [flatten, hd], by simp [nodesAt, hm]⟩
theorem flattenMap_outcome : ∀ (kvs : List (MapKey × Node)) (path : Str) (data : ConfigMap),
    stringKeyedEntries kvs = true →
    (hasOtherEntries kvs = false → ∃ d, flattenMap path kvs data = .ok d) ∧
      (hasOtherEntries kvs = true →
        ∃ p d, flattenMap path kvs data = .error p d ∧
          (p, Node.other) ∈ nodesAtEntries path kvs)
  | [], path, data, _ => ⟨fun _ => ⟨_, rfl⟩, by simp [hasOtherEntries]⟩
  | (.other, _) :: _, _, _, hk => by simp [stringKeyedEntries] at hk
  | (.str k, v) :: rest, path, data, hk => by
    simp only [stringKeyedEntries, Bool.and_eq_true] at hk
    obtain ⟨a1, a2⟩ := flatten_outcome v (path ++ '.' :: k) data hk.1
    cases hh : v.hasOther with
    | true =>
      obtain ⟨p, d, hd, hm⟩ := a2 hh
      refine ⟨by simp [hasOtherEntries, hh], fun _ => ⟨p, d, ?_, ?_⟩⟩
      · simp only [flattenMap, hd]
      · simp [nodesAtEntries, hm]
    | false =>
      obtain ⟨d, hd⟩ := a1 hh
      obtain ⟨b1, b2⟩ := flattenMap_outcome rest path d hk.2
      constructor
      · intro h
        simp only [hasOtherEntries, hh, Bool.false_or] at h
        obtain ⟨d', hd'⟩ := b1 h
        exact ⟨d', by simp only [flattenMap, hd, hd']⟩
      · intro h
        simp only [hasOtherEntries, hh, Bool.false_or] at h
        obtain ⟨p, d', hd', hm⟩ := b2 h
        exact ⟨p, d', by simp only [flattenMap, hd, hd'], by simp [nodesAtEntries, hm]⟩
theorem flattenSliceLoop_outcome : ∀ (xs : List Node) (path : Str) (i : Nat)
    (data : ConfigMap), stringKeyedNodes xs = true →
    (hasOtherNodes xs = false → ∃ d, flattenSliceLoop path i xs data = .ok d) ∧
      (hasOtherNodes xs = true →
        ∃ p d, flattenSliceLoop path i xs data = .error p d ∧
          (p, Node.other) ∈ nodesAtElems path i xs)
  | [], path, i, data, _ => ⟨fun _ => ⟨_, rfl⟩, by simp [hasOtherNodes]⟩
  | x :: rest, path, i, data, hk => by
    simp only [stringKeyedNodes, Bool.and_eq_true] at hk
    obtain ⟨a1, a2⟩ := flatten_outcome x (path ++ decimalNat i) data hk.1
    cases hh : x.hasOther with
    | true =>
      obtain ⟨p, d, hd, hm⟩ := a2 hh
      refine ⟨by simp [hasOtherNodes, hh], fun _ => ⟨p, d, ?_, ?_⟩⟩
      · simp only [flattenSliceLoop, hd]
      · simp [nodesAtElems, hm]
    | false =>
      obtain ⟨d, hd⟩ := a1 hh
      obtain ⟨b1, b2⟩ := flattenSliceLoop_outcome rest path (i + 1) d hk.2
      constructor
      · intro h
        simp only [hasOtherNodes, hh, Bool.false_or] at h
        obtain ⟨d', hd'⟩ := b1 h
        exact ⟨d', by simp only [flattenSliceLoop, hd, hd']⟩
      · intro h
        simp only [hasOtherNodes, hh, Bool.false_or] at h
        obtain ⟨p, d', hd', hm⟩ := b2 h
        exact ⟨p, d', by simp only [flattenSliceLoop, hd, hd'], by simp [nodesAtElems, hm]⟩
end

theorem newConfigMapLoop_outcome : ∀ (source : List (Str × Node)) (data : ConfigMap),
    (∀ kv ∈ source, kv.2.stringKeyed = true) →
    ((∀ kv ∈ source, kv.2.hasOther = false) → ∃ d, newConfigMapLoop source data = .ok d) ∧
      ((∃ kv ∈ source, kv.2.hasOther = true) →
        ∃ p d, newConfigMapLoop source data = .error p d ∧
          ∃ kv ∈ source, (p, Node.other) ∈ nodesAt kv.1 kv.2)
  | [], data, _ =>
    ⟨fun _ => ⟨_, rfl⟩, fun ⟨_, hkv, _⟩ => absurd hkv (List.not_mem_nil _)⟩
  | (k, v) :: rest, data, hk => by
    obtain ⟨a1, a2⟩ := flatten_outcome v k data (hk (k, v) (by simp))
    have hrest : ∀ kv ∈ rest, kv.2.stringKeyed = true :=
      fun kv h => hk kv (List.mem_cons_of_mem _ h)
    cases hh : v.hasOther with
    | true =>
      obtain ⟨p, d, hd, hm⟩ := a2 hh
      refine ⟨fun h => ?_, fun _ => ⟨p, d, ?_, (k, v), by simp, hm⟩⟩
      · have := h (k, v) (by simp)
        simp [hh] at this
      · simp only [newConfigMapLoop, hd]
    | false =>
      obtain ⟨d, hd⟩ := a1 hh
      obtain ⟨b1, b2⟩ := newConfigMapLoop_outcome rest d hrest
      constructor
      · intro h
        obtain ⟨d', hd'⟩ := b1 (fun kv hkv => h kv (List.mem_cons_of_mem _ hkv))
        exact ⟨d', by simp only [newConfigMapLoop, hd, hd']⟩
      · rintro ⟨kv, hkv, hkvo⟩
        have hin : kv ∈ rest := by
          rcases List.mem_cons.1 hkv with e | e
          · subst e
            simp [hh] at hkvo
          · exact e
        obtain ⟨p, d', hd', kv', hkv', hm⟩ := b2 ⟨kv, hin, hkvo⟩
        exact ⟨p, d', by simp only [newConfigMapLoop, hd, hd'], kv',
          List.mem_cons_of_mem _ hkv', hm⟩

/-- C23. For a value whose map keys are all strings, `flatten` returns the
`unknown value type` error exactly when some node of the value is of a kind other than boolean,
integer, float, string, map or sequence; the path in the error is the path at which `flatten`
visits such a node, also when the node lies inside nested maps and sequences. The same holds
for `newConfigMap` over the top-level entries of a document. -/
theorem flatten_error_iff_unsupported :
    (∀ (path : Str) (v : Node) (data : ConfigMap), v.stringKeyed = true →
      ((∃ p d, flatten path v data = .error p d) ↔ v.hasOther = true) ∧
        (∀ p d, flatten path v data = .error p d → (p, Node.other) ∈ nodesAt path v)) ∧
      (∀ (source : List (Str × Node)), (∀ kv ∈ source, kv.2.stringKeyed = true) →
        ((∃ p d, newConfigMap source = .error p d) ↔ ∃ kv ∈ source, kv.2.hasOther = true) ∧
          (∀ p d, newConfigMap source = .error p d →
            ∃ kv ∈ source, (p, Node.other) ∈ nodesAt kv.1 kv.2)) := by
  constructor
  · intro path v data hk
    obtain ⟨h1, h2⟩ := flatten_outcome v path data hk
    have key : ∀ p d, flatten path v data = .error p d →
        v.hasOther = true ∧ (p, Node.other) ∈ nodesAt path v := by
      intro p d h
      cases hh : v.hasOther with
      | false =>
        obtain ⟨d', hd'⟩ := h1 hh
        rw [hd'] at h
        exact absurd h (by simp)
      | true =>
        obtain ⟨p', d', hd', hm⟩ := h2 hh
        rw [hd'] at h
        simp only [FlattenResult.error.injEq] at h
        exact ⟨rfl, h.1 ▸ hm⟩
    refine ⟨⟨?_, ?_⟩, fun p d h => (key p d h).2⟩
    · rintro ⟨p, d, h⟩
      exact (key p d h).1
    · intro hh
      obtain ⟨p, d, hd, -⟩ := h2 hh
      exact ⟨p, d, hd⟩
  · intro source hk
    obtain ⟨h1, h2⟩ := newConfigMapLoop_outcome source [] hk
    have key : ∀ p d, newConfigMap source = .error p d →
        (∃ kv ∈ source, kv.2.hasOther = true) ∧
          ∃ kv ∈ source, (p, Node.other) ∈ nodesAt kv.1 kv.2 := by
      intro p d h
      by_cases hh : ∃ kv ∈ source, kv.2.hasOther = true
      · obtain ⟨p', d', hd', hm⟩ := h2 hh
        unfold newConfigMap at h
        rw [hd'] at h
        simp only [FlattenResult.error.injEq] at h
        exact ⟨hh, h.1 ▸ hm⟩
      · have hall : ∀ kv ∈ source, kv.2.hasOther = false := by
          intro kv hkv
          cases hv : kv.2.hasOther with
          | false => rfl
          | true => exact absurd ⟨kv, hkv, hv⟩ hh
        obtain ⟨d', hd'⟩ := h1 hall
        unfold newConfigMap at h
        rw [hd'] at h
        exact absurd h (by simp)
    refine ⟨⟨?_, ?_⟩, fun p d h => (key p d h).2⟩
    · rintro ⟨p, d, h⟩
      exact (key p d h).1
    · intro hh
      obtain ⟨p, d, hd, -⟩ := h2 hh
      exact ⟨p, d, hd⟩

/-- Witness of C23 on the document `app: (a: null)`: the error names the path `app.a`. -/
theorem flatten_error_iff_unsupported_witness :
    newConfigMap nullDoc = .error "app.a".toList [] ∧
      (∃ p d, newConfigMap nullDoc = .error p d) ∧
      ∃ p d, flatten "app".toList (.map [(.str ['a'], .other)]) [] = .error p d :=
  ⟨rfl, ((flatten_error_iff_unsupported.2 nullDoc (by decide)).1).2 (by decide),
    ((flatten_error_iff_unsupported.1 "app".toList (.map [(.str ['a'], .other)]) []
      (by decide)).1).2 (by decide)⟩

mutual
theorem supported_of_plainMaps : ∀ (v : Node), v.plainMaps = true → v.supported = true
  | .bool _, _ => rfl
  | .int _, _ => rfl
  | .str _, _ => rfl
  | .float32 _, _ => rfl
  | .float64 _, _ => rfl
  | .other, h => by simp [Node.plainMaps] at h
  | .seq _, h => by simp [Node.plainMaps] at h
  | .map kvs, h => by
    simp only [Node.plainMaps] at h
    simp only [Node.supported]
    exact supportedEntries_of_plainMaps kvs h
theorem supportedEntries_of_plainMaps : ∀ (kvs : List (MapKey × Node)),
    plainMapEntries kvs = true → supportedEntries kvs = true
  | [], _ => rfl
  | (.other, _) :: _, h => by simp [plainMapEntries] at h
  | (.str k, v) :: rest, h => by
    simp only [plainMapEntries, Bool.and_eq_true] at h
    simp only [supportedEntries, Bool.and_eq_true]
    exact ⟨supported_of_plainMaps v h.1.2, supportedEntries_of_plainMaps rest h.2⟩
end

mutual
theorem writes_length_plainMaps : ∀ (v : Node) (path : Str), v.plainMaps = true →
    (writes path v).length = v.nodeCount
  | .bool _, _, _ => rfl
  | .int _, _, _ => rfl
  | .str _, _, _ => rfl
  | .float32 _, _, _ => rfl
  | .float64 _, _, _ => rfl
  | .other, _, h => by simp [Node.plainMaps] at h
  | .seq _, _, h => by simp [Node.plainMaps] at h
  | .map kvs, path, h => by
    simp only [Node.plainMaps] at h
    simp only [writes, Node.nodeCount, List.length_append, List.length_singleton,
      writesMap_length_plainMaps kvs path h]
    omega
theorem writesMap_length_plainMaps : ∀ (kvs : List (MapKey × Node)) (path : Str),
    plainMapEntries kvs = true → (writesMap path kvs).length = entriesNodeCount kvs
  | [], _, _ => rfl
  | (.other, _) :: _, _, h => by simp [plainMapEntries] at h
  | (.str k, v) :: rest, path, h => by
    simp only [plainMapEntries, Bool.and_eq_true] at h
    simp only [writesMap, entriesNodeCount, List.length_append,
      writes_length_plainMaps v _ h.1.2, writesMap_length_plainMaps rest path h.2]
end

theorem length_putAll_of_nodup : ∀ (ws : List (Path × Str)) (data : ConfigMap),
    (ws.map Prod.fst).Nodup → (∀ w ∈ ws, ∀ kv ∈ data, kv.1 ≠ w.1) →
    (putAll data ws).length = data.length + ws.length
  | [], data, _, _ => by simp [putAll]
  | w :: ws, data, hn, hd => by
    simp only [List.map_cons, List.nodup_cons] at hn
    rw [putAll_cons, put_of_fresh data w.1 w.2 (hd w (by simp)),
      length_putAll_of_nodup ws _ hn.2]
    · simp
      omega
    · intro w' hw' kv hkv
      rcases List.mem_append.1 hkv with h | h
      · exact hd w' (List.mem_cons_of_mem _ hw') kv h
      · simp only [List.mem_singleton] at h
        subst h
        intro e
        exact hn.1 (List.mem_map.2 ⟨w', hw', e.symm⟩)

theorem newConfigMapLoop_of_supported : ∀ (source : List (Str × Node)) (data : ConfigMap),
    (∀ kv ∈ source, kv.2.supported = true) →
    newConfigMapLoop source data = .ok (putAll data (writesDoc source))
  | [], data, _ => rfl
  | (k, v) :: rest, data, h => by
    simp only [newConfigMapLoop, flatten_of_supported v k data (h (k, v) (by simp)),
      newConfigMapLoop_of_supported rest _ (fun kv hkv => h kv (List.mem_cons_of_mem _ hkv))]
    rw [writesDoc, putAll_append]

theorem plainMapEntries_no_dot : ∀ {kvs : List (MapKey × Node)},
    plainMapEntries kvs = true → ∀ {k : Str} {v : Node}, (MapKey.str k, v) ∈ kvs → '.' ∉ k
  | [], _, _, _, hm => by simp at hm
  | (.other, _) :: _, h, _, _, _ => by simp [plainMapEntries] at h
  | (.str k1, _) :: rest, h, k, v, hm => by
    simp only [plainMapEntries, Bool.and_eq_true, Bool.not_eq_true', decide_eq_false_iff_not]
      at h
    rcases List.mem_cons.1 hm with e | e
    · simp only [Prod.mk.injEq, MapKey.str.injEq] at e
      rw [e.1]
      exact h.1.1.1
    · exact plainMapEntries_no_dot h.2 e

/-- Keys at or below two different dot-free segments under one path differ. -/
theorem sibling_keys_ne {pre k k' a b : Str} (hk : '.' ∉ k) (hk' : '.' ∉ k') (hne : k' ≠ k)
    (ha : a = pre ++ k ∨ Below (pre ++ k) a) (hb : b = pre ++ k' ∨ Below (pre ++ k') b) :
    a ≠ b := by
  have h := child_keys_ne foldsOnlyLetters_id hk hk' (by simpa using Ne.symm hne) ha hb
  simpa using h

theorem dot_cons_eq (path k : Str) : path ++ '.' :: k = (path ++ ['.']) ++ k := by simp

mutual
theorem writes_nodup_plainMaps : ∀ (v : Node) (path : Str), v.plainMaps = true →
    ((writes path v).map Prod.fst).Nodup
  | .bool _, _, _ => by simp [writes]
  | .int _, _, _ => by simp [writes]
  | .str _, _, _ => by simp [writes]
  | .float32 _, _, _ => by simp [writes]
  | .float64 _, _, _ => by simp [writes]
  | .other, _, _ => by simp [writes]
  | .seq _, _, h => by simp [Node.plainMaps] at h
  | .map kvs, path, h => by
    simp only [Node.plainMaps] at h
    rw [writes, List.map_append, List.nodup_append]
    refine ⟨writesMap_nodup_plainMaps kvs path h, by simp, ?_⟩
    intro x hx hx'
    simp only [List.map_cons, List.map_nil, List.mem_singleton] at hx'
    obtain ⟨w, hw, rfl⟩ := List.mem_map.1 hx
    exact below_ne (writesMap_shape kvs path w hw) hx'
theorem writesMap_nodup_plainMaps : ∀ (kvs : List (MapKey × Node)) (path : Str),
    plainMapEntries kvs = true → ((writesMap path kvs).map Prod.fst).Nodup
  | [], _, _ => by simp [writesMap]
  | (.other, _) :: _, _, h => by simp [plainMapEntries] at h
  | (.str k, v) :: rest, path, h => by
    simp only [plainMapEntries, Bool.and_eq_true, Bool.not_eq_true', decide_eq_false_iff_not]
      at h
    rw [writesMap, List.map_append, List.nodup_append]
    refine ⟨writes_nodup_plainMaps v _ h.1.2, writesMap_nodup_plainMaps rest path h.2, ?_⟩
    intro x hx hx'
    obtain ⟨w, hw, rfl⟩ := List.mem_map.1 hx
    obtain ⟨w', hw', e⟩ := List.mem_map.1 hx'
    obtain ⟨k', v', hm, hs'⟩ := writesMap_shape_key rest path w' hw'
    have hs := writes_shape v _ w hw
    rw [dot_cons_eq] at hs hs'
    have hne : k'.map id ≠ k.map id := hasFoldedKey_false h.1.1.2 hm
    exact sibling_keys_ne h.1.1.1 (plainMapEntries_no_dot h.2 hm) (by simpa using hne) hs hs'
      e.symm
end

theorem writesDoc_shape : ∀ (source : List (Str × Node)) (w : Path × Str),
    w ∈ writesDoc source → ∃ k v, (k, v) ∈ source ∧ (w.1 = k ∨ Below k w.1)
  | [], w, h => by simp [writesDoc] at h
  | (k, v) :: rest, w, h => by
    simp only [writesDoc, List.mem_append] at h
    rcases h with h | h
    · exact ⟨k, v, by simp, writes_shape v k w h⟩
    · obtain ⟨k', v', hm, hw⟩ := writesDoc_shape rest w h
      exact ⟨k', v', List.mem_cons_of_mem _ hm, hw⟩

theorem mem_docEntries {source : List (Str × Node)} {k : Str} {v : Node}
    (h : (k, v) ∈ source) : (MapKey.str k, v) ∈ docEntries source :=
  List.mem_map.2 ⟨(k, v), h, rfl⟩

theorem writesDoc_nodup : ∀ (source : List (Str × Node)),
    plainMapEntries (docEntries source) = true → ((writesDoc source).map Prod.fst).Nodup
  | [], _ => by simp [writesDoc]
  | (k, v) :: rest, h => by
    simp only [docEntries, List.map_cons, plainMapEntries, Bool.and_eq_true,
      Bool.not_eq_true', decide_eq_false_iff_not] at h
    rw [writesDoc, List.map_append, List.nodup_append]
    refine ⟨writes_nodup_plainMaps v _ h.1.2, writesDoc_nodup rest h.2, ?_⟩
    intro x hx hx'
    obtain ⟨w, hw, rfl⟩ := List.mem_map.1 hx
    obtain ⟨w', hw', e⟩ := List.mem_map.1 hx'
    obtain ⟨k', v', hm, hs'⟩ := writesDoc_shape rest w' hw'
    have hs := writes_shape v _ w hw
    have hne : k'.map id ≠ k.map id := hasFoldedKey_false h.1.1.2 (mem_docEntries hm)
    have hs1 : w.1 = [] ++ k ∨ Below ([] ++ k) w.1 := by simpa using hs
    have hs2 : w'.1 = [] ++ k' ∨ Below ([] ++ k') w'.1 := by simpa using hs'
    exact sibling_keys_ne h.1.1.1 (plainMapEntries_no_dot h.2 (mem_docEntries hm))
      (by simpa using hne) hs1 hs2 e.symm

theorem writesDoc_length : ∀ (source : List (Str × Node)),
    plainMapEntries (docEntries source) = true →
    (writesDoc source).length = entriesNodeCount (docEntries source)
  | [], _ => rfl
  | (k, v) :: rest, h => by
    simp only [docEntries, List.map_cons, plainMapEntries, Bool.and_eq_true] at h
    simp only [writesDoc, docEntries, List.map_cons, entriesNodeCount, List.length_append,
      writes_length_plainMaps v k h.1.2]
    rw [← docEntries, writesDoc_length rest h.2]

theorem supported_of_plainDoc (source : List (Str × Node))
    (h : plainMapEntries (docEntries source) = true) : ∀ kv ∈ source, kv.2.supported = true := by
  induction source with
  | nil => simp
  | cons a rest ih =>
    obtain ⟨k, v⟩ := a
    simp only [docEntries, List.map_cons, plainMapEntries, Bool.and_eq_true] at h
    intro kv hkv
    rcases List.mem_cons.1 hkv with e | e
    · subst e
      exact supported_of_plainMaps v h.1.2
    · exact ih h.2 kv e

theorem own_entry_of_flatten (P : Str) (v : Node) (data d : ConfigMap) (hv : v ≠ .other)
    (hown : v.ownValue = []) (h : flatten P v data = .ok d) :
    d.lookup P = some [] ∧
      ∃ init, d = putAll data (init ++ [(P, [])]) ∧ ∀ w ∈ init, w.1 ≠ P := by
  have hd := flatten_ok_eq _ _ _ _ h
  obtain ⟨init, hinit, hbelow⟩ := writes_own_last v P hv
  rw [hown] at hinit
  rw [hinit] at hd
  refine ⟨?_, init, hd, fun w hw => below_ne (hbelow w hw)⟩
  rw [hd]
  exact lookup_putAll_last data init [] P [] (by simp)

/-- C29. When `flatten` of a map or of a sequence at `P` returns without error, the map
holds the key `P` with the empty string, written last, and no write made for the nodes below
targets `P`. For a document of nested maps whose keys are strings without a dot, `newConfigMap`
returns a map with as many entries as the document has nodes below its root. -/
theorem composite_own_entry :
    (∀ (P : Str) (kvs : List (MapKey × Node)) (data d : ConfigMap),
      flatten P (.map kvs) data = .ok d →
      d.lookup P = some [] ∧
        ∃ init, d = putAll data (init ++ [(P, [])]) ∧ ∀ w ∈ init, w.1 ≠ P) ∧
      (∀ (P : Str) (xs : List Node) (data d : ConfigMap),
        flatten P (.seq xs) data = .ok d →
        d.lookup P = some [] ∧
          ∃ init, d = putAll data (init ++ [(P, [])]) ∧ ∀ w ∈ init, w.1 ≠ P) ∧
      (∀ source : List (Str × Node), plainMapEntries (docEntries source) = true →
        ∃ m, newConfigMap source = .ok m ∧
          m.length = entriesNodeCount (docEntries source)) := by
  refine ⟨fun P kvs data d h => own_entry_of_flatten P (.map kvs) data d (by simp) rfl h,
    fun P xs data d h => own_entry_of_flatten P (.seq xs) data d (by simp) rfl h, ?_⟩
  intro source h
  refine ⟨_, newConfigMapLoop_of_supported source [] (supported_of_plainDoc source h), ?_⟩
  rw [length_putAll_of_nodup _ [] (writesDoc_nodup source h) (by simp),
    writesDoc_length source h]
  simp

/-- Witness of C29 on the document `app: (name: svc)`: two nodes below the root, two
entries, and the entry of the map `app` holds the empty string. -/
theorem composite_own_entry_witness :
    (∃ m, newConfigMap [("app".toList, svcNode)] = .ok m ∧ m.length = 2) ∧
      List.lookup "app".toList [("app.name".toList, "svc".toList), ("app".toList, [])] =
        some [] :=
  ⟨composite_own_entry.2.2 [("app".toList, svcNode)] (by decide),
    (composite_own_entry.1 "app".toList [(.str "name".toList, .str "svc".toList)] []
      [("app.name".toList, "svc".toList), ("app".toList, [])] rfl).1⟩

/-- A resolved non-empty path lies under a non-empty root. -/
theorem resolve_underRoot (fold : Char → Char) (c : Configuration) (p : Path)
    (hroot : Path.Empty c.root = false) (hp : Path.Empty p = false) :
    keyUnderRoot fold c.root (c.resolve fold p) = true := by
  unfold keyUnderRoot
  by_cases he : Path.Equals fold p c.root = true
  · have hr : c.resolve fold p = p := by simp [Configuration.resolve, he]
    rw [hr, he]
    rfl
  · by_cases hpre : hasPrefix (Path.String p) (Path.String c.root ++ ['.']) = true
    · rw [resolve_of_rooted fold c p hpre, hpre]
      simp
    · rw [resolve_of_relative fold c p (by simpa using he) (by simpa using hpre)]
      have hj : hasPrefix (Path.String (Path.Join c.root p)) (Path.String c.root ++ ['.'])
          = true := by
        rw [show Path.String (Path.Join c.root p) = Path.Join c.root p from
          trimSpace_join c.root p hroot hp, join_of_not_empty c.root p hroot hp]
        unfold hasPrefix
        exact List.isPrefixOf_iff_prefix.2 ⟨Path.String p, by simp⟩
      rw [hj]
      simp

/-- C31. `set` preserves the root invariant: in a store with a non-empty root in which every
key Equals the root or has a trimmed string that begins with the root and a dot, after
`set(p, v)` every key of the mapping still does, the root is the same, the keys are the old
ones and, for a non-empty `p`, the key `resolve(p)`, and every entry other than the one at
`resolve(p)` is unchanged. -/
theorem set_preserves_root_invariant (fold : Char → Char) (c : Configuration) (p : Path)
    (v : Str) (hroot : Path.Empty c.root = false)
    (hinv : ∀ k ∈ c.mapping.map Prod.fst, keyUnderRoot fold c.root k = true) :
    (∀ k ∈ (c.set fold p v).1.mapping.map Prod.fst,
        keyUnderRoot fold (c.set fold p v).1.root k = true) ∧
      (c.set fold p v).1.root = c.root ∧
      (∀ k, k ∈ (c.set fold p v).1.mapping.map Prod.fst ↔
        (Path.Empty p = false ∧ k = c.resolve fold p) ∨ k ∈ c.mapping.map Prod.fst) ∧
      (∀ k, k ≠ c.resolve fold p →
        (c.set fold p v).1.mapping.lookup k = c.mapping.lookup k) := by
  cases hp : Path.Empty p with
  | true =>
    have hs : c.set fold p v = (c, false) := by simp [Configuration.set, hp]
    rw [hs]
    exact ⟨hinv, rfl, fun k => by simp, fun _ _ => rfl⟩
  | false =>
    have hs : c.set fold p v =
        ({ c with mapping := ConfigMap.put c.mapping (c.resolve fold p) v }, true) := by
      simp [Configuration.set, hp]
    rw [hs]
    refine ⟨?_, rfl, ?_, ?_⟩
    · intro k hk
      rcases (mem_keys_put _ _ _ _).1 hk with e | e
      · rw [e]
        exact resolve_underRoot fold c p hroot hp
      · exact hinv k e
    · intro k
      simp only [mem_keys_put, true_and]
    · intro k hk
      exact lookup_put_ne _ _ _ _ hk

/-- Witness of C31: `Set("name", "svc")` on the store loaded from `app: (ports: [80, 443])`
adds the key `app.name`, and the entry of `app.ports.#` is as before. -/
theorem set_preserves_root_invariant_witness :
    (∀ k ∈ (portsConfig.set asciiFold "name".toList "svc".toList).1.mapping.map Prod.fst,
        keyUnderRoot asciiFold "app".toList k = true) ∧
      "app.name".toList ∈
        (portsConfig.set asciiFold "name".toList "svc".toList).1.mapping.map Prod.fst ∧
      (portsConfig.set asciiFold "name".toList "svc".toList).1.mapping.lookup
        "app.ports.#".toList = some "2".toList := by
  obtain ⟨h1, -, h3, h4⟩ := set_preserves_root_invariant asciiFold portsConfig "name".toList
    "svc".toList (by decide) (by decide)
  exact ⟨h1, (h3 _).2 (Or.inl ⟨by decide, by decide⟩),
    (h4 "app.ports.#".toList (by decide)).trans (by decide)⟩

end ConfigGo
